import Mathlib

/-! # KickViz audio visualizer: the audio-to-bar-intensity core

A shallow embedding of `src/dsp_fft.hpp` and of the DSP part of
`src/kickviz-source.cpp` (`clampf`, `audio_capture_cb`, `kickviz_update`,
`compute_bins`), followed by theorems about it.

Conventions of the embedding.

* `float` is an arbitrary linearly ordered field `F` with a floor function; the
  `<cmath>` functions the source calls are collected in `FloatOps F`.  Theorems that
  speak about exact arithmetic instantiate `F := ℝ` with the real functions.
* `std::vector<T>` is `List T`.  An index outside the vector and a remainder by zero
  are undefined behaviour in the source; the embedding returns `none` there, so a
  result `some _` always comes with every access in bounds.
* `size_t` is `Nat`; the one subtraction on `size_t` is taken modulo `2 ^ 64`.
* `int` is `Int`; `(int) x` on a float truncates toward zero.
* Where the rounding of `float` is the subject, the section on binary32 arithmetic
  gives the round-to-nearest value on the rationals and the bar update with every
  operation rounded.
-/

namespace KickViz

/-! ## Numeric helpers -/

/-- The `<cmath>` functions used by the source, over the carrier `F` of `float`. -/
structure FloatOps (F : Type) where
  cos : F → F
  sin : F → F
  sqrt : F → F
  exp : F → F
  pow : F → F → F
  pi : F

/-- The cast `(int) x` of a float `x`: truncation toward zero. -/
def truncToInt {F : Type} [LinearOrderedField F] [FloorRing F] (x : F) : Int :=
  if 0 ≤ x then Int.floor x else Int.ceil x

/-- The helper `clampf(v, lo, hi) = std::max(lo, std::min(hi, v))`. -/
def clampf {F : Type} [LinearOrder F] (v lo hi : F) : F :=
  max lo (min hi v)

/-- The type `std::complex<float>`: a pair of a real and an imaginary part. -/
structure Cx (F : Type) where
  re : F
  im : F
deriving DecidableEq

namespace Cx

variable {F : Type}

/-- Addition of `std::complex` (`operator+`). -/
protected def add [Add F] (a b : Cx F) : Cx F :=
  ⟨a.re + b.re, a.im + b.im⟩

/-- Subtraction of `std::complex` (`operator-`). -/
protected def sub [Sub F] (a b : Cx F) : Cx F :=
  ⟨a.re - b.re, a.im - b.im⟩

/-- Multiplication of `std::complex` (`operator*`). -/
protected def mul [Add F] [Sub F] [Mul F] (a b : Cx F) : Cx F :=
  ⟨a.re * b.re - a.im * b.im, a.re * b.im + a.im * b.re⟩

instance [Add F] : Add (Cx F) := ⟨Cx.add⟩

instance [Sub F] : Sub (Cx F) := ⟨Cx.sub⟩

instance [Add F] [Sub F] [Mul F] : Mul (Cx F) := ⟨Cx.mul⟩

end Cx

/-! ## Settings and state -/

/-- The fields of `KickVizState::S` that `kickviz_update` clamps and `compute_bins`
reads (colours, size, mode and shape only reach the renderer). -/
structure Settings (F : Type) where
  freq_range : Int
  magnitude : F
  sensitivity : F
  smoothing : F
  decay : F
  bar_width : Int
  gap : Int

/-- The fields of `KickVizState` used by the audio callback and by `compute_bins`. -/
structure KickVizState (F : Type) where
  S : Settings F
  ring : List F
  ring_write : Nat
  window : List F
  mags : List F
  smooth : List F
  peaks : List F

/-- One delivery of `struct audio_data`: the frame count and the two channel pointers
(`none` is a null pointer). -/
structure AudioData (F : Type) where
  frames : Nat
  ch0 : Option (List F)
  ch1 : Option (List F)

section Ring

variable {F : Type} [LinearOrderedField F]

/-- The mono sample of frame `i`: `ch0[i]`, or `0.5f * (ch0[i] + ch1[i])` when a
second channel is present. -/
def mono_sample (ch0 : List F) (ch1 : Option (List F)) (i : Nat) : Option F :=
  match ch0[i]?, ch1 with
  | none, _ => none
  | some v, none => some v
  | some v, some c1 =>
    match c1[i]? with
    | none => none
    | some v1 => some (0.5 * (v + v1))

/-- The write loop of `audio_capture_cb`, `n` frames left, frame `i` next:
`ring[ring_write] = v; ring_write = (ring_write + 1) % ring.size()`. -/
def write_loop (ch0 : List F) (ch1 : Option (List F)) :
    Nat → Nat → List F → Nat → Option (List F × Nat)
  | 0, _, ring, w => some (ring, w)
  | n + 1, i, ring, w =>
    match mono_sample ch0 ch1 i with
    | none => none
    | some v =>
      if w < ring.length then
        write_loop ch0 ch1 n (i + 1) (ring.set w v) ((w + 1) % ring.length)
      else none

/-- The callback `audio_capture_cb(param, source, audio, muted)` with `param` the state. -/
def audio_capture_cb (st : KickVizState F) (audio : Option (AudioData F)) (muted : Bool) :
    Option (KickVizState F) :=
  match audio with
  | none => some st
  | some au =>
    if muted then some st
    else if au.frames = 0 then some st
    else
      match au.ch0 with
      | none => some st
      | some ch0 =>
        if st.ring.isEmpty then some st
        else
          match write_loop ch0 au.ch1 au.frames 0 st.ring st.ring_write with
          | none => none
          | some (ring, w) => some { st with ring := ring, ring_write := w }

/-- The copy loop at the head of `compute_bins`, `n` samples left:
`window[i] = ring[idx]; idx = (idx + 1) % R`. -/
def copy_loop (ring : List F) : Nat → Nat → Option (List F)
  | 0, _ => some []
  | n + 1, idx =>
    match ring[idx]?, copy_loop ring n ((idx + 1) % ring.length) with
    | some v, some rest => some (v :: rest)
    | _, _ => none

/-- The first block of `compute_bins`: the window is overwritten with the `N` ring
samples that end at the write cursor.  `ring_write + R - N` is `size_t` arithmetic. -/
def read_window (st : KickVizState F) : Option (List F) :=
  let N := st.window.length
  let R := st.ring.length
  if R = 0 then none
  else copy_loop st.ring N (((st.ring_write + R + (2 ^ 64 - N % 2 ^ 64)) % 2 ^ 64) % R)

end Ring

/-! ## `dsp_fft.hpp` -/

section FFT

variable {F : Type} [LinearOrderedField F]

/-- The function `hann_window(x)`: sample `n` is multiplied by
`0.5f - 0.5f * cos(2.0f * M_PI * n / (N - 1))`; unchanged when `N < 2`. -/
def hann_window (ops : FloatOps F) (x : List F) : List F :=
  let N := x.length
  if N < 2 then x
  else x.mapIdx fun n v => v * (0.5 - 0.5 * ops.cos (2 * ops.pi * (n : F) / ((N - 1 : Nat) : F)))

/-- The loop `for (; j & bit; bit >>= 1) j ^= bit;` of the bit-reversal pass; it returns
the final `(j, bit)`.  The first argument bounds the number of iterations: `bit` is
halved in each one, so `bit < 2 ^ fuel` is enough for the loop to leave by its test. -/
def carry_loop : Nat → Nat → Nat → Nat × Nat
  | 0, j, bit => (j, bit)
  | fuel + 1, j, bit =>
    if j &&& bit ≠ 0 then carry_loop fuel (j ^^^ bit) (bit >>> 1) else (j, bit)

/-- The exchange `std::swap(a[i], a[j])`. -/
def swap_at {α : Type} (a : List α) (i j : Nat) : Option (List α) :=
  match a[i]?, a[j]? with
  | some x, some y => some ((a.set i y).set j x)
  | _, _ => none

/-- The bit-reversal pass of `fft_inplace`, `n` iterations left, at index `i` with the
reversed counter `j` of the previous iteration. -/
def bit_reverse_loop {α : Type} (N : Nat) : Nat → Nat → Nat → List α → Option (List α)
  | 0, _, _, a => some a
  | n + 1, i, j, a =>
    let r := carry_loop N j (N >>> 1)
    let j1 := r.1 ^^^ r.2
    if i < j1 then
      match swap_at a i j1 with
      | none => none
      | some a1 => bit_reverse_loop N n (i + 1) j1 a1
    else bit_reverse_loop N n (i + 1) j1 a

/-- The innermost butterfly loop `for (j = 0; j < len/2; j++)` of block `i`, `n`
iterations left, with the running twiddle `w`; `half` is `len/2`. -/
def butterfly_loop (half : Nat) (wlen : Cx F) (i : Nat) :
    Nat → Nat → Cx F → List (Cx F) → Option (List (Cx F))
  | 0, _, _, a => some a
  | n + 1, j, w, a =>
    match a[i + j]?, a[i + j + half]? with
    | some u, some x =>
      let v := x * w
      butterfly_loop half wlen i n (j + 1) (w * wlen)
        ((a.set (i + j) (u + v)).set (i + j + half) (u - v))
    | _, _ => none

/-- The block loop `for (i = 0; i < N; i += len)`; `fuel` bounds the iterations
(`N` is enough, `len` being positive). -/
def block_loop (N len : Nat) (wlen : Cx F) : Nat → Nat → List (Cx F) → Option (List (Cx F))
  | 0, _, a => some a
  | fuel + 1, i, a =>
    if i < N then
      match butterfly_loop (len / 2) wlen i (len / 2) 0 ⟨1, 0⟩ a with
      | none => none
      | some a1 => block_loop N len wlen fuel (i + len) a1
    else some a

/-- The stage loop `for (len = 2; len <= N; len <<= 1)`; `fuel` bounds the iterations
(`N` is enough, `len` doubling). -/
def stage_loop (ops : FloatOps F) (N : Nat) : Nat → Nat → List (Cx F) → Option (List (Cx F))
  | 0, _, a => some a
  | fuel + 1, len, a =>
    if len ≤ N then
      let ang : F := -2 * ops.pi / (len : F)
      let wlen : Cx F := ⟨ops.cos ang, ops.sin ang⟩
      match block_loop N len wlen N 0 a with
      | none => none
      | some a1 => stage_loop ops N fuel (len <<< 1) a1
    else some a

/-- The function `fft_inplace(a)`: the bit-reversal pass, then the butterfly stages. -/
def fft_inplace (ops : FloatOps F) (a : List (Cx F)) : Option (List (Cx F)) :=
  let N := a.length
  match bit_reverse_loop N (N - 1) 1 0 a with
  | none => none
  | some a1 => stage_loop ops N N 2 a1

/-- The function `real_fft_mag_0_to_nyquist(input, out_mag)`; the result is `out_mag`. -/
def real_fft_mag_0_to_nyquist (ops : FloatOps F) (input : List F) : Option (List F) :=
  let N := input.length
  match fft_inplace ops (input.map fun x => (⟨x, 0⟩ : Cx F)) with
  | none => none
  | some a => some ((a.take (N / 2)).map fun z => ops.sqrt (z.re * z.re + z.im * z.im))

end FFT

/-! ## `kickviz_update` and `compute_bins` -/

section Update

variable {F : Type} [LinearOrderedField F]

/-- The clamping part of `kickviz_update(data, settings)`; `d` holds what the
`obs_data_get_*` calls return. -/
def kickviz_update (st : KickVizState F) (d : Settings F) : KickVizState F :=
  { st with
    S :=
      { freq_range := d.freq_range
        magnitude := if d.magnitude < 0.1 then 1 else d.magnitude
        sensitivity := clampf d.sensitivity 0.1 10
        smoothing := clampf d.smoothing 0 0.95
        decay := clampf d.decay 0 1
        bar_width := max 1 d.bar_width
        gap := max 0 d.gap } }

/-- The raw intensity of a bar from its magnitude (lines 319 to 321). -/
def raw_intensity (ops : FloatOps F) (sens m : F) : F :=
  clampf (ops.pow (m * 0.015 * sens) 0.85) 0 1

/-- The smoothing and peak-hold update of one bar (lines 323 and 324): the new
`(smooth[i], peaks[i])`. -/
def bar_update (smoothA decay v s p : F) : F × F :=
  let s1 := s * smoothA + v * (1 - smoothA)
  (s1, max (p - decay * 0.02) s1)

end Update

section Bins

variable {F : Type} [LinearOrderedField F] [FloorRing F]

/-- The spectrum bin `idx` that `compute_bins` reads for bar `i` (lines 306 to 317). -/
def bar_index (ops : FloatOps F) (freq_range : Int) (nyq : Int) (bars : Int) (i : Int) : Int :=
  let t : F := if bars ≤ 1 then 0 else (i : F) / ((bars - 1 : Int) : F)
  let logScale : F := 6.5
  let mapped : F := (ops.exp (logScale * t) - 1) / (ops.exp logScale - 1)
  let maxPct : F :=
    if freq_range = 0 then 0.035
    else if freq_range = 2 then 0.50
    else if freq_range = 3 then 1.00
    else 0.20
  let maxIdx : Int := truncToInt ((nyq : F) * maxPct)
  let idx : Int := 1 + truncToInt (mapped * ((maxIdx - 2 : Int) : F))
  max 1 (min (nyq - 1) idx)

/-- The bar loop `for (int i = 0; i < bars; i++)` of `compute_bins`, `n` iterations
left. -/
def bars_loop (ops : FloatOps F) (S : Settings F) (mags : List F) (bars : Nat) :
    Nat → Nat → List F → List F → Option (List F × List F)
  | 0, _, sm, pk => some (sm, pk)
  | n + 1, i, sm, pk =>
    let idx := bar_index ops S.freq_range (mags.length : Int) (bars : Int) (i : Int)
    match mags[idx.toNat]?, sm[i]?, pk[i]? with
    | some m, some s, some p =>
      let r := bar_update S.smoothing S.decay (raw_intensity ops S.sensitivity m) s p
      bars_loop ops S mags bars n (i + 1) (sm.set i r.1) (pk.set i r.2)
    | _, _, _ => none

/-- The function `compute_bins(st, bars)` for `bars ≥ 0`. -/
def compute_bins (ops : FloatOps F) (st : KickVizState F) (bars : Nat) :
    Option (KickVizState F) :=
  match read_window st with
  | none => none
  | some w0 =>
    let window := hann_window ops w0
    match real_fft_mag_0_to_nyquist ops window with
    | none => none
    | some mags =>
      let sm0 := if st.smooth.length ≠ bars then List.replicate bars 0 else st.smooth
      let pk0 := if st.smooth.length ≠ bars then List.replicate bars 0 else st.peaks
      match bars_loop ops st.S mags bars bars 0 sm0 pk0 with
      | none => none
      | some r => some { st with window := window, mags := mags, smooth := r.1, peaks := r.2 }

end Bins

section Ticks

variable {F : Type} [LinearOrderedField F] [FloorRing F]

/-- The render ticks: `n` consecutive calls of `compute_bins` with the same bar count
and no audio delivery or settings update in between. -/
def ticks (ops : FloatOps F) (bars : Nat) : Nat → KickVizState F → Option (KickVizState F)
  | 0, st => some st
  | n + 1, st =>
    match compute_bins ops st bars with
    | none => none
    | some st1 => ticks ops bars n st1

end Ticks

section RingSpec
variable {F : Type} [LinearOrderedField F]

/-- A delivery is well formed when each channel present holds at least `frames` samples. -/
def AudioData.wf (au : AudioData F) : Prop :=
  (∀ c, au.ch0 = some c → au.frames ≤ c.length) ∧
  (∀ c, au.ch1 = some c → au.frames ≤ c.length)

/-- The downmix of one frame, as the specification words it. -/
def downmix (ch0 : List F) (ch1 : Option (List F)) (i : Nat) : F :=
  match ch1 with
  | none => ch0.getD i 0
  | some c1 => 0.5 * (ch0.getD i 0 + c1.getD i 0)

/-- The mono samples one callback appends to the stream: none when the delivery is
missing, muted or without a first channel. -/
def written_by (audio : Option (AudioData F)) (muted : Bool) : List F :=
  match audio with
  | none => []
  | some au =>
    if muted then []
    else
      match au.ch0 with
      | none => []
      | some ch0 => (List.range au.frames).map (downmix ch0 au.ch1)

/-- The mono stream written by a sequence of callbacks, oldest first. -/
def written : List (Option (AudioData F) × Bool) → List F
  | [] => []
  | c :: cs => written_by c.1 c.2 ++ written cs

/-- A sequence of callbacks, run in order from `st`. -/
def run_callbacks (st : KickVizState F) :
    List (Option (AudioData F) × Bool) → Option (KickVizState F)
  | [] => some st
  | c :: cs =>
    match audio_capture_cb st c.1 c.2 with
    | none => none
    | some st1 => run_callbacks st1 cs

/-- The last `n` elements of a sequence, oldest first. -/
def latest (n : Nat) (l : List F) : List F :=
  l.drop (l.length - n)

/-- The ring holds the last `ring.length` elements of the stream `T`, element `t` of
the stream at slot `t % ring.length`, and the cursor is the slot of the next one. -/
def RingHolds (ring : List F) (w : Nat) (T : List F) : Prop :=
  ring.length ≤ T.length ∧ w = T.length % ring.length ∧
    ∀ t, T.length - ring.length ≤ t → t < T.length → ring[t % ring.length]? = T[t]?

end RingSpec


/-! ## Specification-side definitions for the transform -/

/-- The reversal of the `w` low bits of `b`. -/
def rev : Nat → Nat → Nat
  | 0, _ => 0
  | w + 1, b => rev w (b / 2) + (b % 2) * 2 ^ w

section FFTSpec

variable {F : Type} [LinearOrderedField F]

/-- The running twiddle factor after `k` iterations of the butterfly loop:
`w` starts at `1` and is multiplied by `wlen` in each iteration. -/
def twiddle (wlen : Cx F) : Nat → Cx F
  | 0 => ⟨1, 0⟩
  | k + 1 => twiddle wlen k * wlen

/-- The per-stage twiddle `wlen` of `fft_inplace` for block length `len`. -/
def stage_wlen (ops : FloatOps F) (len : Nat) : Cx F :=
  ⟨ops.cos (-2 * ops.pi / (len : F)), ops.sin (-2 * ops.pi / (len : F))⟩

/-- Element `p` of a complex vector, `0` outside it. -/
def elt (a : List (Cx F)) (p : Nat) : Cx F :=
  a.getD p ⟨0, 0⟩


/-- What one butterfly stage of block length `2 ^ (s + 1)` does to a vector of length
`2 ^ m`, element by element. -/
def StageStep (ops : FloatOps F) (m s : Nat) (a a1 : List (Cx F)) : Prop :=
  ∀ p, elt a1 p =
    if p < 2 ^ m then
      if p % 2 ^ (s + 1) < 2 ^ s then
        elt a p + elt a (p + 2 ^ s) * twiddle (stage_wlen ops (2 ^ (s + 1))) (p % 2 ^ (s + 1))
      else
        elt a (p - 2 ^ s) -
          elt a p * twiddle (stage_wlen ops (2 ^ (s + 1))) (p % 2 ^ (s + 1) - 2 ^ s)
    else elt a p

end FFTSpec

section ScaleSpec

variable {F : Type} [LinearOrderedField F]

/-- A complex number multiplied by the real scalar `c`. -/
def Cx.scale (c : F) (z : Cx F) : Cx F :=
  ⟨c * z.re, c * z.im⟩

/-- The total energy of a magnitude spectrum: the sum of the squared magnitudes. -/
def energy (mags : List F) : F :=
  (mags.map fun v => v * v).sum

end ScaleSpec

/-! ## Specification-side definitions for the bar state -/

section BinSpec

variable {F : Type} [LinearOrderedField F] [FloorRing F]

/-- The raw intensity of bar `q` on a tick with spectrum `mags`. -/
def bar_raw (ops : FloatOps F) (S : Settings F) (mags : List F) (bars q : Nat) : F :=
  raw_intensity ops S.sensitivity
    (mags.getD (bar_index ops S.freq_range (mags.length : Int) (bars : Int) (q : Int)).toNat 0)

/-- The bar state is two parallel sequences with `0 ≤ smooth[i] ≤ peaks[i] ≤ 1`. -/
def BarInv (smooth peaks : List F) : Prop :=
  smooth.length = peaks.length ∧
    ∀ i, i < smooth.length →
      0 ≤ smooth.getD i 0 ∧ smooth.getD i 0 ≤ peaks.getD i 0 ∧ peaks.getD i 0 ≤ 1

/-- The update of one bar on a tick with raw intensity 0, as the specification words
it: from the values `s`, `p` of `smooth[i]`, `peaks[i]` before the update to the values
`s1`, `p1` after it, with smoothing `a` and decay `d`. -/
def SilentStep (a d s p s1 p1 : F) : Prop :=
  s1 = s * a ∧ (s * a ≤ p - d * 0.02 → p1 = p - d * 0.02) ∧
    (p - d * 0.02 < s * a → p1 = s * a) ∧ 0 ≤ p1

/-- The value of bar `q` that enters the update of a tick with `bars` bars, for `l` the
stored `smooth` or `peaks`: the stored value, or 0 when the tick resizes the bar state. -/
def entering (st : KickVizState F) (l : List F) (bars q : Nat) : F :=
  (if st.smooth.length ≠ bars then List.replicate bars 0 else l).getD q 0

/-- A session of `n` render ticks with the same bar count: before tick `k` (counted
from 0) the audio thread runs the callbacks `sched k`, then `compute_bins` runs. -/
def session (ops : FloatOps F) (bars : Nat) (sched : Nat → List (Option (AudioData F) × Bool)) :
    Nat → KickVizState F → Option (KickVizState F)
  | 0, st => some st
  | n + 1, st =>
    match session ops bars sched n st with
    | none => none
    | some s =>
      match run_callbacks s (sched n) with
      | none => none
      | some s1 => compute_bins ops s1 bars

end BinSpec

section SilenceSpec

variable {F : Type} [LinearOrderedField F]

/-- The peak of a bar after `t` silent ticks (raw intensity 0 on each), from the
smoothed value `s0` and the peak `p0`: the smoothed value after `t` ticks is
`s0 * a ^ t`. -/
def silent_peak (a d s0 p0 : F) : Nat → F
  | 0 => p0
  | t + 1 => max (silent_peak a d s0 p0 t - d * 0.02) (s0 * a ^ (t + 1))

/-- A state of the sizes `kickviz_create` sets up (a silent ring of 96000 samples, a
window of 2048), with 16 bars at full height, smoothing 0.5 and decay 0. -/
def held_state : KickVizState F where
  S :=
    { freq_range := 1
      magnitude := 1
      sensitivity := 1
      smoothing := 0.5
      decay := 0
      bar_width := 10
      gap := 3 }
  ring := List.replicate 96000 0
  ring_write := 0
  window := List.replicate 2048 0
  mags := []
  smooth := List.replicate 16 1
  peaks := List.replicate 16 1

end SilenceSpec

section Samples

variable {F : Type} [LinearOrderedField F]

/-- A small state with the default settings of `kickviz_get_defaults` (sensitivity
1.25, smoothing 0.55, decay 0.12): a zero-filled ring of 8 samples with cursor 0, a
window of 4 samples and two bars. -/
def sample_state : KickVizState F where
  S :=
    { freq_range := 1
      magnitude := 1
      sensitivity := 1.25
      smoothing := 0.55
      decay := 0.12
      bar_width := 10
      gap := 3 }
  ring := [0, 0, 0, 0, 0, 0, 0, 0]
  ring_write := 0
  window := [0, 0, 0, 0]
  mags := []
  smooth := [0.5, 0.25]
  peaks := [1, 0.25]

/-- Two deliveries: three mono frames, then two stereo frames. -/
def sample_callbacks : List (Option (AudioData F) × Bool) :=
  [(some ⟨3, some [1, 2, 3], none⟩, false), (some ⟨2, some [4, 5], some [6, 7]⟩, false)]

end Samples

/-! ## Exact arithmetic and the specification's formulas -/

/-- Exact real arithmetic: `float` read as `ℝ` and the `<cmath>` functions as the real
functions they approximate. -/
noncomputable def realOps : FloatOps ℝ where
  cos := Real.cos
  sin := Real.sin
  sqrt := Real.sqrt
  exp := Real.exp
  pow := fun x y => x ^ y
  pi := Real.pi

/-- The range selector of the specification. -/
inductive FreqRange where
  | Bass
  | Standard
  | Wide
  | Full
deriving DecidableEq

/-- The value of `S.freq_range` that stands for a selector. -/
def FreqRange.code : FreqRange → Int
  | .Bass => 0
  | .Standard => 1
  | .Wide => 2
  | .Full => 3

section IndexSpec

variable {F : Type} [LinearOrderedField F] [FloorRing F]

/-- The frequency ceiling of a selector, as a fraction of the spectrum length. -/
def FreqRange.fraction : FreqRange → F
  | .Bass => 0.035
  | .Standard => 0.20
  | .Wide => 0.50
  | .Full => 1.00

/-- The target bin of bar `i` as the specification words it, with the conversion of
the product to an integer left as a parameter:
`clamp(1 + conv(mapped * (max_index - 2)), 1, L - 1)`, `clamp` being the source's
`max(lo, min(hi, v))`. -/
def spec_index (ops : FloatOps F) (conv : F → Int) (r : FreqRange) (L bars i : Nat) : Int :=
  let t : F := if bars ≤ 1 then 0 else (i : F) / ((bars : F) - 1)
  let mapped : F := (ops.exp (6.5 * t) - 1) / (ops.exp 6.5 - 1)
  let max_index : Int := Int.floor ((L : F) * (FreqRange.fraction r : F))
  max 1 (min ((L : Int) - 1) (1 + conv (mapped * ((max_index : F) - 2))))

end IndexSpec

/-! ## The discrete Fourier transform -/

/-- A `std::complex` value with real parts, as a complex number. -/
def toC (z : Cx ℝ) : ℂ :=
  ⟨z.re, z.im⟩

/-- The root of unity `e^{-2πi/L}`. -/
noncomputable def omega (L : Nat) : ℂ :=
  Complex.exp (-2 * Real.pi * Complex.I / L)

/-- The forward discrete Fourier transform of the complex vector `a` at bin `k`:
the sum over `n` of `a[n] * e^{-2πi·k·n/N}`. -/
noncomputable def dft (a : List (Cx ℝ)) (k : Nat) : ℂ :=
  ∑ n in Finset.range a.length,
    toC (elt a n) * Complex.exp (-2 * Real.pi * Complex.I * k * n / a.length)

/-- The value at position `p` after `s` butterfly stages on an input `x` of length
`2 ^ (s + w)`: the transform of length `2 ^ s` of the subsequence of stride `2 ^ w`
that starts at the reversal of the block number. -/
noncomputable def stageSum (x : Nat → ℂ) (w s p : Nat) : ℂ :=
  ∑ n in Finset.range (2 ^ s), x (rev w (p / 2 ^ s) + n * 2 ^ w) * omega (2 ^ s) ^ (n * (p % 2 ^ s))

/-- A pure sine of `N` samples at bin frequency `k`, with amplitude `A` and phase `φ`. -/
noncomputable def pure_sine (N k : Nat) (A φ : ℝ) : List ℝ :=
  (List.range N).map fun (n : Nat) => A * Real.sin (2 * Real.pi * k * n / N + φ)

/-! ## Binary32 arithmetic

On the platforms OBS Studio builds for, `float` is IEEE 754 binary32 and every
operation rounds its exact result to the nearest binary32 value, ties to even.  The
definitions below give that rounding on the rationals, for results below `2 ^ 128` in
magnitude, and the bar update with each operation rounded. -/

section Binary32

/-- Rounding of a rational to the nearest integer, ties to the even one. -/
def round_half_even (y : ℚ) : Int :=
  if y - ⌊y⌋ < 1 / 2 then ⌊y⌋
  else if 1 / 2 < y - ⌊y⌋ then ⌊y⌋ + 1
  else if ⌊y⌋ % 2 = 0 then ⌊y⌋ else ⌊y⌋ + 1

/-- The exponent of the binary32 binade of `x`: the integer part of `log₂ |x|`, and
`-126` in the subnormal range. -/
def f32_exponent (x : ℚ) : Int :=
  max (-126) (Int.log 2 |x|)

/-- The binary32 value of a rational `x` with `|x| < 2 ^ 128`: 24 significant bits,
round to nearest, ties to even. -/
def f32 (x : ℚ) : ℚ :=
  round_half_even (x / 2 ^ (f32_exponent x - 23)) * 2 ^ (f32_exponent x - 23)

/-- Lines 323 and 324 in binary32, from binary32 values `smoothA`, `decay`, `v`, `s`,
`p`: every operation of
`smooth[i] = smooth[i] * smoothA + v * (1.0f - smoothA)` and of
`peaks[i] = std::max(peaks[i] - decay * 0.02f, smooth[i])` rounds its result; `0.02f`
is the binary32 value of `0.02`. -/
def bar_update_f32 (smoothA decay v s p : ℚ) : ℚ × ℚ :=
  let s1 := f32 (f32 (s * smoothA) + f32 (v * f32 (1 - smoothA)))
  (s1, max (f32 (p - f32 (decay * f32 0.02))) s1)

end Binary32

/-! ## The ring buffer -/

section RingProofs
variable {F : Type} [LinearOrderedField F]

theorem ringHolds_init (R : Nat) :
    RingHolds (List.replicate R (0 : F)) 0 (List.replicate R (0 : F)) := by
  refine ⟨by simp, by simp, ?_⟩
  intro t _ ht
  simp only [List.length_replicate] at ht ⊢
  rw [Nat.mod_eq_of_lt ht]

omit [LinearOrderedField F] in
theorem ringHolds_write {ring : List F} {w : Nat} {T : List F} (hR : 0 < ring.length)
    (h : RingHolds ring w T) (v : F) :
    w < ring.length ∧
      RingHolds (ring.set w v) ((w + 1) % ring.length) (T ++ [v]) := by
  obtain ⟨hlen, hw, hget⟩ := h
  have hwlt : w < ring.length := by rw [hw]; exact Nat.mod_lt _ hR
  refine ⟨hwlt, ?_, ?_, ?_⟩
  · simp only [List.length_set, List.length_append, List.length_singleton]; omega
  · simp only [List.length_set, List.length_append, List.length_singleton]
    rw [hw, Nat.add_mod, Nat.mod_mod, ← Nat.add_mod]
  · intro t ht1 ht2
    simp only [List.length_set, List.length_append, List.length_singleton] at ht1 ht2 ⊢
    rw [List.getElem?_set]
    by_cases hEq : t = T.length
    · subst hEq
      rw [if_pos hw, if_pos hwlt]
      simp
    · have htlt : t < T.length := by omega
      have hne : w ≠ t % ring.length := by
        rw [hw]
        intro hmod
        have h1 : (T.length - t) % ring.length = 0 :=
          Nat.sub_mod_eq_zero_of_mod_eq hmod
        have h2 : T.length - t < ring.length := by omega
        rw [Nat.mod_eq_of_lt h2] at h1
        omega
      rw [if_neg hne, List.getElem?_append_left htlt]
      exact hget t (by omega) htlt

omit [LinearOrderedField F] in
theorem copy_loop_eq {ring : List F} {w : Nat} {T : List F} (h : RingHolds ring w T) :
    ∀ (n t : Nat), T.length - ring.length ≤ t → t + n ≤ T.length →
      copy_loop ring n (t % ring.length) = some ((T.drop t).take n) := by
  intro n
  induction n with
  | zero => intro t _ _; simp [copy_loop]
  | succ n ih =>
    intro t ht1 ht2
    have htlt : t < T.length := by omega
    have hstep : (t % ring.length + 1) % ring.length = (t + 1) % ring.length := by
      rw [Nat.add_mod, Nat.mod_mod, ← Nat.add_mod]
    rw [copy_loop, hstep, ih (t + 1) (by omega) (by omega), h.2.2 t ht1 htlt,
      List.getElem?_eq_getElem htlt]
    simp only
    rw [List.drop_eq_getElem_cons htlt, List.take_succ_cons]

theorem write_loop_eq (ch0 : List F) (ch1 : Option (List F)) (frames : Nat)
    (h0 : frames ≤ ch0.length) (h1 : ∀ c, ch1 = some c → frames ≤ c.length) :
    ∀ (n i : Nat) (ring : List F) (w : Nat) (T : List F), i + n = frames →
      0 < ring.length → RingHolds ring w T →
      ∃ ring1 w1, write_loop ch0 ch1 n i ring w = some (ring1, w1) ∧
        ring1.length = ring.length ∧
        RingHolds ring1 w1 (T ++ ((List.range n).map fun k => downmix ch0 ch1 (i + k))) := by
  intro n
  induction n with
  | zero =>
    intro i ring w T _ _ h
    exact ⟨ring, w, rfl, rfl, by simpa using h⟩
  | succ n ih =>
    intro i ring w T hin hR h
    have hi0 : i < ch0.length := by omega
    have hmono : mono_sample ch0 ch1 i = some (downmix ch0 ch1 i) := by
      unfold mono_sample downmix
      rw [List.getElem?_eq_getElem hi0]
      cases ch1 with
      | none => simp [List.getD_eq_getElem?_getD, List.getElem?_eq_getElem hi0]
      | some c1 =>
        have hi1 : i < c1.length := by have := h1 c1 rfl; omega
        simp [List.getD_eq_getElem?_getD, List.getElem?_eq_getElem hi0,
          List.getElem?_eq_getElem hi1]
    obtain ⟨hwlt, hstep⟩ := ringHolds_write hR h (downmix ch0 ch1 i)
    have hlen : (ring.set w (downmix ch0 ch1 i)).length = ring.length := List.length_set _ _ _
    obtain ⟨ring1, w1, hrun, hlen1, hres⟩ :=
      ih (i + 1) (ring.set w (downmix ch0 ch1 i)) ((w + 1) % ring.length)
        (T ++ [downmix ch0 ch1 i]) (by omega) (by rw [hlen]; exact hR) hstep
    refine ⟨ring1, w1, ?_, by rw [hlen1, hlen], ?_⟩
    · rw [write_loop, hmono]
      simp only [hwlt, if_true]
      exact hrun
    · have hlist : ((List.range (n + 1)).map fun k => downmix ch0 ch1 (i + k)) =
          downmix ch0 ch1 i :: ((List.range n).map fun k => downmix ch0 ch1 (i + 1 + k)) := by
        rw [List.range_succ_eq_map, List.map_cons, List.map_map]
        simp only [Nat.add_zero, List.cons.injEq, true_and]
        apply List.map_congr_left
        intro k _
        simp only [Function.comp, Nat.succ_eq_add_one]
        congr 1
        omega
      rw [hlist]
      simpa [List.append_assoc] using hres

end RingProofs
section RingProofs2
variable {F : Type} [LinearOrderedField F]

theorem audio_capture_cb_holds (st : KickVizState F) (audio : Option (AudioData F))
    (muted : Bool) (T : List F) (hwf : ∀ au, audio = some au → au.wf)
    (hR : 0 < st.ring.length) (h : RingHolds st.ring st.ring_write T) :
    ∃ st1, audio_capture_cb st audio muted = some st1 ∧
      st1.ring.length = st.ring.length ∧ st1.window = st.window ∧
      RingHolds st1.ring st1.ring_write (T ++ written_by audio muted) := by
  cases audio with
  | none => exact ⟨st, rfl, rfl, rfl, by simpa [written_by] using h⟩
  | some au =>
    cases muted with
    | true => exact ⟨st, rfl, rfl, rfl, by simpa [written_by] using h⟩
    | false =>
      obtain ⟨hwf0, hwf1⟩ := hwf au rfl
      cases hc0 : au.ch0 with
      | none =>
        refine ⟨st, ?_, rfl, rfl, by simpa [written_by, hc0] using h⟩
        simp [audio_capture_cb, hc0]
      | some ch0 =>
        by_cases hfr : au.frames = 0
        · refine ⟨st, ?_, rfl, rfl, by simpa [written_by, hc0, hfr] using h⟩
          simp [audio_capture_cb, hfr]
        · have hne : st.ring.isEmpty = false := by
            cases hring : st.ring with
            | nil => rw [hring] at hR; simp at hR
            | cons a l => rfl
          obtain ⟨ring1, w1, hrun, hlen1, hres⟩ :=
            write_loop_eq ch0 au.ch1 au.frames (hwf0 ch0 hc0) hwf1 au.frames 0 st.ring
              st.ring_write T (by omega) hR h
          refine ⟨{ st with ring := ring1, ring_write := w1 }, ?_, hlen1, rfl, ?_⟩
          · simp [audio_capture_cb, hfr, hc0, hne, hrun]
          · simpa [written_by, hc0] using hres

theorem run_callbacks_holds (cbs : List (Option (AudioData F) × Bool)) :
    ∀ (st : KickVizState F) (T : List F), (∀ c ∈ cbs, ∀ au, c.1 = some au → au.wf) →
      0 < st.ring.length → RingHolds st.ring st.ring_write T →
      ∃ st1, run_callbacks st cbs = some st1 ∧
        st1.ring.length = st.ring.length ∧ st1.window = st.window ∧
        RingHolds st1.ring st1.ring_write (T ++ written cbs) := by
  induction cbs with
  | nil =>
    intro st T _ _ h
    exact ⟨st, rfl, rfl, rfl, by simpa [written] using h⟩
  | cons c cs ih =>
    intro st T hwf hR h
    obtain ⟨st1, hcb, hlen1, hwin1, hres1⟩ :=
      audio_capture_cb_holds st c.1 c.2 T (hwf c (List.mem_cons_self _ _)) hR h
    obtain ⟨st2, hrun, hlen2, hwin2, hres2⟩ :=
      ih st1 (T ++ written_by c.1 c.2)
        (fun d hd => hwf d (List.mem_cons_of_mem _ hd)) (by rw [hlen1]; exact hR) hres1
    refine ⟨st2, ?_, by rw [hlen2, hlen1], by rw [hwin2, hwin1], ?_⟩
    · rw [run_callbacks, hcb]
      exact hrun
    · simpa [written, List.append_assoc] using hres2

omit [LinearOrderedField F] in
theorem read_window_eq (st : KickVizState F) (T : List F) (hR : 0 < st.ring.length)
    (hsz : 2 * st.ring.length ≤ 2 ^ 64) (hN : st.window.length ≤ st.ring.length)
    (h : RingHolds st.ring st.ring_write T) :
    read_window st = some (latest st.window.length T) := by
  have hlen := h.1
  have hw := h.2.1
  have hwlt : st.ring_write < st.ring.length := by rw [hw]; exact Nat.mod_lt _ hR
  have hidx : ((st.ring_write + st.ring.length + (2 ^ 64 - st.window.length % 2 ^ 64)) % 2 ^ 64)
      % st.ring.length = (T.length - st.window.length) % st.ring.length := by
    have e1 : st.window.length % 2 ^ 64 = st.window.length := Nat.mod_eq_of_lt (by omega)
    have e2 : (st.ring_write + st.ring.length + (2 ^ 64 - st.window.length)) % 2 ^ 64 =
        st.ring_write + st.ring.length - st.window.length := by
      have e3 : st.ring_write + st.ring.length + (2 ^ 64 - st.window.length) =
          (st.ring_write + st.ring.length - st.window.length) + 2 ^ 64 := by omega
      rw [e3, Nat.add_mod_right]
      exact Nat.mod_eq_of_lt (by omega)
    rw [e1, e2]
    have hq : 1 ≤ T.length / st.ring.length := (Nat.one_le_div_iff hR).2 hlen
    have hdm := Nat.div_add_mod T.length st.ring.length
    rw [← hw] at hdm
    obtain ⟨q, hqe⟩ : ∃ q, T.length / st.ring.length = q + 1 := ⟨_, (Nat.sub_add_cancel hq).symm⟩
    rw [hqe] at hdm
    have e4 : T.length - st.window.length =
        st.ring.length * q + (st.ring_write + st.ring.length - st.window.length) := by
      rw [← hdm, Nat.mul_add, Nat.mul_one]
      omega
    rw [e4, Nat.mul_add_mod]
  unfold read_window
  simp only [Nat.ne_of_gt hR, if_false]
  rw [hidx, copy_loop_eq h st.window.length (T.length - st.window.length) (by omega) (by omega)]
  unfold latest
  rw [List.take_of_length_le]
  rw [List.length_drop]
  omega

end RingProofs2

section RingMain
variable {F : Type} [LinearOrderedField F]

/-- C1. From a zero-filled ring of capacity `R > 0` with write cursor 0, after any
sequence of well-formed `audio_capture_cb` deliveries the window that `compute_bins`
copies (length `N ≤ R`) is the last `N` elements of `R` zeros followed by the mono
samples written, oldest first; and once at least `R` samples were written a read of
length `R` returns exactly the last `R` samples written. -/
theorem ring_snapshot_is_latest (st : KickVizState F)
    (cbs : List (Option (AudioData F) × Bool))
    (hR : 0 < st.ring.length) (hsz : 2 * st.ring.length ≤ 2 ^ 64)
    (hzero : st.ring = List.replicate st.ring.length 0) (hw : st.ring_write = 0)
    (hN : st.window.length ≤ st.ring.length)
    (hwf : ∀ c ∈ cbs, ∀ au, c.1 = some au → au.wf) :
    ∃ st1, run_callbacks st cbs = some st1 ∧
      read_window st1 = some (latest st.window.length
        (List.replicate st.ring.length 0 ++ written cbs)) ∧
      (st.window.length = st.ring.length → st.ring.length ≤ (written cbs).length →
        read_window st1 = some (latest st.ring.length (written cbs))) := by
  have h0 : RingHolds st.ring st.ring_write (List.replicate st.ring.length 0) := by
    rw [hw]
    generalize st.ring.length = R at hzero ⊢
    rw [hzero]
    exact ringHolds_init R
  obtain ⟨st1, hrun, hlen1, hwin1, hres⟩ :=
    run_callbacks_holds cbs st (List.replicate st.ring.length 0) hwf hR h0
  have hread := read_window_eq st1 _ (by rw [hlen1]; exact hR) (by rw [hlen1]; exact hsz)
    (by rw [hlen1, hwin1]; exact hN) hres
  rw [hwin1] at hread
  refine ⟨st1, hrun, hread, ?_⟩
  intro hNR hlen
  rw [hread, hNR]
  unfold latest
  congr 1
  rw [List.length_append, List.length_replicate,
    List.drop_append_eq_append_drop, List.length_replicate]
  have e1 : st.ring.length + (written cbs).length - st.ring.length = (written cbs).length := by
    omega
  rw [e1, List.drop_eq_nil_of_le (by simp; omega), List.nil_append]

end RingMain

section RingFrame

variable {F : Type} [LinearOrderedField F]

theorem write_loop_defined (ch0 : List F) (ch1 : Option (List F)) (frames : Nat)
    (h0 : frames ≤ ch0.length) (h1 : ∀ c, ch1 = some c → frames ≤ c.length) :
    ∀ (n i : Nat) (ring : List F) (w : Nat), i + n = frames → w < ring.length →
      ∃ ring1 w1, write_loop ch0 ch1 n i ring w = some (ring1, w1) ∧
        ring1.length = ring.length ∧ w1 < ring1.length := by
  intro n
  induction n with
  | zero =>
    intro i ring w _ hw
    exact ⟨ring, w, rfl, rfl, hw⟩
  | succ n ih =>
    intro i ring w hin hw
    have hi0 : i < ch0.length := by omega
    have hmono : ∃ v, mono_sample ch0 ch1 i = some v := by
      unfold mono_sample
      rw [List.getElem?_eq_getElem hi0]
      cases ch1 with
      | none => exact ⟨_, rfl⟩
      | some c1 =>
        have hi1 : i < c1.length := by have := h1 c1 rfl; omega
        simp [List.getElem?_eq_getElem hi1]
    obtain ⟨v, hv⟩ := hmono
    have hlen : (ring.set w v).length = ring.length := List.length_set _ _ _
    obtain ⟨ring1, w1, hrun, hlen1, hw1⟩ :=
      ih (i + 1) (ring.set w v) ((w + 1) % ring.length) (by omega)
        (by rw [hlen]; exact Nat.mod_lt _ (by omega))
    refine ⟨ring1, w1, ?_, by rw [hlen1, hlen], hw1⟩
    rw [write_loop, hv]
    simp only [hw, if_true]
    exact hrun

/-- A callback is defined on a state whose cursor is inside the ring, and changes only
the ring contents and the cursor. -/
theorem audio_capture_cb_frame (st : KickVizState F) (audio : Option (AudioData F))
    (muted : Bool) (hwf : ∀ au, audio = some au → au.wf)
    (hw : st.ring_write < st.ring.length) :
    ∃ st1, audio_capture_cb st audio muted = some st1 ∧ st1.S = st.S ∧
      st1.window = st.window ∧ st1.smooth = st.smooth ∧ st1.peaks = st.peaks ∧
      st1.ring.length = st.ring.length ∧ st1.ring_write < st1.ring.length := by
  cases audio with
  | none => exact ⟨st, rfl, rfl, rfl, rfl, rfl, rfl, hw⟩
  | some au =>
    cases muted with
    | true => exact ⟨st, rfl, rfl, rfl, rfl, rfl, rfl, hw⟩
    | false =>
      obtain ⟨hwf0, hwf1⟩ := hwf au rfl
      cases hc0 : au.ch0 with
      | none =>
        refine ⟨st, ?_, rfl, rfl, rfl, rfl, rfl, hw⟩
        simp [audio_capture_cb, hc0]
      | some ch0 =>
        by_cases hfr : au.frames = 0
        · refine ⟨st, ?_, rfl, rfl, rfl, rfl, rfl, hw⟩
          simp [audio_capture_cb, hfr]
        · have hne : st.ring.isEmpty = false := by
            cases hring : st.ring with
            | nil => rw [hring] at hw; simp at hw
            | cons a l => rfl
          obtain ⟨ring1, w1, hrun, hlen1, hw1⟩ :=
            write_loop_defined ch0 au.ch1 au.frames (hwf0 ch0 hc0) hwf1 au.frames 0 st.ring
              st.ring_write (by omega) hw
          refine ⟨{ st with ring := ring1, ring_write := w1 }, ?_, rfl, rfl, rfl, rfl, hlen1, hw1⟩
          simp [audio_capture_cb, hfr, hc0, hne, hrun]

theorem run_callbacks_frame (cbs : List (Option (AudioData F) × Bool)) :
    ∀ (st : KickVizState F), (∀ c ∈ cbs, ∀ au, c.1 = some au → au.wf) →
      st.ring_write < st.ring.length →
      ∃ st1, run_callbacks st cbs = some st1 ∧ st1.S = st.S ∧
        st1.window = st.window ∧ st1.smooth = st.smooth ∧ st1.peaks = st.peaks ∧
        st1.ring.length = st.ring.length ∧ st1.ring_write < st1.ring.length := by
  induction cbs with
  | nil =>
    intro st _ hw
    exact ⟨st, rfl, rfl, rfl, rfl, rfl, rfl, hw⟩
  | cons c cs ih =>
    intro st hwf hw
    obtain ⟨st1, hcb, a1, a2, a3, a4, a5, a6⟩ :=
      audio_capture_cb_frame st c.1 c.2 (hwf c (List.mem_cons_self _ _)) hw
    obtain ⟨st2, hrun, b1, b2, b3, b4, b5, b6⟩ :=
      ih st1 (fun d hd => hwf d (List.mem_cons_of_mem _ hd)) a6
    refine ⟨st2, ?_, by rw [b1, a1], by rw [b2, a2], by rw [b3, a3], by rw [b4, a4],
      by rw [b5, a5], b6⟩
    rw [run_callbacks, hcb]
    exact hrun

end RingFrame

/-! ## Settings, the bar update and the bounds of the bin index -/

section UpdateProofs

variable {F : Type} [LinearOrderedField F]

theorem clampf_mem {G : Type} [LinearOrder G] (v lo hi : G) (h : lo ≤ hi) :
    lo ≤ clampf v lo hi ∧ clampf v lo hi ≤ hi := by
  unfold clampf
  exact ⟨le_max_left _ _, max_le h (min_le_left _ _)⟩

theorem clampf_of_mem {G : Type} [LinearOrder G] (v lo hi : G) (h1 : lo ≤ v) (h2 : v ≤ hi) :
    clampf v lo hi = v := by
  unfold clampf
  rw [min_eq_right h2, max_eq_right h1]

theorem clampf_of_lt {G : Type} [LinearOrder G] (v lo hi : G) (h : lo ≤ hi) (h1 : v < lo) :
    clampf v lo hi = lo := by
  unfold clampf
  rw [min_eq_right (le_trans h1.le h), max_eq_left h1.le]

theorem clampf_of_gt {G : Type} [LinearOrder G] (v lo hi : G) (h : lo ≤ hi) (h1 : hi < v) :
    clampf v lo hi = hi := by
  unfold clampf
  rw [min_eq_left h1.le, max_eq_right h]

/-- The bar update at raw intensity 0, for a smoothed value and a smoothing coefficient
that are not negative. -/
theorem bar_update_silent (a d s p : F) (hs : 0 ≤ s) (ha : 0 ≤ a) :
    SilentStep a d s p (bar_update a d 0 s p).1 (bar_update a d 0 s p).2 := by
  have e : (bar_update a d 0 s p).1 = s * a := by simp [bar_update]
  have e2 : (bar_update a d 0 s p).2 = max (p - d * 0.02) (s * a) := by simp [bar_update]
  refine ⟨e, ?_, ?_, ?_⟩
  · intro h; rw [e2]; exact max_eq_left h
  · intro h; rw [e2]; exact max_eq_right h.le
  · rw [e2]; exact le_max_of_le_right (mul_nonneg hs ha)

end UpdateProofs

section SettingsProofs

variable {F : Type} [LinearOrderedField F] [FloorRing F]

/-- C8. After `kickviz_update` the stored sensitivity is in `[0.1, 10]`, smoothing in
`[0, 0.95]` and decay in `[0, 1]`; a value inside its range is stored unchanged and a
value outside is replaced by the nearer boundary; a sensitivity of `-1` leaves the
same state as a sensitivity of `0.1`, hence the same output on every later tick. -/
theorem kickviz_update_clamps (st : KickVizState F) (d : Settings F) :
    (0.1 ≤ (kickviz_update st d).S.sensitivity ∧ (kickviz_update st d).S.sensitivity ≤ 10 ∧
      0 ≤ (kickviz_update st d).S.smoothing ∧ (kickviz_update st d).S.smoothing ≤ 0.95 ∧
      0 ≤ (kickviz_update st d).S.decay ∧ (kickviz_update st d).S.decay ≤ 1) ∧
    ((0.1 ≤ d.sensitivity → d.sensitivity ≤ 10 →
        (kickviz_update st d).S.sensitivity = d.sensitivity) ∧
      (d.sensitivity < 0.1 → (kickviz_update st d).S.sensitivity = 0.1) ∧
      (10 < d.sensitivity → (kickviz_update st d).S.sensitivity = 10)) ∧
    ((0 ≤ d.smoothing → d.smoothing ≤ 0.95 →
        (kickviz_update st d).S.smoothing = d.smoothing) ∧
      (d.smoothing < 0 → (kickviz_update st d).S.smoothing = 0) ∧
      (0.95 < d.smoothing → (kickviz_update st d).S.smoothing = 0.95)) ∧
    ((0 ≤ d.decay → d.decay ≤ 1 → (kickviz_update st d).S.decay = d.decay) ∧
      (d.decay < 0 → (kickviz_update st d).S.decay = 0) ∧
      (1 < d.decay → (kickviz_update st d).S.decay = 1)) ∧
    (kickviz_update st { d with sensitivity := -1 }).S.sensitivity = 0.1 ∧
    kickviz_update st { d with sensitivity := -1 } =
      kickviz_update st { d with sensitivity := 0.1 } ∧
    ∀ (ops : FloatOps F) (bars n : Nat),
      ticks ops bars n (kickviz_update st { d with sensitivity := -1 }) =
        ticks ops bars n (kickviz_update st { d with sensitivity := 0.1 }) := by
  have h1 : (0.1 : F) ≤ 10 := by norm_num
  have h2 : (0 : F) ≤ 0.95 := by norm_num
  have h3 : (0 : F) ≤ 1 := by norm_num
  have hs : clampf (-1 : F) 0.1 10 = 0.1 := clampf_of_lt _ _ _ h1 (by norm_num)
  have hs2 : clampf (0.1 : F) 0.1 10 = 0.1 := clampf_of_mem _ _ _ le_rfl h1
  have heq : kickviz_update st { d with sensitivity := -1 } =
      kickviz_update st { d with sensitivity := 0.1 } := by
    simp only [kickviz_update, hs, hs2]
  refine ⟨⟨(clampf_mem _ _ _ h1).1, (clampf_mem _ _ _ h1).2, (clampf_mem _ _ _ h2).1,
    (clampf_mem _ _ _ h2).2, (clampf_mem _ _ _ h3).1, (clampf_mem _ _ _ h3).2⟩,
    ⟨clampf_of_mem _ _ _, clampf_of_lt _ _ _ h1, clampf_of_gt _ _ _ h1⟩,
    ⟨clampf_of_mem _ _ _, clampf_of_lt _ _ _ h2, clampf_of_gt _ _ _ h2⟩,
    ⟨clampf_of_mem _ _ _, clampf_of_lt _ _ _ h3, clampf_of_gt _ _ _ h3⟩, hs, heq, ?_⟩
  intro ops bars n
  rw [heq]

/-- C4. For a spectrum of length `L ≥ 2`, every bar count, every bar and every value of
the range selector, the bin index of `compute_bins` is in `[1, L - 1]`: bin 0 is never
read and the read of `mags[idx]` is in bounds. -/
theorem bar_index_in_bounds (ops : FloatOps F) (freq_range : Int) (mags : List F)
    (bars i : Int) (hL : 2 ≤ mags.length) :
    1 ≤ bar_index ops freq_range (mags.length : Int) bars i ∧
      bar_index ops freq_range (mags.length : Int) bars i ≤ (mags.length : Int) - 1 ∧
      ∃ v, mags[(bar_index ops freq_range (mags.length : Int) bars i).toNat]? = some v := by
  have h1 : 1 ≤ bar_index ops freq_range (mags.length : Int) bars i := by
    unfold bar_index
    exact le_max_left _ _
  have h2 : bar_index ops freq_range (mags.length : Int) bars i ≤ (mags.length : Int) - 1 := by
    unfold bar_index
    exact max_le (by omega) (min_le_left _ _)
  refine ⟨h1, h2, ?_⟩
  have h3 : (bar_index ops freq_range (mags.length : Int) bars i).toNat < mags.length := by
    omega
  exact ⟨_, List.getElem?_eq_getElem h3⟩

end SettingsProofs

/-! ## The bit-reversal pass -/

section BitRev

theorem rev_lt (w b : Nat) : rev w b < 2 ^ w := by
  induction w generalizing b with
  | zero => simp [rev]
  | succ w ih =>
    have h1 := ih (b / 2)
    have h2 : b % 2 < 2 := Nat.mod_lt _ (by norm_num)
    have h3 : b % 2 * 2 ^ w ≤ 1 * 2 ^ w := Nat.mul_le_mul_right _ (by omega)
    rw [rev, pow_succ]
    omega

theorem rev_succ_even (w b : Nat) : rev (w + 1) (2 * b) = rev w b := by
  rw [rev]
  have h1 : 2 * b / 2 = b := by omega
  have h2 : 2 * b % 2 = 0 := by omega
  rw [h1, h2]
  simp

theorem rev_succ_odd (w b : Nat) : rev (w + 1) (2 * b + 1) = rev w b + 2 ^ w := by
  rw [rev]
  have h1 : (2 * b + 1) / 2 = b := by omega
  have h2 : (2 * b + 1) % 2 = 1 := by omega
  rw [h1, h2]
  simp

theorem rev_low (w : Nat) :
    ∀ b, b < 2 ^ (w + 1) → rev (w + 1) b = 2 * rev w (b % 2 ^ w) + b / 2 ^ w := by
  induction w with
  | zero =>
    intro b hb
    have hb2 : b < 2 := by simpa using hb
    simp only [rev, pow_zero, Nat.mod_one, Nat.div_one, Nat.mul_one, Nat.zero_add, Nat.mul_zero]
    exact Nat.mod_eq_of_lt hb2
  | succ w ih =>
    intro b hb
    have hb2 : b / 2 < 2 ^ (w + 1) := by
      rw [pow_succ] at hb
      omega
    rw [rev, ih (b / 2) hb2]
    have e1 : rev (w + 1) (b % 2 ^ (w + 1)) =
        rev w (b % 2 ^ (w + 1) / 2) + (b % 2 ^ (w + 1) % 2) * 2 ^ w := by rw [rev]
    have e2 : b % 2 ^ (w + 1) / 2 = b / 2 % 2 ^ w := by
      rw [pow_succ, Nat.mul_comm, Nat.mod_mul_right_div_self]
    have e3 : b % 2 ^ (w + 1) % 2 = b % 2 := by
      rw [pow_succ]
      exact Nat.mod_mod_of_dvd b (Dvd.intro_left _ rfl)
    have e4 : b / 2 ^ (w + 1) = b / 2 / 2 ^ w := by
      rw [pow_succ, Nat.mul_comm, Nat.div_div_eq_div_mul]
    rw [e1, e2, e3, e4, pow_succ]
    ring

theorem rev_rev (w : Nat) : ∀ b, b < 2 ^ w → rev w (rev w b) = b := by
  induction w with
  | zero => intro b hb; simp only [pow_zero, Nat.lt_one_iff] at hb; simp [rev, hb]
  | succ w ih =>
    intro b hb
    have hb2 : b / 2 < 2 ^ w := by
      rw [pow_succ] at hb
      omega
    have hr := rev_lt w (b / 2)
    have hlt := rev_lt (w + 1) b
    rw [rev_low w _ hlt]
    have hmod2 : b % 2 < 2 := Nat.mod_lt _ (by norm_num)
    have e1 : rev (w + 1) b % 2 ^ w = rev w (b / 2) := by
      rw [rev, Nat.add_mul_mod_self_right]
      exact Nat.mod_eq_of_lt hr
    have e2 : rev (w + 1) b / 2 ^ w = b % 2 := by
      rw [rev, Nat.add_mul_div_right _ _ (Nat.two_pow_pos w), Nat.div_eq_of_lt hr]
      simp
    rw [e1, e2, ih _ hb2]
    omega

theorem and_two_pow_of_lt {j w : Nat} (h : j < 2 ^ w) : j &&& 2 ^ w = 0 := by
  rw [Nat.and_two_pow, Nat.testBit_lt_two_pow h]
  simp

theorem and_two_pow_add {j w : Nat} (h : j < 2 ^ w) : (j + 2 ^ w) &&& 2 ^ w ≠ 0 := by
  rw [Nat.and_two_pow, Nat.add_comm, Nat.testBit_two_pow_add_eq, Nat.testBit_lt_two_pow h]
  simp

theorem xor_two_pow_of_lt {j w : Nat} (h : j < 2 ^ w) : j ^^^ 2 ^ w = j + 2 ^ w := by
  apply Nat.eq_of_testBit_eq
  intro i
  rw [Nat.testBit_xor, Nat.testBit_two_pow, Nat.add_comm]
  rcases Nat.lt_trichotomy i w with hi | hi | hi
  · rw [Nat.testBit_two_pow_add_gt hi]
    have : ¬ w = i := by omega
    simp [this]
  · subst hi
    rw [Nat.testBit_two_pow_add_eq, Nat.testBit_lt_two_pow h]
    simp
  · have h1 : j < 2 ^ i := lt_trans h (Nat.pow_lt_pow_right (by norm_num) hi)
    have h2 : 2 ^ w + j < 2 ^ i := by
      have : 2 ^ (w + 1) ≤ 2 ^ i := Nat.pow_le_pow_right (by norm_num) hi
      rw [pow_succ] at this
      omega
    rw [Nat.testBit_lt_two_pow h1, Nat.testBit_lt_two_pow h2]
    have : ¬ w = i := by omega
    simp [this]

theorem xor_two_pow_add {j w : Nat} (h : j < 2 ^ w) : (j + 2 ^ w) ^^^ 2 ^ w = j := by
  rw [← xor_two_pow_of_lt h, Nat.xor_assoc, Nat.xor_self, Nat.xor_zero]

/-- The carry loop followed by `j ^= bit` increments the reversed counter. -/
theorem carry_loop_rev (w : Nat) :
    ∀ (fuel c : Nat), w ≤ fuel → c + 1 < 2 ^ (w + 1) →
      (carry_loop fuel (rev (w + 1) c) (2 ^ w)).1 ^^^ (carry_loop fuel (rev (w + 1) c) (2 ^ w)).2 =
        rev (w + 1) (c + 1) := by
  induction w with
  | zero =>
    intro fuel c _ hc
    have hc0 : c = 0 := by
      simp only [Nat.zero_add, pow_one] at hc
      omega
    subst hc0
    cases fuel <;> simp [carry_loop, rev]
  | succ w ih =>
    intro fuel c hf hc
    have hr := rev_lt (w + 1) (c / 2)
    rcases Nat.mod_two_eq_zero_or_one c with h0 | h1
    · have hc2 : c = 2 * (c / 2) := by omega
      have e1 : rev (w + 2) c = rev (w + 1) (c / 2) := by
        conv_lhs => rw [hc2]
        exact rev_succ_even _ _
      have e2 : rev (w + 2) (c + 1) = rev (w + 1) (c / 2) + 2 ^ (w + 1) := by
        conv_lhs => rw [hc2]
        exact rev_succ_odd _ _
      have hexit : carry_loop fuel (rev (w + 1) (c / 2)) (2 ^ (w + 1)) =
          (rev (w + 1) (c / 2), 2 ^ (w + 1)) := by
        cases fuel with
        | zero => rfl
        | succ f => simp [carry_loop, and_two_pow_of_lt hr]
      rw [e1, e2, hexit]
      exact xor_two_pow_of_lt hr
    · have hc2 : c = 2 * (c / 2) + 1 := by omega
      have hc3 : c + 1 = 2 * (c / 2 + 1) := by omega
      have e1 : rev (w + 2) c = rev (w + 1) (c / 2) + 2 ^ (w + 1) := by
        conv_lhs => rw [hc2]
        exact rev_succ_odd _ _
      have e2 : rev (w + 2) (c + 1) = rev (w + 1) (c / 2 + 1) := by
        conv_lhs => rw [hc3]
        exact rev_succ_even _ _
      obtain ⟨f, rfl⟩ : ∃ f, fuel = f + 1 := ⟨fuel - 1, by omega⟩
      have hshift : 2 ^ (w + 1) >>> 1 = 2 ^ w := by
        rw [Nat.shiftRight_eq_div_pow, pow_succ]
        simp
      have hstep : carry_loop (f + 1) (rev (w + 1) (c / 2) + 2 ^ (w + 1)) (2 ^ (w + 1)) =
          carry_loop f (rev (w + 1) (c / 2)) (2 ^ w) := by
        rw [carry_loop, if_pos (and_two_pow_add hr), xor_two_pow_add hr, hshift]
      rw [e1, e2, hstep]
      refine ih f (c / 2) (by omega) ?_
      rw [pow_succ] at hc
      omega

end BitRev

section BitRevPass

variable {α : Type}

theorem swap_at_spec (a : List α) (i j : Nat) (hi : i < a.length) (hj : j < a.length) :
    ∃ a1, swap_at a i j = some a1 ∧ a1.length = a.length ∧
      ∀ p, a1[p]? = if p = j then a[i]? else if p = i then a[j]? else a[p]? := by
  refine ⟨(a.set i a[j]).set j a[i], ?_, by simp, ?_⟩
  · simp [swap_at, List.getElem?_eq_getElem hi, List.getElem?_eq_getElem hj]
  · intro p
    rw [List.getElem?_set, List.getElem?_set]
    by_cases hpj : p = j
    · subst hpj
      simp [hj, List.getElem?_eq_getElem hi]
    · have hjp : ¬ j = p := fun h => hpj h.symm
      rw [if_neg hjp, if_neg hpj]
      by_cases hpi : p = i
      · subst hpi
        simp [hi, List.getElem?_eq_getElem hj]
      · have hip : ¬ i = p := fun h => hpi h.symm
        rw [if_neg hip, if_neg hpi]

theorem bit_reverse_loop_spec (m : Nat) (a0 : List α) :
    ∀ (n i : Nat) (a : List α), i + n = 2 ^ m → 1 ≤ i → a.length = 2 ^ m →
      (∀ p, p < 2 ^ m → a[p]? = if p < i ∨ rev m p < i then a0[rev m p]? else a0[p]?) →
      ∃ a1, bit_reverse_loop (2 ^ m) n i (rev m (i - 1)) a = some a1 ∧ a1.length = 2 ^ m ∧
        ∀ p, p < 2 ^ m → a1[p]? = a0[rev m p]? := by
  intro n
  induction n with
  | zero =>
    intro i a hin _ hlen hinv
    refine ⟨a, rfl, hlen, fun p hp => ?_⟩
    rw [hinv p hp, if_pos (Or.inl (by omega))]
  | succ n ih =>
    intro i a hin hi1 hlen hinv
    have hiN : i < 2 ^ m := by omega
    obtain ⟨w, rfl⟩ : ∃ w, m = w + 1 := by
      cases m with
      | zero => simp at hiN; omega
      | succ w => exact ⟨w, rfl⟩
    have hshift : 2 ^ (w + 1) >>> 1 = 2 ^ w := by
      rw [Nat.shiftRight_eq_div_pow, pow_succ]
      simp
    have hfuel : w ≤ 2 ^ (w + 1) := by
      have := @Nat.lt_two_pow (w + 1)
      omega
    have hj1 := carry_loop_rev w (2 ^ (w + 1)) (i - 1) hfuel (by omega)
    have hi2 : i - 1 + 1 = i := by omega
    rw [hi2] at hj1
    have hjlt : rev (w + 1) i < 2 ^ (w + 1) := rev_lt _ _
    have hrr : rev (w + 1) (rev (w + 1) i) = i := rev_rev _ _ hiN
    have hnext : ∀ a2 : List α, a2.length = 2 ^ (w + 1) →
        (∀ p, p < 2 ^ (w + 1) → a2[p]? =
          if p < i + 1 ∨ rev (w + 1) p < i + 1 then a0[rev (w + 1) p]? else a0[p]?) →
        ∃ a1, bit_reverse_loop (2 ^ (w + 1)) n (i + 1) (rev (w + 1) i) a2 = some a1 ∧
          a1.length = 2 ^ (w + 1) ∧ ∀ p, p < 2 ^ (w + 1) → a1[p]? = a0[rev (w + 1) p]? := by
      intro a2 hlen2 hinv2
      have := ih (i + 1) a2 (by omega) (by omega) hlen2 hinv2
      simpa using this
    rw [bit_reverse_loop]
    simp only [hshift, hj1]
    by_cases hlt : i < rev (w + 1) i
    · rw [if_pos hlt]
      obtain ⟨a2, hsw, hlen2, hval2⟩ :=
        swap_at_spec a i (rev (w + 1) i) (by omega) (by omega)
      rw [hsw]
      simp only
      apply hnext a2 (by rw [hlen2, hlen])
      intro p hp
      rw [hval2 p]
      by_cases hpj : p = rev (w + 1) i
      · have c1 : ¬ (i < i ∨ rev (w + 1) i < i) := by omega
        have c2 : p < i + 1 ∨ rev (w + 1) p < i + 1 := by
          right
          rw [hpj, hrr]
          omega
        rw [if_pos hpj, hinv i hiN, if_neg c1, if_pos c2, hpj, hrr]
      · rw [if_neg hpj]
        by_cases hpi : p = i
        · have c1 : ¬ (rev (w + 1) i < i ∨ rev (w + 1) (rev (w + 1) i) < i) := by
            rw [hrr]
            omega
          have c2 : p < i + 1 ∨ rev (w + 1) p < i + 1 := Or.inl (by omega)
          rw [if_pos hpi, hinv _ hjlt, if_neg c1, if_pos c2, hpi]
        · rw [if_neg hpi, hinv p hp]
          have hrp : rev (w + 1) p ≠ i := by
            intro h
            apply hpj
            rw [← h, rev_rev _ _ hp]
          have hiff : (p < i ∨ rev (w + 1) p < i) ↔ (p < i + 1 ∨ rev (w + 1) p < i + 1) := by
            omega
          simp only [hiff]
    · rw [if_neg hlt]
      apply hnext a hlen
      intro p hp
      rw [hinv p hp]
      by_cases hpi : p = i
      · have c2 : p < i + 1 ∨ rev (w + 1) p < i + 1 := Or.inl (by omega)
        rw [if_pos c2]
        by_cases hlt2 : rev (w + 1) p < i
        · rw [if_pos (Or.inr hlt2)]
        · have c1 : ¬ (p < i ∨ rev (w + 1) p < i) := by omega
          have e : rev (w + 1) p = p := by
            rw [hpi] at hlt2 ⊢
            omega
          rw [if_neg c1, e]
      · by_cases hrp : rev (w + 1) p = i
        · have hpeq : p = rev (w + 1) i := by rw [← hrp, rev_rev _ _ hp]
          have c1 : p < i ∨ rev (w + 1) p < i := Or.inl (by omega)
          have c2 : p < i + 1 ∨ rev (w + 1) p < i + 1 := Or.inl (by omega)
          rw [if_pos c1, if_pos c2]
        · have hiff : (p < i ∨ rev (w + 1) p < i) ↔ (p < i + 1 ∨ rev (w + 1) p < i + 1) := by
            omega
          simp only [hiff]

/-- The bit-reversal pass on a vector of length `2 ^ m` stays in bounds and moves
element `rev m p` to position `p`. -/
theorem bit_reverse_pass (m : Nat) (a : List α) (hlen : a.length = 2 ^ m) :
    ∃ a1, bit_reverse_loop (2 ^ m) (2 ^ m - 1) 1 0 a = some a1 ∧ a1.length = 2 ^ m ∧
      ∀ p, p < 2 ^ m → a1[p]? = a[rev m p]? := by
  have hpos : 0 < 2 ^ m := Nat.two_pow_pos m
  have hrev0 : ∀ w, rev w 0 = 0 := by
    intro w
    induction w with
    | zero => rfl
    | succ w ih => simp [rev, ih]
  have h := bit_reverse_loop_spec m a (2 ^ m - 1) 1 a (by omega) le_rfl hlen (by
    intro p hp
    by_cases hp0 : p = 0
    · subst hp0
      simp [hrev0]
    · have hr : ¬ rev m p < 1 := by
        intro h
        apply hp0
        have h0 : rev m p = 0 := by omega
        rw [← rev_rev m p hp, h0, hrev0]
      rw [if_neg (by omega)])
  simpa [hrev0] using h

end BitRevPass

/-! ## The butterfly stages -/

section Butterfly

variable {F : Type} [LinearOrderedField F]

theorem elt_of_lt {a : List (Cx F)} {p : Nat} (h : p < a.length) : a[p]? = some (elt a p) := by
  simp [elt, List.getD_eq_getElem?_getD, List.getElem?_eq_getElem h]

theorem elt_set (a : List (Cx F)) (i p : Nat) (x : Cx F) :
    elt (a.set i x) p = if p = i ∧ i < a.length then x else elt a p := by
  unfold elt
  rw [List.getD_eq_getElem?_getD, List.getD_eq_getElem?_getD, List.getElem?_set]
  by_cases h : i = p
  · subst h
    by_cases h2 : i < a.length
    · simp [h2]
    · simp [h2, List.getElem?_eq_none (Nat.le_of_not_lt h2)]
  · have h' : ¬ p = i := fun e => h e.symm
    simp [h, h']

theorem butterfly_loop_spec (half : Nat) (wlen : Cx F) (i : Nat) :
    ∀ (n j : Nat) (a : List (Cx F)), j + n ≤ half → i + half + j + n ≤ a.length →
      ∃ a1, butterfly_loop half wlen i n j (twiddle wlen j) a = some a1 ∧
        a1.length = a.length ∧
        ∀ p, elt a1 p =
          if i + j ≤ p ∧ p < i + j + n then
            elt a p + elt a (p + half) * twiddle wlen (p - i)
          else if i + half + j ≤ p ∧ p < i + half + j + n then
            elt a (p - half) - elt a p * twiddle wlen (p - half - i)
          else elt a p := by
  intro n
  induction n with
  | zero =>
    intro j a _ _
    refine ⟨a, rfl, rfl, fun p => ?_⟩
    rw [if_neg (by omega), if_neg (by omega)]
  | succ n ih =>
    intro j a hj hlen
    have h1 : i + j < a.length := by omega
    have h2 : i + j + half < a.length := by omega
    obtain ⟨a1, hrun, hlen1, hval⟩ := ih (j + 1)
      ((a.set (i + j) (elt a (i + j) + elt a (i + j + half) * twiddle wlen j)).set
        (i + j + half) (elt a (i + j) - elt a (i + j + half) * twiddle wlen j))
      (by omega) (by simp only [List.length_set]; omega)
    refine ⟨a1, ?_, by rw [hlen1]; simp, ?_⟩
    · rw [butterfly_loop, elt_of_lt h1, elt_of_lt h2]
      exact hrun
    · intro p
      rw [hval p]
      simp only [elt_set, List.length_set]
      by_cases c1 : p = i + j
      · subst c1
        have e : i + j - i = j := by omega
        simp (disch := omega) only [if_pos, if_neg]
        simp [h1, e]
      · by_cases c2 : p = i + j + half
        · subst c2
          have e : i + j + half - half - i = j := by omega
          have e2 : i + j + half - half = i + j := by omega
          simp (disch := omega) only [if_pos, if_neg]
          simp [h2, e, e2]
        · by_cases c3 : i + (j + 1) ≤ p ∧ p < i + (j + 1) + n
          · simp (disch := omega) only [if_pos, if_neg]
          · by_cases c4 : i + half + (j + 1) ≤ p ∧ p < i + half + (j + 1) + n
            · simp (disch := omega) only [if_pos, if_neg]
            · simp (disch := omega) only [if_pos, if_neg]

end Butterfly

section Block

variable {F : Type} [LinearOrderedField F]

theorem block_loop_spec (N half : Nat) (wlen : Cx F) (hhalf : 0 < half) :
    ∀ (r fuel i : Nat) (a : List (Cx F)), r ≤ fuel → i + r * (2 * half) = N → a.length = N →
      ∃ a1, block_loop N (2 * half) wlen fuel i a = some a1 ∧ a1.length = N ∧
        ∀ p, elt a1 p =
          if i ≤ p ∧ p < N then
            if (p - i) % (2 * half) < half then
              elt a p + elt a (p + half) * twiddle wlen ((p - i) % (2 * half))
            else elt a (p - half) - elt a p * twiddle wlen ((p - i) % (2 * half) - half)
          else elt a p := by
  have hdiv : 2 * half / 2 = half := by omega
  intro r
  induction r with
  | zero =>
    intro fuel i a _ hi hlen
    have hiN : i = N := by omega
    refine ⟨a, ?_, hlen, fun p => ?_⟩
    · cases fuel with
      | zero => rfl
      | succ f => rw [block_loop, if_neg (by omega)]
    · rw [if_neg (by omega)]
  | succ r ih =>
    intro fuel i a hfuel hi hlen
    obtain ⟨f, rfl⟩ : ∃ f, fuel = f + 1 := ⟨fuel - 1, by omega⟩
    have hmul : (r + 1) * (2 * half) = r * (2 * half) + 2 * half := by ring
    rw [hmul] at hi
    have hiN : i < N := by omega
    obtain ⟨a2, hrun2, hlen2, hval2⟩ :=
      butterfly_loop_spec half wlen i half 0 a (by omega) (by omega)
    obtain ⟨a1, hrun1, hlen1, hval1⟩ :=
      ih f (i + 2 * half) a2 (by omega) (by omega) (by rw [hlen2, hlen])
    refine ⟨a1, ?_, hlen1, fun p => ?_⟩
    · rw [block_loop, if_pos hiN, hdiv]
      have ht : (⟨1, 0⟩ : Cx F) = twiddle wlen 0 := rfl
      rw [ht, hrun2]
      exact hrun1
    · rw [hval1 p]
      simp only [hval2, Nat.add_zero]
      have hk : (p - i) % (2 * half) < 2 * half := Nat.mod_lt _ (by omega)
      have hk2 : (p - i) % (2 * half) ≤ p - i := Nat.mod_le _ _
      by_cases c1 : p < i
      · simp (disch := omega) only [if_pos, if_neg]
      · by_cases c2 : p < i + half
        · have e : (p - i) % (2 * half) = p - i := Nat.mod_eq_of_lt (by omega)
          rw [e]
          simp (disch := omega) only [if_pos, if_neg]
        · by_cases c3 : p < i + 2 * half
          · have e : (p - i) % (2 * half) = p - i := Nat.mod_eq_of_lt (by omega)
            have e2 : p - half - i = p - i - half := by omega
            rw [e]
            simp (disch := omega) only [if_pos, if_neg]
            rw [e2]
          · by_cases c4 : p < N
            · have e : (p - (i + 2 * half)) % (2 * half) = (p - i) % (2 * half) := by
                have : p - i = p - (i + 2 * half) + 2 * half := by omega
                rw [this, Nat.add_mod_right]
              have hk3 : (p - (i + 2 * half)) % (2 * half) ≤ p - (i + 2 * half) :=
                Nat.mod_le _ _
              rw [e] at hk3 ⊢
              by_cases c5 : (p - i) % (2 * half) < half
              · simp (disch := omega) only [if_pos, if_neg]
              · simp (disch := omega) only [if_pos, if_neg]
            · simp (disch := omega) only [if_pos, if_neg]

end Block

section Stage

variable {F : Type} [LinearOrderedField F]

theorem stage_loop_induct (ops : FloatOps F) (m : Nat) (P : Nat → List (Cx F) → Prop)
    (hstep : ∀ s a a1, s < m → a.length = 2 ^ m → P s a → a1.length = 2 ^ m →
      StageStep ops m s a a1 → P (s + 1) a1) :
    ∀ (w s fuel : Nat) (a : List (Cx F)), s + w = m → w ≤ fuel → a.length = 2 ^ m → P s a →
      ∃ a1, stage_loop ops (2 ^ m) fuel (2 ^ (s + 1)) a = some a1 ∧ a1.length = 2 ^ m ∧
        P m a1 := by
  intro w
  induction w with
  | zero =>
    intro s fuel a hs _ hlen hP
    have hsm : s = m := by omega
    subst hsm
    refine ⟨a, ?_, hlen, hP⟩
    cases fuel with
    | zero => rfl
    | succ f =>
      have : ¬ 2 ^ (s + 1) ≤ 2 ^ s := by
        rw [pow_succ]
        have := Nat.two_pow_pos s
        omega
      rw [stage_loop, if_neg this]
  | succ w ih =>
    intro s fuel a hs hfuel hlen hP
    obtain ⟨f, rfl⟩ : ∃ f, fuel = f + 1 := ⟨fuel - 1, by omega⟩
    have hle : 2 ^ (s + 1) ≤ 2 ^ m := Nat.pow_le_pow_right (by norm_num) (by omega)
    have hlen2 : 2 ^ (s + 1) = 2 * 2 ^ s := by rw [pow_succ, Nat.mul_comm]
    have hm : 0 + 2 ^ w * (2 * 2 ^ s) = 2 ^ m := by
      rw [← hs, Nat.zero_add, ← hlen2, ← pow_add]
      congr 1
      omega
    have hr : 2 ^ w ≤ 2 ^ m := Nat.pow_le_pow_right (by norm_num) (by omega)
    obtain ⟨a1, hrun1, hlen1, hval1⟩ :=
      block_loop_spec (2 ^ m) (2 ^ s) (stage_wlen ops (2 ^ (s + 1))) (Nat.two_pow_pos s)
        (2 ^ w) (2 ^ m) 0 a hr hm hlen
    have hP1 : P (s + 1) a1 := by
      apply hstep s a a1 (by omega) hlen hP hlen1
      intro p
      rw [hval1 p, hlen2]
      simp
    obtain ⟨a2, hrun2, hlen3, hP2⟩ := ih (s + 1) f a1 (by omega) (by omega) hlen1 hP1
    refine ⟨a2, ?_, hlen3, hP2⟩
    have hshift : 2 ^ (s + 1) <<< 1 = 2 ^ (s + 1 + 1) := by
      rw [Nat.shiftLeft_eq, pow_succ 2 (s + 1)]
    rw [stage_loop, if_pos hle]
    simp only
    rw [← hlen2] at hrun1
    have hw : (⟨ops.cos (-2 * ops.pi / ((2 ^ (s + 1) : Nat) : F)),
        ops.sin (-2 * ops.pi / ((2 ^ (s + 1) : Nat) : F))⟩ : Cx F) =
        stage_wlen ops (2 ^ (s + 1)) := rfl
    rw [hw, hrun1, hshift]
    exact hrun2

/-- An induction principle for `fft_inplace` on a vector of length `2 ^ m`: the
transform is defined, keeps the length, and a property that holds after the
bit-reversal pass and is carried by every butterfly stage holds at the end. -/
theorem fft_inplace_induct (ops : FloatOps F) (m : Nat) (P : Nat → List (Cx F) → Prop)
    (a : List (Cx F)) (hlen : a.length = 2 ^ m)
    (h0 : ∀ a1 : List (Cx F), a1.length = 2 ^ m → (∀ p, p < 2 ^ m → a1[p]? = a[rev m p]?) →
      P 0 a1)
    (hstep : ∀ s a a1, s < m → a.length = 2 ^ m → P s a → a1.length = 2 ^ m →
      StageStep ops m s a a1 → P (s + 1) a1) :
    ∃ b, fft_inplace ops a = some b ∧ b.length = 2 ^ m ∧ P m b := by
  obtain ⟨a1, hrun1, hlen1, hval1⟩ := bit_reverse_pass m a hlen
  have hfuel : m ≤ 2 ^ m := by
    have := @Nat.lt_two_pow m
    omega
  obtain ⟨b, hrun, hlenb, hP⟩ :=
    stage_loop_induct ops m P hstep m 0 (2 ^ m) a1 (by omega) hfuel hlen1 (h0 a1 hlen1 hval1)
  refine ⟨b, ?_, hlenb, hP⟩
  unfold fft_inplace
  simp only [hlen, hrun1]
  simpa using hrun

theorem fft_inplace_defined (ops : FloatOps F) (m : Nat) (a : List (Cx F))
    (hlen : a.length = 2 ^ m) : ∃ b, fft_inplace ops a = some b ∧ b.length = 2 ^ m := by
  obtain ⟨b, hrun, hlenb, _⟩ :=
    fft_inplace_induct ops m (fun _ _ => True) a hlen (fun _ _ _ => trivial)
      (fun _ _ _ _ _ _ _ _ => trivial)
  exact ⟨b, hrun, hlenb⟩

theorem real_fft_mag_defined (ops : FloatOps F) (m : Nat) (x : List F)
    (hlen : x.length = 2 ^ m) :
    ∃ mags, real_fft_mag_0_to_nyquist ops x = some mags ∧ mags.length = 2 ^ m / 2 := by
  obtain ⟨b, hrun, hlenb⟩ := fft_inplace_defined ops m (x.map fun v => (⟨v, 0⟩ : Cx F))
    (by simpa using hlen)
  refine ⟨(b.take (x.length / 2)).map fun z => ops.sqrt (z.re * z.re + z.im * z.im), ?_, ?_⟩
  · unfold real_fft_mag_0_to_nyquist
    simp only [hrun]
  · simp only [List.length_map, List.length_take, hlenb, hlen]
    exact Nat.min_eq_left (Nat.div_le_self _ _)

end Stage

/-! ## Scaling the input of the transform -/

section Linear

variable {F : Type} [LinearOrderedField F]

theorem swap_at_map {α : Type} (f : α → α) (a : List α) (i j : Nat) :
    swap_at (a.map f) i j = (swap_at a i j).map (List.map f) := by
  unfold swap_at
  rw [List.getElem?_map, List.getElem?_map]
  cases a[i]? with
  | none => rfl
  | some x =>
    cases a[j]? with
    | none => rfl
    | some y => simp [List.map_set]

theorem bit_reverse_loop_map {α : Type} (f : α → α) (N : Nat) :
    ∀ (n i j : Nat) (a : List α),
      bit_reverse_loop N n i j (a.map f) = (bit_reverse_loop N n i j a).map (List.map f) := by
  intro n
  induction n with
  | zero => intro i j a; rfl
  | succ n ih =>
    intro i j a
    rw [bit_reverse_loop, bit_reverse_loop]
    split
    · rw [swap_at_map]
      cases swap_at a i _ with
      | none => rfl
      | some a1 => exact ih _ _ a1
    · exact ih _ _ a

theorem butterfly_loop_map (f : Cx F → Cx F) (hadd : ∀ u v, f (u + v) = f u + f v)
    (hsub : ∀ u v, f (u - v) = f u - f v) (hmul : ∀ u w, f (u * w) = f u * w)
    (half : Nat) (wlen : Cx F) (i : Nat) :
    ∀ (n j : Nat) (w : Cx F) (a : List (Cx F)),
      butterfly_loop half wlen i n j w (a.map f) =
        (butterfly_loop half wlen i n j w a).map (List.map f) := by
  intro n
  induction n with
  | zero => intro j w a; rfl
  | succ n ih =>
    intro j w a
    rw [butterfly_loop, butterfly_loop, List.getElem?_map, List.getElem?_map]
    cases a[i + j]? with
    | none => rfl
    | some u =>
      cases a[i + j + half]? with
      | none => rfl
      | some x =>
        simp only [Option.map_some']
        rw [← ih]
        simp only [List.map_set, hadd, hsub, hmul]

theorem block_loop_map (f : Cx F → Cx F) (hadd : ∀ u v, f (u + v) = f u + f v)
    (hsub : ∀ u v, f (u - v) = f u - f v) (hmul : ∀ u w, f (u * w) = f u * w)
    (N len : Nat) (wlen : Cx F) :
    ∀ (fuel i : Nat) (a : List (Cx F)),
      block_loop N len wlen fuel i (a.map f) =
        (block_loop N len wlen fuel i a).map (List.map f) := by
  intro fuel
  induction fuel with
  | zero => intro i a; rfl
  | succ fuel ih =>
    intro i a
    rw [block_loop, block_loop]
    split
    · rw [butterfly_loop_map f hadd hsub hmul]
      cases butterfly_loop (len / 2) wlen i (len / 2) 0 ⟨1, 0⟩ a with
      | none => rfl
      | some a1 => exact ih _ a1
    · rfl

theorem stage_loop_map (f : Cx F → Cx F) (hadd : ∀ u v, f (u + v) = f u + f v)
    (hsub : ∀ u v, f (u - v) = f u - f v) (hmul : ∀ u w, f (u * w) = f u * w)
    (ops : FloatOps F) (N : Nat) :
    ∀ (fuel len : Nat) (a : List (Cx F)),
      stage_loop ops N fuel len (a.map f) = (stage_loop ops N fuel len a).map (List.map f) := by
  intro fuel
  induction fuel with
  | zero => intro len a; rfl
  | succ fuel ih =>
    intro len a
    rw [stage_loop, stage_loop]
    split
    · simp only
      rw [block_loop_map f hadd hsub hmul]
      cases block_loop N len _ N 0 a with
      | none => rfl
      | some a1 => exact ih _ a1
    · rfl

theorem fft_inplace_map (f : Cx F → Cx F) (hadd : ∀ u v, f (u + v) = f u + f v)
    (hsub : ∀ u v, f (u - v) = f u - f v) (hmul : ∀ u w, f (u * w) = f u * w)
    (ops : FloatOps F) (a : List (Cx F)) :
    fft_inplace ops (a.map f) = (fft_inplace ops a).map (List.map f) := by
  unfold fft_inplace
  simp only [List.length_map]
  rw [bit_reverse_loop_map]
  cases bit_reverse_loop a.length (a.length - 1) 1 0 a with
  | none => rfl
  | some a1 => exact stage_loop_map f hadd hsub hmul ops _ _ _ a1

theorem scale_add (c : F) (u v : Cx F) : Cx.scale c (u + v) = Cx.scale c u + Cx.scale c v := by
  show Cx.scale c (Cx.add u v) = Cx.add (Cx.scale c u) (Cx.scale c v)
  simp only [Cx.scale, Cx.add, mul_add]

theorem scale_sub (c : F) (u v : Cx F) : Cx.scale c (u - v) = Cx.scale c u - Cx.scale c v := by
  show Cx.scale c (Cx.sub u v) = Cx.sub (Cx.scale c u) (Cx.scale c v)
  simp only [Cx.scale, Cx.sub, mul_sub]

theorem scale_mul (c : F) (u w : Cx F) : Cx.scale c (u * w) = Cx.scale c u * w := by
  show Cx.scale c (Cx.mul u w) = Cx.mul (Cx.scale c u) w
  simp only [Cx.scale, Cx.mul, Cx.mk.injEq]
  constructor <;> ring

/-- The transform of a scaled input is the scaled transform, for every length; it is
undefined for the one exactly when it is undefined for the other. -/
theorem fft_inplace_scale (ops : FloatOps F) (c : F) (a : List (Cx F)) :
    fft_inplace ops (a.map (Cx.scale c)) = (fft_inplace ops a).map (List.map (Cx.scale c)) :=
  fft_inplace_map (Cx.scale c) (scale_add c) (scale_sub c) (scale_mul c) ops a

end Linear

section LinearReal

theorem real_fft_mag_scale (c : ℝ) (x : List ℝ) :
    real_fft_mag_0_to_nyquist realOps (x.map fun v => c * v) =
      (real_fft_mag_0_to_nyquist realOps x).map (List.map fun v => |c| * v) := by
  unfold real_fft_mag_0_to_nyquist
  have hin : (x.map fun v => c * v).map (fun v => (⟨v, 0⟩ : Cx ℝ)) =
      (x.map fun v => (⟨v, 0⟩ : Cx ℝ)).map (Cx.scale c) := by
    simp [Cx.scale, Function.comp]
  simp only [hin, fft_inplace_scale, List.length_map]
  cases fft_inplace realOps (x.map fun v => (⟨v, 0⟩ : Cx ℝ)) with
  | none => rfl
  | some b =>
    simp only [Option.map_some', List.map_take, List.map_map, Option.some.injEq]
    congr 1
    apply List.map_congr_left
    intro z _
    simp only [Function.comp, Cx.scale, realOps]
    have e : c * z.re * (c * z.re) + c * z.im * (c * z.im) =
        c ^ 2 * (z.re * z.re + z.im * z.im) := by ring
    rw [e, Real.sqrt_mul (sq_nonneg c), Real.sqrt_sq_eq_abs]

theorem energy_scale (c : ℝ) (mags : List ℝ) :
    energy (mags.map fun v => |c| * v) = c ^ 2 * energy mags := by
  unfold energy
  induction mags with
  | nil => simp
  | cons v l ih =>
    simp only [List.map_cons, List.sum_cons] at ih ⊢
    rw [ih]
    have : |c| * v * (|c| * v) = |c| ^ 2 * (v * v) := by ring
    rw [this, sq_abs]
    ring

theorem real_fft_mag_zero (N : Nat) (mags : List ℝ)
    (h : real_fft_mag_0_to_nyquist realOps (List.replicate N 0) = some mags) :
    mags = List.replicate mags.length 0 := by
  have hz : List.replicate N (0 : ℝ) = (List.replicate N (0 : ℝ)).map fun v => 0 * v := by
    simp
  have h2 := real_fft_mag_scale 0 (List.replicate N 0)
  rw [← hz, h] at h2
  simp only [Option.map_some', Option.some.injEq, abs_zero, zero_mul] at h2
  rw [h2]
  simp only [List.length_map]
  apply List.ext_getElem?
  intro n
  simp only [List.getElem?_map, List.getElem?_replicate]
  by_cases hn : n < mags.length
  · simp [hn, List.getElem?_eq_getElem hn]
  · simp [hn, List.getElem?_eq_none (Nat.le_of_not_lt hn)]

end LinearReal

/-! ## Loop bounds and the domain of the transform -/

section Fuel

variable {F : Type} [LinearOrderedField F]

/-- More iterations allowed than `bit` can be halved change nothing: the carry loop
leaves by its test. -/
theorem carry_loop_fuel (f : Nat) :
    ∀ (k j bit : Nat), bit < 2 ^ f → carry_loop (f + k) j bit = carry_loop f j bit := by
  induction f with
  | zero =>
    intro k j bit hbit
    have hb : bit = 0 := by simpa using hbit
    subst hb
    cases k with
    | zero => rfl
    | succ k => simp [carry_loop]
  | succ f ih =>
    intro k j bit hbit
    have e : f + 1 + k = (f + k) + 1 := by omega
    rw [e, carry_loop, carry_loop]
    split
    · apply ih
      rw [Nat.shiftRight_eq_div_pow, pow_one]
      rw [pow_succ] at hbit
      omega
    · rfl

/-- The block loop needs at most `fuel` iterations when `N ≤ i + fuel * len`. -/
theorem block_loop_fuel (N len : Nat) (wlen : Cx F) (f : Nat) :
    ∀ (k i : Nat) (a : List (Cx F)), N ≤ i + f * len →
      block_loop N len wlen (f + k) i a = block_loop N len wlen f i a := by
  induction f with
  | zero =>
    intro k i a h
    have hi : ¬ i < N := by omega
    cases k with
    | zero => rfl
    | succ k => simp [block_loop, hi]
  | succ f ih =>
    intro k i a h
    have e : f + 1 + k = (f + k) + 1 := by omega
    rw [e, block_loop, block_loop]
    split
    · cases butterfly_loop (len / 2) wlen i (len / 2) 0 ⟨1, 0⟩ a with
      | none => rfl
      | some a1 =>
        apply ih
        have : (f + 1) * len = f * len + len := by ring
        omega
    · rfl

/-- The stage loop needs at most `fuel` iterations when `N < len * 2 ^ fuel`. -/
theorem stage_loop_fuel (ops : FloatOps F) (N : Nat) (f : Nat) :
    ∀ (k len : Nat) (a : List (Cx F)), N < len * 2 ^ f →
      stage_loop ops N (f + k) len a = stage_loop ops N f len a := by
  induction f with
  | zero =>
    intro k len a h
    have hi : ¬ len ≤ N := by simpa using h
    cases k with
    | zero => rfl
    | succ k => simp [stage_loop, hi]
  | succ f ih =>
    intro k len a h
    have e : f + 1 + k = (f + k) + 1 := by omega
    rw [e, stage_loop, stage_loop]
    split
    · simp only
      cases block_loop N len _ N 0 a with
      | none => rfl
      | some a1 =>
        apply ih
        rw [Nat.shiftLeft_eq, pow_one]
        rw [pow_succ] at h
        calc N < len * (2 ^ f * 2) := h
          _ = len * 2 * 2 ^ f := by ring
    · rfl

end Fuel

section Domain

variable {F : Type} [LinearOrderedField F]

theorem swap_at_length {α : Type} (a a1 : List α) (i j : Nat) (h : swap_at a i j = some a1) :
    a1.length = a.length := by
  unfold swap_at at h
  cases hi : a[i]? with
  | none => simp [hi] at h
  | some x =>
    cases hj : a[j]? with
    | none => simp [hi, hj] at h
    | some y =>
      simp only [hi, hj, Option.some.injEq] at h
      rw [← h]
      simp

theorem bit_reverse_loop_length {α : Type} (N : Nat) :
    ∀ (n i j : Nat) (a a1 : List α), bit_reverse_loop N n i j a = some a1 →
      a1.length = a.length := by
  intro n
  induction n with
  | zero =>
    intro i j a a1 h
    simp only [bit_reverse_loop, Option.some.injEq] at h
    rw [h]
  | succ n ih =>
    intro i j a a1 h
    rw [bit_reverse_loop] at h
    split at h
    · cases hs : swap_at a i ((carry_loop N j (N >>> 1)).1 ^^^ (carry_loop N j (N >>> 1)).2) with
      | none => simp [hs] at h
      | some a2 =>
        simp only [hs] at h
        rw [ih _ _ a2 a1 h, swap_at_length a a2 _ _ hs]
    · exact ih _ _ a a1 h

/-- A butterfly loop that completes has read all its elements inside the vector. -/
theorem butterfly_loop_some (half : Nat) (wlen : Cx F) (i : Nat) :
    ∀ (n j : Nat) (w : Cx F) (a a1 : List (Cx F)),
      butterfly_loop half wlen i n j w a = some a1 →
      a1.length = a.length ∧ (0 < n → i + j + n + half ≤ a.length) := by
  intro n
  induction n with
  | zero =>
    intro j w a a1 h
    simp only [butterfly_loop, Option.some.injEq] at h
    exact ⟨by rw [h], fun h0 => absurd h0 (Nat.lt_irrefl 0)⟩
  | succ n ih =>
    intro j w a a1 h
    rw [butterfly_loop] at h
    cases h1 : a[i + j]? with
    | none => simp [h1] at h
    | some u =>
      cases h2 : a[i + j + half]? with
      | none => simp [h1, h2] at h
      | some x =>
        simp only [h1, h2] at h
        obtain ⟨hl, hb⟩ := ih _ _ _ a1 h
        simp only [List.length_set] at hl hb
        refine ⟨hl, fun _ => ?_⟩
        have hlt : i + j + half < a.length := by
          by_contra hge
          rw [List.getElem?_eq_none (Nat.le_of_not_lt hge)] at h2
          cases h2
        rcases Nat.eq_zero_or_pos n with hn | hn
        · subst hn
          omega
        · have := hb hn
          omega

/-- A block loop that completes on a vector of length `N` has only met whole blocks:
`len` divides what was left of the vector. -/
theorem block_loop_some (N half : Nat) (wlen : Cx F) (hhalf : 0 < half) (f : Nat) :
    ∀ (i : Nat) (a a1 : List (Cx F)), N ≤ i + f * (2 * half) → i ≤ N → a.length = N →
      block_loop N (2 * half) wlen f i a = some a1 →
      a1.length = N ∧ 2 * half ∣ N - i := by
  have hdiv : 2 * half / 2 = half := by omega
  induction f with
  | zero =>
    intro i a a1 hf hi hlen h
    simp only [block_loop, Option.some.injEq] at h
    have : N - i = 0 := by omega
    rw [← h, this]
    exact ⟨hlen, dvd_zero _⟩
  | succ f ih =>
    intro i a a1 hf hi hlen h
    rw [block_loop] at h
    by_cases hiN : i < N
    · rw [if_pos hiN, hdiv] at h
      cases hb : butterfly_loop half wlen i half 0 ⟨1, 0⟩ a with
      | none => simp [hb] at h
      | some a2 =>
        simp only [hb] at h
        obtain ⟨hl2, hin⟩ := butterfly_loop_some half wlen i half 0 _ a a2 hb
        have hle := hin hhalf
        have hmul : (f + 1) * (2 * half) = f * (2 * half) + 2 * half := by ring
        obtain ⟨hl1, hd⟩ := ih (i + 2 * half) a2 a1 (by omega) (by omega) (by rw [hl2, hlen]) h
        refine ⟨hl1, ?_⟩
        have e : N - i = (N - (i + 2 * half)) + 2 * half := by omega
        rw [e]
        exact Dvd.dvd.add hd (dvd_refl _)
    · rw [if_neg hiN] at h
      simp only [Option.some.injEq] at h
      have : N - i = 0 := by omega
      rw [← h, this]
      exact ⟨hlen, dvd_zero _⟩

/-- A stage loop that completes on a vector of length `N` has only met block lengths
that divide `N`. -/
theorem stage_loop_some (ops : FloatOps F) (N : Nat) (f : Nat) :
    ∀ (s : Nat) (a b : List (Cx F)), N < 2 ^ (s + 1) * 2 ^ f → a.length = N →
      stage_loop ops N f (2 ^ (s + 1)) a = some b →
      ∀ t, s + 1 ≤ t → 2 ^ t ≤ N → 2 ^ t ∣ N := by
  induction f with
  | zero =>
    intro s a b hf _ _ t ht htN
    have : 2 ^ (s + 1) ≤ 2 ^ t := Nat.pow_le_pow_right (by norm_num) ht
    simp only [pow_zero, Nat.mul_one] at hf
    omega
  | succ f ih =>
    intro s a b hf hlen h t ht htN
    rw [stage_loop] at h
    by_cases hle : 2 ^ (s + 1) ≤ N
    · rw [if_pos hle] at h
      simp only at h
      have e2 : 2 ^ (s + 1) = 2 * 2 ^ s := by rw [pow_succ, Nat.mul_comm]
      split at h
      · cases h
      · rename_i a1 hb
        rw [e2] at hb
        have hpos : 0 < 2 ^ s := Nat.two_pow_pos s
        obtain ⟨hl1, hd⟩ := block_loop_some N (2 ^ s) _ hpos N 0 a a1
          (by
            have : N * 1 ≤ N * (2 * 2 ^ s) := Nat.mul_le_mul_left _ (by omega)
            omega)
          (Nat.zero_le _) hlen hb
        rw [Nat.sub_zero, ← e2] at hd
        rcases Nat.eq_or_lt_of_le ht with heq | hlt
        · rw [← heq]
          exact hd
        · have hshift : 2 ^ (s + 1) <<< 1 = 2 ^ (s + 1 + 1) := by
            rw [Nat.shiftLeft_eq, pow_succ 2 (s + 1)]
          rw [hshift] at h
          refine ih (s + 1) a1 b ?_ hl1 h t hlt htN
          calc N < 2 ^ (s + 1) * 2 ^ (f + 1) := hf
            _ = 2 ^ (s + 1 + 1) * 2 ^ f := by rw [pow_succ 2 f, pow_succ 2 (s + 1)]; ring
    · have : 2 ^ (s + 1) ≤ 2 ^ t := Nat.pow_le_pow_right (by norm_num) ht
      omega

/-- The transform is defined only on the empty vector and on vectors whose length is a
power of two: on every other length an element outside the vector is accessed. -/
theorem fft_inplace_some_length (ops : FloatOps F) (a b : List (Cx F))
    (h : fft_inplace ops a = some b) : a.length = 0 ∨ ∃ m, a.length = 2 ^ m := by
  unfold fft_inplace at h
  simp only at h
  cases hr : bit_reverse_loop a.length (a.length - 1) 1 0 a with
  | none => simp [hr] at h
  | some a1 =>
    simp only [hr] at h
    have hl1 : a1.length = a.length := bit_reverse_loop_length _ _ _ _ a a1 hr
    rcases Nat.eq_zero_or_pos a.length with h0 | hpos
    · exact Or.inl h0
    · right
      have hfuel : a.length < 2 ^ (0 + 1) * 2 ^ a.length := by
        have := @Nat.lt_two_pow a.length
        omega
      have hdvd := stage_loop_some ops a.length a.length 0 a1 b hfuel hl1 h
      refine ⟨Nat.log 2 a.length, ?_⟩
      have hlo : 2 ^ Nat.log 2 a.length ≤ a.length := Nat.pow_log_le_self 2 (by omega)
      have hhi : a.length < 2 ^ (Nat.log 2 a.length + 1) :=
        Nat.lt_pow_succ_log_self (by norm_num) _
      rcases Nat.eq_zero_or_pos (Nat.log 2 a.length) with hz | hp
      · rw [hz] at hhi ⊢
        simp only [Nat.zero_add, pow_one, pow_zero] at hhi ⊢
        omega
      · obtain ⟨c, hc⟩ := hdvd _ hp hlo
        rw [pow_succ] at hhi
        have hc1 : c = 1 := by
          rcases Nat.lt_trichotomy c 1 with h0 | h1 | h2
          · have : c = 0 := by omega
            subst this
            omega
          · exact h1
          · have : 2 ^ Nat.log 2 a.length * 2 ≤ 2 ^ Nat.log 2 a.length * c :=
              Nat.mul_le_mul_left _ h2
            omega
        rw [hc, hc1, Nat.mul_one]
        conv_lhs => rw [hc, hc1, Nat.mul_one]

theorem real_fft_mag_some_length (ops : FloatOps F) (x mags : List F)
    (h : real_fft_mag_0_to_nyquist ops x = some mags) :
    x.length = 0 ∨ ∃ m, x.length = 2 ^ m := by
  unfold real_fft_mag_0_to_nyquist at h
  simp only at h
  cases hf : fft_inplace ops (x.map fun v => (⟨v, 0⟩ : Cx F)) with
  | none => simp [hf] at h
  | some b =>
    have := fft_inplace_some_length ops _ b hf
    simpa using this

end Domain

/-! ## One tick of `compute_bins` -/

section BinsProofs

variable {F : Type} [LinearOrderedField F] [FloorRing F]

omit [FloorRing F] in
theorem getD_set_eq (l : List F) (i q : Nat) (x : F) :
    (l.set i x).getD q 0 = if q = i ∧ i < l.length then x else l.getD q 0 := by
  rw [List.getD_eq_getElem?_getD, List.getD_eq_getElem?_getD, List.getElem?_set]
  by_cases h : i = q
  · subst h
    by_cases h2 : i < l.length
    · simp [h2]
    · simp [h2, List.getElem?_eq_none (Nat.le_of_not_lt h2)]
  · have h' : ¬ q = i := fun e => h e.symm
    simp [h, h']

omit [FloorRing F] in
theorem getElem?_eq_some_getD {l : List F} {i : Nat} (h : i < l.length) :
    l[i]? = some (l.getD i 0) := by
  simp [List.getD_eq_getElem?_getD, List.getElem?_eq_getElem h]

theorem bars_loop_spec (ops : FloatOps F) (S : Settings F) (mags : List F) (bars : Nat)
    (hL : 2 ≤ mags.length) :
    ∀ (n i : Nat) (sm pk : List F), i + n = bars → sm.length = bars → pk.length = bars →
      ∃ r, bars_loop ops S mags bars n i sm pk = some r ∧
        r.1.length = bars ∧ r.2.length = bars ∧
        ∀ q, (r.1.getD q 0, r.2.getD q 0) =
          if i ≤ q ∧ q < bars then
            bar_update S.smoothing S.decay (bar_raw ops S mags bars q) (sm.getD q 0) (pk.getD q 0)
          else (sm.getD q 0, pk.getD q 0) := by
  intro n
  induction n with
  | zero =>
    intro i sm pk hi hsm hpk
    refine ⟨(sm, pk), rfl, hsm, hpk, fun q => ?_⟩
    rw [if_neg (by omega)]
  | succ n ih =>
    intro i sm pk hi hsm hpk
    have hidx : (bar_index ops S.freq_range (mags.length : Int) (bars : Int) (i : Int)).toNat <
        mags.length := by
      have h2 : bar_index ops S.freq_range (mags.length : Int) (bars : Int) (i : Int) ≤
          (mags.length : Int) - 1 := by
        unfold bar_index
        exact max_le (by omega) (min_le_left _ _)
      omega
    obtain ⟨r, hrun, hl1, hl2, hval⟩ := ih (i + 1)
      (sm.set i (bar_update S.smoothing S.decay (bar_raw ops S mags bars i)
        (sm.getD i 0) (pk.getD i 0)).1)
      (pk.set i (bar_update S.smoothing S.decay (bar_raw ops S mags bars i)
        (sm.getD i 0) (pk.getD i 0)).2)
      (by omega) (by simpa using hsm) (by simpa using hpk)
    refine ⟨r, ?_, hl1, hl2, fun q => ?_⟩
    · rw [bars_loop]
      simp only [getElem?_eq_some_getD hidx, getElem?_eq_some_getD (show i < sm.length by omega),
        getElem?_eq_some_getD (show i < pk.length by omega)]
      exact hrun
    · rw [hval q, getD_set_eq, getD_set_eq]
      by_cases c1 : q = i
      · subst c1
        have hq1 : q < sm.length := by omega
        have hq2 : q < pk.length := by omega
        simp (disch := omega) only [if_pos, if_neg]
        simp [hq1, hq2]
      · by_cases c2 : i + 1 ≤ q ∧ q < bars
        · simp (disch := omega) only [if_pos, if_neg]
        · simp (disch := omega) only [if_pos, if_neg]

omit [LinearOrderedField F] [FloorRing F] in
theorem copy_loop_defined (ring : List F) :
    ∀ (n idx : Nat), idx < ring.length →
      ∃ l, copy_loop ring n idx = some l ∧ l.length = n ∧ ∀ v ∈ l, v ∈ ring := by
  intro n
  induction n with
  | zero => intro idx _; exact ⟨[], rfl, rfl, by simp⟩
  | succ n ih =>
    intro idx hidx
    obtain ⟨l, hrun, hlen, hmem⟩ := ih ((idx + 1) % ring.length) (Nat.mod_lt _ (by omega))
    refine ⟨ring[idx] :: l, ?_, by simp [hlen], ?_⟩
    · rw [copy_loop, hrun, List.getElem?_eq_getElem hidx]
    · intro v hv
      rcases List.mem_cons.1 hv with h | h
      · rw [h]; exact List.getElem_mem _
      · exact hmem v h

omit [LinearOrderedField F] [FloorRing F] in
theorem read_window_defined (st : KickVizState F) (hR : 0 < st.ring.length) :
    ∃ w0, read_window st = some w0 ∧ w0.length = st.window.length ∧ ∀ v ∈ w0, v ∈ st.ring := by
  unfold read_window
  simp only [Nat.ne_of_gt hR, if_false]
  exact copy_loop_defined st.ring _ _ (Nat.mod_lt _ hR)

omit [FloorRing F] in
theorem hann_window_length (ops : FloatOps F) (x : List F) :
    (hann_window ops x).length = x.length := by
  unfold hann_window
  simp only
  split
  · rfl
  · exact List.length_mapIdx

/-- The result of one tick, bar by bar: the window is read, the spectrum computed, the
bar state reset when the bar count changed and then updated. -/
theorem compute_bins_spec (ops : FloatOps F) (st : KickVizState F) (bars m : Nat)
    (hR : 0 < st.ring.length) (hwin : st.window.length = 2 ^ m) (hm : 2 ≤ m)
    (hpar : st.smooth.length = st.peaks.length) :
    ∃ st1 w0 mags, read_window st = some w0 ∧
      real_fft_mag_0_to_nyquist ops (hann_window ops w0) = some mags ∧
      compute_bins ops st bars = some st1 ∧
      st1.S = st.S ∧ st1.ring = st.ring ∧ st1.ring_write = st.ring_write ∧
      st1.window.length = st.window.length ∧ st1.mags = mags ∧
      st1.smooth.length = bars ∧ st1.peaks.length = bars ∧
      ∀ q, q < bars → (st1.smooth.getD q 0, st1.peaks.getD q 0) =
        bar_update st.S.smoothing st.S.decay (bar_raw ops st.S mags bars q)
          ((if st.smooth.length ≠ bars then List.replicate bars 0 else st.smooth).getD q 0)
          ((if st.smooth.length ≠ bars then List.replicate bars 0 else st.peaks).getD q 0) := by
  obtain ⟨w0, hread, hw0len, _⟩ := read_window_defined st hR
  obtain ⟨mags, hfft, hmagslen⟩ := real_fft_mag_defined ops m (hann_window ops w0)
    (by rw [hann_window_length, hw0len, hwin])
  have hL : 2 ≤ mags.length := by
    rw [hmagslen]
    obtain ⟨k, rfl⟩ : ∃ k, m = k + 2 := ⟨m - 2, by omega⟩
    have : 0 < 2 ^ k := Nat.two_pow_pos k
    rw [pow_succ, pow_succ]
    omega
  obtain ⟨r, hrun, hl1, hl2, hval⟩ := bars_loop_spec ops st.S mags bars hL bars 0
    (if st.smooth.length ≠ bars then List.replicate bars 0 else st.smooth)
    (if st.smooth.length ≠ bars then List.replicate bars 0 else st.peaks)
    (by omega)
    (by split <;> simp_all)
    (by split <;> simp_all)
  refine ⟨{ st with window := hann_window ops w0, mags := mags, smooth := r.1, peaks := r.2 },
    w0, mags, hread, hfft, ?_, rfl, rfl, rfl, ?_, rfl, hl1, hl2, ?_⟩
  · unfold compute_bins
    simp only [hread, hfft, hrun]
  · simp only [hann_window_length, hw0len]
  · intro q hq
    have := hval q
    rw [if_pos ⟨by omega, hq⟩] at this
    exact this

end BinsProofs

section BarState

variable {F : Type} [LinearOrderedField F] [FloorRing F]

omit [FloorRing F] in
theorem raw_intensity_mem (ops : FloatOps F) (sens m : F) :
    0 ≤ raw_intensity ops sens m ∧ raw_intensity ops sens m ≤ 1 := by
  unfold raw_intensity
  exact clampf_mem _ _ _ zero_le_one

omit [FloorRing F] in
theorem bar_update_inv (a d v s p : F) (ha0 : 0 ≤ a) (ha1 : a ≤ 1) (hd : 0 ≤ d)
    (hv0 : 0 ≤ v) (hv1 : v ≤ 1) (hs0 : 0 ≤ s) (hs1 : s ≤ 1) (hp1 : p ≤ 1) :
    0 ≤ (bar_update a d v s p).1 ∧ (bar_update a d v s p).1 ≤ (bar_update a d v s p).2 ∧
      (bar_update a d v s p).2 ≤ 1 := by
  have h1 : 0 ≤ s * a + v * (1 - a) :=
    add_nonneg (mul_nonneg hs0 ha0) (mul_nonneg hv0 (by linarith))
  have h2 : s * a + v * (1 - a) ≤ 1 := by
    have e1 : s * a ≤ 1 * a := mul_le_mul_of_nonneg_right hs1 ha0
    have e2 : v * (1 - a) ≤ 1 * (1 - a) := mul_le_mul_of_nonneg_right hv1 (by linarith)
    linarith
  have h3 : (0 : F) ≤ d * 0.02 := mul_nonneg hd (by norm_num)
  refine ⟨h1, le_max_right _ _, max_le ?_ h2⟩
  linarith

omit [FloorRing F] in
theorem getD_replicate_zero (n q : Nat) : (List.replicate n (0 : F)).getD q 0 = 0 := by
  rw [List.getD_eq_getElem?_getD, List.getElem?_replicate]
  split <;> rfl

omit [FloorRing F] in
theorem barInv_zero (bars : Nat) :
    BarInv (List.replicate bars (0 : F)) (List.replicate bars (0 : F)) := by
  refine ⟨rfl, fun i _ => ?_⟩
  rw [getD_replicate_zero]
  exact ⟨le_rfl, le_rfl, zero_le_one⟩

/-- C7. After `compute_bins(bars)` both `smooth` and `peaks` have length `bars`; and
when the prior length of `smooth` differs from `bars` the tick gives what it gives from
all-zero sequences of length `bars`, whatever the previous bar state held. -/
theorem compute_bins_bar_count (ops : FloatOps F) (st : KickVizState F) (bars m : Nat)
    (hR : 0 < st.ring.length) (hwin : st.window.length = 2 ^ m) (hm : 2 ≤ m)
    (hpar : st.smooth.length = st.peaks.length) :
    ∃ st1, compute_bins ops st bars = some st1 ∧
      st1.smooth.length = bars ∧ st1.peaks.length = bars ∧
      (st.smooth.length ≠ bars →
        compute_bins ops
            { st with smooth := List.replicate bars 0, peaks := List.replicate bars 0 } bars =
          some st1 ∧
        ∀ sm pk : List F, sm.length ≠ bars →
          ∃ st2, compute_bins ops { st with smooth := sm, peaks := pk } bars = some st2 ∧
            st2.smooth = st1.smooth ∧ st2.peaks = st1.peaks) := by
  obtain ⟨st1, w0, mags, _, _, hrun, _, _, _, _, _, hl1, hl2, _⟩ :=
    compute_bins_spec ops st bars m hR hwin hm hpar
  refine ⟨st1, hrun, hl1, hl2, fun hne => ?_⟩
  have hzero : ∀ sm pk : List F, sm.length ≠ bars →
      compute_bins ops { st with smooth := sm, peaks := pk } bars =
        compute_bins ops
          { st with smooth := List.replicate bars 0, peaks := List.replicate bars 0 } bars := by
    intro sm pk hsm
    unfold compute_bins read_window
    simp only [hsm, ne_eq, not_false_eq_true, if_true, List.length_replicate, not_true_eq_false,
      if_false]
  have hst : compute_bins ops st bars =
      compute_bins ops
        { st with smooth := List.replicate bars 0, peaks := List.replicate bars 0 } bars :=
    hzero st.smooth st.peaks hne
  refine ⟨by rw [← hst, hrun], fun sm pk hsm => ?_⟩
  refine ⟨st1, ?_, rfl, rfl⟩
  rw [hzero sm pk hsm, ← hst, hrun]

/-- C10. `0 ≤ smooth[i] ≤ peaks[i] ≤ 1` for every bar is an invariant of the bar state:
it holds for the all-zero state, and with smoothing in `[0, 0.95]` and decay at least 0
a `compute_bins` tick carries it from the state before to the state after. -/
theorem bar_state_invariant (ops : FloatOps F) (st : KickVizState F) (bars m : Nat)
    (hR : 0 < st.ring.length) (hwin : st.window.length = 2 ^ m) (hm : 2 ≤ m)
    (hsm0 : 0 ≤ st.S.smoothing) (hsm1 : st.S.smoothing ≤ 0.95) (hdec : 0 ≤ st.S.decay)
    (hinv : BarInv st.smooth st.peaks) :
    BarInv (List.replicate bars (0 : F)) (List.replicate bars (0 : F)) ∧
      ∃ st1, compute_bins ops st bars = some st1 ∧ BarInv st1.smooth st1.peaks := by
  refine ⟨barInv_zero bars, ?_⟩
  obtain ⟨st1, w0, mags, _, _, hrun, _, _, _, _, _, hl1, hl2, hval⟩ :=
    compute_bins_spec ops st bars m hR hwin hm hinv.1
  refine ⟨st1, hrun, by rw [hl1, hl2], fun q hq => ?_⟩
  rw [hl1] at hq
  have hv := hval q hq
  have hprior : 0 ≤ (if st.smooth.length ≠ bars then List.replicate bars 0 else st.smooth).getD q 0 ∧
      (if st.smooth.length ≠ bars then List.replicate bars 0 else st.smooth).getD q 0 ≤
        (if st.smooth.length ≠ bars then List.replicate bars 0 else st.peaks).getD q 0 ∧
      (if st.smooth.length ≠ bars then List.replicate bars 0 else st.peaks).getD q 0 ≤ 1 := by
    by_cases hne : st.smooth.length ≠ bars
    · rw [if_pos hne, if_pos hne, getD_replicate_zero]
      exact ⟨le_rfl, le_rfl, zero_le_one⟩
    · rw [if_neg hne, if_neg hne]
      exact hinv.2 q (by omega)
  have hres := bar_update_inv st.S.smoothing st.S.decay (bar_raw ops st.S mags bars q)
    ((if st.smooth.length ≠ bars then List.replicate bars 0 else st.smooth).getD q 0)
    ((if st.smooth.length ≠ bars then List.replicate bars 0 else st.peaks).getD q 0)
    hsm0 (le_trans hsm1 (by norm_num)) hdec (raw_intensity_mem _ _ _).1
    (raw_intensity_mem _ _ _).2 hprior.1 (le_trans hprior.2.1 hprior.2.2) hprior.2.2
  rw [← hv] at hres
  exact hres

end BarState

/-! ## A bar with raw intensity 0 -/

section SilentBar

variable {F : Type} [LinearOrderedField F] [FloorRing F]

/-- C6 (amended). In exact arithmetic, a `compute_bins` tick under settings stored by
`kickviz_update` returns, and for every bar `i` whose raw intensity on this tick is 0:
when the tick keeps the bar count and `smooth[i] ≥ 0` before it, the stored new
smoothed value is `smooth[i] * smoothing`, the stored new peak is
`peaks[i] - decay * 0.02` when that is at least the new smoothed value and the new
smoothed value otherwise, and the new peak is not negative; when the tick changes the
bar count, both stored values are 0. -/
theorem compute_bins_silent_bar (ops : FloatOps F) (st0 : KickVizState F) (d : Settings F)
    (bars m i : Nat) (hR : 0 < st0.ring.length) (hwin : st0.window.length = 2 ^ m)
    (hm : 2 ≤ m) (hpar : st0.smooth.length = st0.peaks.length) (hi : i < bars) :
    ∃ st1 w0 mags, read_window (kickviz_update st0 d) = some w0 ∧
      real_fft_mag_0_to_nyquist ops (hann_window ops w0) = some mags ∧
      compute_bins ops (kickviz_update st0 d) bars = some st1 ∧
      (bar_raw ops (kickviz_update st0 d).S mags bars i = 0 →
        (st0.smooth.length = bars → 0 ≤ st0.smooth.getD i 0 →
          SilentStep (kickviz_update st0 d).S.smoothing (kickviz_update st0 d).S.decay
            (st0.smooth.getD i 0) (st0.peaks.getD i 0)
            (st1.smooth.getD i 0) (st1.peaks.getD i 0)) ∧
        (st0.smooth.length ≠ bars → st1.smooth.getD i 0 = 0 ∧ st1.peaks.getD i 0 = 0)) := by
  obtain ⟨st1, w0, mags, hread, hfft, hrun, _, _, _, _, _, _, _, hval⟩ :=
    compute_bins_spec ops (kickviz_update st0 d) bars m hR hwin hm hpar
  have ha : 0 ≤ (kickviz_update st0 d).S.smoothing :=
    (clampf_mem d.smoothing 0 0.95 (by norm_num)).1
  have hd : 0 ≤ (kickviz_update st0 d).S.decay := (clampf_mem d.decay 0 1 (by norm_num)).1
  refine ⟨st1, w0, mags, hread, hfft, hrun, fun hraw => ⟨fun hlen hs => ?_, fun hne => ?_⟩⟩
  · have h := hval i hi
    have hl : (kickviz_update st0 d).smooth.length = bars := hlen
    have e1 : (kickviz_update st0 d).smooth = st0.smooth := rfl
    have e2 : (kickviz_update st0 d).peaks = st0.peaks := rfl
    rw [hraw, if_neg (not_not.2 hl), if_neg (not_not.2 hl), e1, e2] at h
    have h1 : st1.smooth.getD i 0 = (bar_update (kickviz_update st0 d).S.smoothing
        (kickviz_update st0 d).S.decay 0 (st0.smooth.getD i 0) (st0.peaks.getD i 0)).1 := by
      rw [← h]
    have h2 : st1.peaks.getD i 0 = (bar_update (kickviz_update st0 d).S.smoothing
        (kickviz_update st0 d).S.decay 0 (st0.smooth.getD i 0) (st0.peaks.getD i 0)).2 := by
      rw [← h]
    rw [h1, h2]
    exact bar_update_silent _ _ _ _ hs ha
  · have h := hval i hi
    have hl : (kickviz_update st0 d).smooth.length ≠ bars := hne
    rw [hraw, if_pos hl, if_pos hl, getD_replicate_zero] at h
    have hmax : max (0 - (kickviz_update st0 d).S.decay * 0.02) (0 : F) = 0 :=
      max_eq_right (by linarith [mul_nonneg hd (show (0 : F) ≤ 0.02 by norm_num)])
    simp only [bar_update, zero_mul, add_zero, Prod.mk.injEq] at h
    rw [hmax] at h
    exact h

end SilentBar

/-! ## The bar update in binary32 -/

section Binary32Proofs

theorem f32_exponent_eq (x : ℚ) (e : Int) (he : -126 ≤ e) (h1 : (2 : ℚ) ^ e ≤ |x|)
    (h2 : |x| < (2 : ℚ) ^ (e + 1)) : f32_exponent x = e := by
  unfold f32_exponent
  have hpos : 0 < |x| := lt_of_lt_of_le (zpow_pos (by norm_num) e) h1
  have a1 : e ≤ Int.log 2 |x| := (Int.zpow_le_iff_le_log (by norm_num) hpos).1 h1
  have a2 : Int.log 2 |x| < e + 1 := (Int.lt_zpow_iff_log_lt (by norm_num) hpos).1 h2
  have : Int.log 2 |x| = e := by omega
  rw [this]
  exact max_eq_right he

theorem round_half_even_eq (y : ℚ) (n : Int) (h1 : (n : ℚ) - 1 / 2 < y) (h2 : y < n + 1 / 2) :
    round_half_even y = n := by
  unfold round_half_even
  by_cases c : (n : ℚ) ≤ y
  · have hf : ⌊y⌋ = n := Int.floor_eq_iff.2 ⟨c, by linarith⟩
    rw [hf, if_pos (by linarith)]
  · have hf : ⌊y⌋ = n - 1 := Int.floor_eq_iff.2 ⟨by push_cast; linarith, by push_cast; linarith⟩
    rw [hf, if_neg (by push_cast; linarith), if_pos (by push_cast; linarith)]
    ring

/-- The binary32 value of `x` in the binade of exponent `e` is `n * 2 ^ (e - 23)` when `x`
is closer to it than half a unit in the last place. -/
theorem f32_eq (x : ℚ) (e n : Int) (he : -126 ≤ e) (h1 : (2 : ℚ) ^ e ≤ |x|)
    (h2 : |x| < (2 : ℚ) ^ (e + 1)) (h3 : ((n : ℚ) - 1 / 2) * 2 ^ (e - 23) < x)
    (h4 : x < ((n : ℚ) + 1 / 2) * 2 ^ (e - 23)) : f32 x = n * 2 ^ (e - 23) := by
  unfold f32
  rw [f32_exponent_eq x e he h1 h2]
  have hq : (0 : ℚ) < 2 ^ (e - 23) := zpow_pos (by norm_num) _
  rw [round_half_even_eq _ n (by rwa [lt_div_iff₀ hq]) (by rwa [div_lt_iff₀ hq])]

theorem f32_zero : f32 0 = 0 := by
  unfold f32
  simp [round_half_even]

theorem f32_pow_two (e : Int) (he : -126 ≤ e) : f32 (2 ^ e) = 2 ^ e := by
  have hq : (0 : ℚ) < 2 ^ (e - 23) := zpow_pos (by norm_num) _
  have hp : (0 : ℚ) < 2 ^ e := zpow_pos (by norm_num) _
  have e1 : (2 : ℚ) ^ e = 2 ^ 23 * 2 ^ (e - 23) := by
    rw [← zpow_natCast, ← zpow_add₀ (by norm_num)]
    congr 1
    omega
  have h := f32_eq (2 ^ e) e (2 ^ 23) he (by rw [abs_of_pos hp])
    (by rw [abs_of_pos hp]; exact zpow_lt_zpow_right₀ (by norm_num) (by omega))
    (by rw [e1]; push_cast; nlinarith) (by rw [e1]; push_cast; nlinarith)
  rw [h, e1]
  push_cast
  ring

/-- The constant `0.02f`. -/
theorem f32_002 : f32 0.02 = 10737418 / 2 ^ 29 := by
  have h := f32_eq 0.02 (-6) 10737418 (by norm_num) (by norm_num [abs_of_pos])
    (by norm_num [abs_of_pos]) (by norm_num) (by norm_num)
  rw [h]
  norm_num

/-- C6, counterexample. In binary32, with smoothing `0.5`, decay `2 ^ (-20)`, raw
intensity 0, `smooth[i] = 0.5` and `peaks[i] = 1` (all of them binary32 values, the
settings inside their ranges): the new smoothed value is `0.5 * 0.5` and
`peaks[i] - decay * 0.02` is above it, yet the new peak is 1, which is neither
`peaks[i] - decay * 0.02` nor `peaks[i] - decay * 0.02f`: the subtraction rounds back
to `peaks[i]`.  The product `decay * 0.02f` is exact here, so a fused multiply-add or a
wider intermediate format stores the same peak. -/
theorem peak_decay_absorbed :
    f32 (1 / 2) = 1 / 2 ∧ f32 (1 / 2 ^ 20) = 1 / 2 ^ 20 ∧ f32 1 = 1 ∧ f32 0 = 0 ∧
    bar_update_f32 (1 / 2) (1 / 2 ^ 20) 0 (1 / 2) 1 = (1 / 2 * (1 / 2), 1) ∧
    (1 / 2 * (1 / 2) : ℚ) ≤ 1 - 1 / 2 ^ 20 * 0.02 ∧
    (1 : ℚ) ≠ 1 - 1 / 2 ^ 20 * 0.02 ∧ (1 : ℚ) ≠ 1 - 1 / 2 ^ 20 * f32 0.02 := by
  have h1 : f32 1 = 1 := by simpa using f32_pow_two 0 (by norm_num)
  have h2 : f32 (1 / 2) = 1 / 2 := by
    have := f32_pow_two (-1) (by norm_num)
    norm_num at this
    simpa using this
  have h4 : f32 (1 / 4) = 1 / 4 := by
    have := f32_pow_two (-2) (by norm_num)
    norm_num at this
    simpa using this
  have h20 : f32 (1 / 2 ^ 20) = 1 / 2 ^ 20 := by
    have := f32_pow_two (-20) (by norm_num)
    norm_num at this
    simpa using this
  have hprod : f32 (1 / 2 ^ 20 * (10737418 / 2 ^ 29)) = 10737418 / 2 ^ 49 := by
    have h := f32_eq (1 / 2 ^ 20 * (10737418 / 2 ^ 29)) (-26) 10737418 (by norm_num)
      (by norm_num [abs_of_pos]) (by norm_num [abs_of_pos]) (by norm_num) (by norm_num)
    rw [h]
    norm_num
  have hdiff : f32 (1 - 10737418 / 2 ^ 49) = 1 := by
    have h := f32_eq (1 - 10737418 / 2 ^ 49) (-1) 16777216 (by norm_num)
      (by norm_num [abs_of_pos]) (by norm_num [abs_of_pos]) (by norm_num) (by norm_num)
    rw [h]
    norm_num
  refine ⟨h2, h20, h1, f32_zero, ?_, by norm_num, by norm_num, ?_⟩
  · unfold bar_update_f32
    simp only [f32_002, hprod, hdiff]
    norm_num [h2, h4, f32_zero]
  · rw [f32_002]
    norm_num

end Binary32Proofs

/-! ## The bin index against the specification's formula -/

section IndexProofs

variable {F : Type} [LinearOrderedField F] [FloorRing F]

theorem truncToInt_of_nonneg {x : F} (h : 0 ≤ x) : truncToInt x = Int.floor x := by
  unfold truncToInt
  rw [if_pos h]

/-- C3 (amended). In exact arithmetic, each `float` operation of the index computation
read as the exact operation of an ordered field, the bin that `compute_bins` reads for
bar `i` is `clamp(1 + trunc(mapped * (max_index - 2)), 1, L - 1)` with `t`, `mapped` and
`max_index` as the specification gives them and `trunc` the truncation toward zero of
the `(int)` cast; a selector value outside `0..3` is read as Standard.  Nothing is
stated about the binary32 evaluation, where the rounding of `mapped` and of the product
can move the truncated value by one next to an integer. -/
theorem bar_index_eq_spec_trunc (ops : FloatOps F) (r : FreqRange) (L bars i : Nat) :
    bar_index ops r.code (L : Int) (bars : Int) (i : Int) = spec_index ops truncToInt r L bars i ∧
      ∀ fr : Int, fr ≠ 0 → fr ≠ 2 → fr ≠ 3 →
        bar_index ops fr (L : Int) (bars : Int) (i : Int) =
          spec_index ops truncToInt FreqRange.Standard L bars i := by
  have ht : (if (bars : Int) ≤ 1 then (0 : F) else ((i : Int) : F) / (((bars : Int) - 1 : Int) : F)) =
      if bars ≤ 1 then (0 : F) else (i : F) / ((bars : F) - 1) := by
    by_cases hb : bars ≤ 1
    · rw [if_pos hb, if_pos (by omega)]
    · rw [if_neg hb, if_neg (by omega)]
      push_cast
      rfl
  have hfloor : ∀ q : F, 0 ≤ q → truncToInt ((((L : Nat) : Int) : F) * q) = Int.floor ((L : F) * q) := by
    intro q hq
    rw [truncToInt_of_nonneg (mul_nonneg (by positivity) hq)]
    push_cast
    rfl
  have key : ∀ (fr : Int) (q : F), 0 ≤ q →
      (if fr = 0 then (0.035 : F) else if fr = 2 then 0.50 else if fr = 3 then 1.00 else 0.20) = q →
      bar_index ops fr (L : Int) (bars : Int) (i : Int) =
        max 1 (min ((L : Int) - 1) (1 + truncToInt
          (((ops.exp (6.5 * (if bars ≤ 1 then (0 : F) else (i : F) / ((bars : F) - 1))) - 1) /
            (ops.exp 6.5 - 1)) * (((Int.floor ((L : F) * q) : Int) : F) - 2)))) := by
    intro fr q hq hfr
    unfold bar_index
    simp only [ht, hfr, hfloor q hq]
    push_cast
    rfl
  constructor
  · cases r with
    | Bass => exact key 0 0.035 (by norm_num) (by simp)
    | Standard => exact key 1 0.20 (by norm_num) (by simp)
    | Wide => exact key 2 0.50 (by norm_num) (by simp)
    | Full => exact key 3 1.00 (by norm_num) (by simp)
  · intro fr h0 h2 h3
    exact key fr 0.20 (by norm_num) (by simp [h0, h2, h3])

end IndexProofs

section IndexCounterexample

theorem exp_13_bounds : 405255 < Real.exp 13 ∧ Real.exp 13 < 446100 := by
  have h : Real.exp 13 = Real.exp 1 ^ 13 := by
    rw [← Real.exp_nat_mul]; norm_num
  have h1 : (2.7 : ℝ) < Real.exp 1 := lt_trans (by norm_num) Real.exp_one_gt_d9
  have h2 : Real.exp 1 < 2.72 := lt_trans Real.exp_one_lt_d9 (by norm_num)
  have h3 : (2.7 : ℝ) ^ 13 < Real.exp 1 ^ 13 := pow_lt_pow_left₀ h1 (by norm_num) (by norm_num)
  have h4 : Real.exp 1 ^ 13 < (2.72 : ℝ) ^ 13 :=
    pow_lt_pow_left₀ h2 (Real.exp_pos 1).le (by norm_num)
  have h5 : (405255 : ℝ) < 2.7 ^ 13 := by norm_num
  have h6 : (2.72 : ℝ) ^ 13 < 446100 := by norm_num
  rw [h]
  exact ⟨lt_trans h5 h3, lt_trans h4 h6⟩

theorem exp_13_10_bounds : 3 < Real.exp (13 / 10) ∧ Real.exp (13 / 10) < 4 := by
  obtain ⟨hlo, hhi⟩ := exp_13_bounds
  have h : Real.exp (13 / 10) ^ 10 = Real.exp 13 := by
    rw [← Real.exp_nat_mul]; norm_num
  constructor
  · apply lt_of_pow_lt_pow_left₀ 10 (Real.exp_pos _).le
    rw [h]
    exact lt_trans (by norm_num) hlo
  · apply lt_of_pow_lt_pow_left₀ 10 (by norm_num)
    rw [h]
    exact lt_trans hhi (by norm_num)

theorem exp_13_2_bounds : 607 < Real.exp (13 / 2) ∧ Real.exp (13 / 2) < 809 := by
  obtain ⟨hlo, hhi⟩ := exp_13_bounds
  have h : Real.exp (13 / 2) ^ 2 = Real.exp 13 := by
    rw [← Real.exp_nat_mul]; norm_num
  constructor
  · apply lt_of_pow_lt_pow_left₀ 2 (Real.exp_pos _).le
    rw [h]
    exact lt_trans (by norm_num) hlo
  · apply lt_of_pow_lt_pow_left₀ 2 (by norm_num)
    rw [h]
    exact lt_trans hhi (by norm_num)

theorem mapped_bar3_bounds :
    1 / 2 < (Real.exp (13 / 10) - 1) / (Real.exp (13 / 2) - 1) * 202 ∧
      (Real.exp (13 / 10) - 1) / (Real.exp (13 / 2) - 1) * 202 < 1 := by
  obtain ⟨h1, h2⟩ := exp_13_10_bounds
  obtain ⟨h3, h4⟩ := exp_13_2_bounds
  have hpos : 0 < Real.exp (13 / 2) - 1 := by linarith
  have e : (Real.exp (13 / 10) - 1) / (Real.exp (13 / 2) - 1) * 202 =
      (Real.exp (13 / 10) - 1) * 202 / (Real.exp (13 / 2) - 1) := by ring
  rw [e]
  constructor
  · rw [lt_div_iff₀ hpos]
    linarith
  · rw [div_lt_one hpos]
    linarith

/-- C3, counterexample. With the 1024 bins of the 2048-sample window, the Standard range
and 16 bars, the product for bar 3 is about 0.81: `compute_bins` reads bin 1, where
rounding to the nearest integer gives bin 2. -/
theorem bar_index_not_rounded :
    bar_index realOps FreqRange.Standard.code 1024 16 3 = 1 ∧
      spec_index realOps round FreqRange.Standard 1024 16 3 = 2 := by
  obtain ⟨hlo, hhi⟩ := mapped_bar3_bounds
  have htrunc : truncToInt ((Real.exp (13 / 10) - 1) / (Real.exp (13 / 2) - 1) * 202) = 0 := by
    rw [truncToInt_of_nonneg (by linarith), Int.floor_eq_zero_iff]
    exact ⟨by linarith, hhi⟩
  have hround : round ((Real.exp (13 / 10) - 1) / (Real.exp (13 / 2) - 1) * 202) = 1 := by
    rw [round_eq, Int.floor_eq_iff]
    constructor
    · push_cast; linarith
    · push_cast; linarith
  have hfloor : Int.floor ((1024 : ℝ) / 5) = 204 := by
    rw [Int.floor_eq_iff]
    constructor <;> norm_num
  have hmax : truncToInt ((1024 : ℝ) / 5) = 204 := by
    rw [truncToInt_of_nonneg (by norm_num), hfloor]
  constructor
  · unfold bar_index
    simp only [FreqRange.code, realOps]
    norm_num [hmax, htrunc]
  · unfold spec_index
    simp only [FreqRange.fraction, realOps]
    norm_num [hfloor, hround]

end IndexCounterexample

/-! ## The magnitude spectrum of a scaled input -/

section ScaleMain

/-- C9, counterexample. On a real input of length 3 the butterfly pass reads `a[3]`:
no spectrum is produced, for the input and for its double alike. -/
theorem real_fft_mag_length_three :
    real_fft_mag_0_to_nyquist realOps [1, 1, 1] = none ∧
      real_fft_mag_0_to_nyquist realOps ([1, 1, 1].map fun v => 2 * v) = none := by
  have h : real_fft_mag_0_to_nyquist realOps [1, 1, 1] = none := by
    simp [real_fft_mag_0_to_nyquist, fft_inplace, bit_reverse_loop, carry_loop, swap_at,
      stage_loop, block_loop, butterfly_loop]
  refine ⟨h, ?_⟩
  rw [real_fft_mag_scale, h]
  rfl

/-- C9 (amended). For a real input `x` whose length is zero or a power of two and a
real scalar `c`, in exact arithmetic the spectra of `x` and of `c * x` are both defined
and of length `N / 2`, each bin of the second is `|c|` times the bin of the first, the
total energy scales by `c ^ 2`, and an all-zero input gives an all-zero spectrum. -/
theorem real_fft_mag_homogeneous (x : List ℝ) (c : ℝ)
    (hlen : x.length = 0 ∨ ∃ m, x.length = 2 ^ m) :
    ∃ mags, real_fft_mag_0_to_nyquist realOps x = some mags ∧
      mags.length = x.length / 2 ∧
      real_fft_mag_0_to_nyquist realOps (x.map fun v => c * v) =
        some (mags.map fun v => |c| * v) ∧
      (mags.map fun v => |c| * v).length = x.length / 2 ∧
      (∀ k, k < x.length / 2 → (mags.map fun v => |c| * v).getD k 0 = |c| * mags.getD k 0) ∧
      energy (mags.map fun v => |c| * v) = c ^ 2 * energy mags ∧
      ((∀ v ∈ x, v = 0) → ∀ v ∈ mags, v = 0) := by
  have hdef : ∃ mags, real_fft_mag_0_to_nyquist realOps x = some mags ∧
      mags.length = x.length / 2 := by
    rcases hlen with h0 | ⟨m, hm⟩
    · have hx : x = [] := List.length_eq_zero.1 h0
      subst hx
      exact ⟨[], by simp [real_fft_mag_0_to_nyquist, fft_inplace, bit_reverse_loop, stage_loop],
        rfl⟩
    · obtain ⟨mags, h1, h2⟩ := real_fft_mag_defined realOps m x hm
      exact ⟨mags, h1, by rw [h2, hm]⟩
  obtain ⟨mags, hrun, hmlen⟩ := hdef
  refine ⟨mags, hrun, hmlen, ?_, by simpa using hmlen, ?_, energy_scale c mags, ?_⟩
  · rw [real_fft_mag_scale, hrun]
    rfl
  · intro k hk
    rw [← hmlen] at hk
    simp [List.getD_eq_getElem?_getD, List.getElem?_eq_getElem hk]
  · intro hz v hv
    have hx : x = List.replicate x.length 0 := by
      apply List.eq_replicate_of_mem
      exact hz
    rw [hx] at hrun
    have := real_fft_mag_zero _ mags hrun
    rw [this] at hv
    exact List.eq_of_mem_replicate hv

end ScaleMain

/-! ## Silence -/

section Silence

theorem hann_window_zero (ops : FloatOps ℝ) (N : Nat) :
    hann_window ops (List.replicate N 0) = List.replicate N 0 := by
  unfold hann_window
  simp only [List.length_replicate]
  split
  · rfl
  · apply List.ext_getElem?
    intro n
    rw [List.getElem?_mapIdx, List.getElem?_replicate]
    split <;> simp

theorem bar_raw_zero (S : Settings ℝ) (mags : List ℝ) (bars q : Nat)
    (hz : ∀ v ∈ mags, v = 0) : bar_raw realOps S mags bars q = 0 := by
  unfold bar_raw raw_intensity
  have h0 : mags.getD (bar_index realOps S.freq_range (mags.length : Int) (bars : Int)
      (q : Int)).toNat 0 = 0 := by
    rw [List.getD_eq_getElem?_getD]
    cases h : mags[(bar_index realOps S.freq_range (mags.length : Int) (bars : Int)
      (q : Int)).toNat]? with
    | none => rfl
    | some v =>
      have hv : v ∈ mags := List.getElem?_mem h
      simpa using hz v hv
  rw [h0]
  simp only [realOps, zero_mul]
  rw [Real.zero_rpow (by norm_num)]
  simp [clampf]

/-- One tick on a silent ring: every bar's smoothed value is multiplied by the
smoothing coefficient and its peak decays toward it. -/
theorem silent_tick (st : KickVizState ℝ) (bars m : Nat) (hR : 0 < st.ring.length)
    (hzero : ∀ v ∈ st.ring, v = 0) (hwin : st.window.length = 2 ^ m) (hm : 2 ≤ m)
    (hl1 : st.smooth.length = bars) (hl2 : st.peaks.length = bars) :
    ∃ st1, compute_bins realOps st bars = some st1 ∧ st1.S = st.S ∧ st1.ring = st.ring ∧
      st1.window.length = st.window.length ∧ st1.smooth.length = bars ∧
      st1.peaks.length = bars ∧
      ∀ q, q < bars →
        st1.smooth.getD q 0 = st.smooth.getD q 0 * st.S.smoothing ∧
        st1.peaks.getD q 0 =
          max (st.peaks.getD q 0 - st.S.decay * 0.02) (st.smooth.getD q 0 * st.S.smoothing) := by
  obtain ⟨st1, w0, mags, hread, hfft, hrun, hS, hring, _, hwlen, _, hs1, hp1, hval⟩ :=
    compute_bins_spec realOps st bars m hR hwin hm (by rw [hl1, hl2])
  obtain ⟨w0', hread', hlen', hmem'⟩ := read_window_defined st hR
  rw [hread] at hread'
  have hw0 : w0 = List.replicate w0.length 0 := by
    apply List.eq_replicate_of_mem
    intro v hv
    have : w0' = w0 := by simpa using hread'.symm
    rw [← this] at hv
    exact hzero v (hmem' v hv)
  rw [hw0, hann_window_zero] at hfft
  have hmz : ∀ v ∈ mags, v = 0 := by
    intro v hv
    have := real_fft_mag_zero _ mags hfft
    rw [this] at hv
    exact List.eq_of_mem_replicate hv
  refine ⟨st1, hrun, hS, hring, hwlen, hs1, hp1, fun q hq => ?_⟩
  have h := hval q hq
  rw [bar_raw_zero st.S mags bars q hmz, if_neg (by simp [hl1]), if_neg (by simp [hl1])] at h
  simp only [bar_update, zero_mul, add_zero, Prod.mk.injEq] at h
  exact h

/-- A window of zeros gives a spectrum of zeros. -/
theorem silent_window_mags (w0 mags : List ℝ) (hz : ∀ v ∈ w0, v = 0)
    (hfft : real_fft_mag_0_to_nyquist realOps (hann_window realOps w0) = some mags) :
    ∀ v ∈ mags, v = 0 := by
  have hw0 : w0 = List.replicate w0.length 0 := List.eq_replicate_of_mem hz
  rw [hw0, hann_window_zero] at hfft
  intro v hv
  have := real_fft_mag_zero _ mags hfft
  rw [this] at hv
  exact List.eq_of_mem_replicate hv

/-- One tick whose window is read as all zeros, from any bar state: every bar's
entering smoothed value is multiplied by the smoothing coefficient and its peak decays
toward it. -/
theorem silent_window_tick (st : KickVizState ℝ) (bars m : Nat) (hR : 0 < st.ring.length)
    (hwin : st.window.length = 2 ^ m) (hm : 2 ≤ m)
    (hpar : st.smooth.length = st.peaks.length)
    (hsil : ∀ w0, read_window st = some w0 → ∀ v ∈ w0, v = 0) :
    ∃ st1, compute_bins realOps st bars = some st1 ∧ st1.S = st.S ∧
      st1.ring.length = st.ring.length ∧ st1.ring_write = st.ring_write ∧
      st1.window.length = st.window.length ∧ st1.smooth.length = bars ∧
      st1.peaks.length = bars ∧
      ∀ q, q < bars →
        st1.smooth.getD q 0 = entering st st.smooth bars q * st.S.smoothing ∧
        st1.peaks.getD q 0 =
          max (entering st st.peaks bars q - st.S.decay * 0.02)
            (entering st st.smooth bars q * st.S.smoothing) := by
  obtain ⟨st1, w0, mags, hread, hfft, hrun, hS, hring, hw, hwlen, _, hs1, hp1, hval⟩ :=
    compute_bins_spec realOps st bars m hR hwin hm hpar
  have hmz := silent_window_mags w0 mags (hsil w0 hread) hfft
  refine ⟨st1, hrun, hS, by rw [hring], hw, hwlen, hs1, hp1, fun q hq => ?_⟩
  have h := hval q hq
  rw [bar_raw_zero st.S mags bars q hmz] at h
  simp only [bar_update, zero_mul, add_zero, Prod.mk.injEq] at h
  exact h

theorem silent_peak_shift (a d s0 p0 : ℝ) (t : Nat) :
    silent_peak a d (s0 * a) (max (p0 - d * 0.02) (s0 * a)) t = silent_peak a d s0 p0 (t + 1) := by
  induction t with
  | zero => simp [silent_peak]
  | succ t ih =>
    have e : silent_peak a d s0 p0 (t + 1 + 1) =
        max (silent_peak a d s0 p0 (t + 1) - d * 0.02) (s0 * a ^ (t + 1 + 1)) := rfl
    rw [silent_peak, ih, e]
    congr 1
    ring

theorem silent_ticks (bars m : Nat) (hm : 2 ≤ m) :
    ∀ (t : Nat) (st : KickVizState ℝ), 0 < st.ring.length → (∀ v ∈ st.ring, v = 0) →
      st.window.length = 2 ^ m → st.smooth.length = bars → st.peaks.length = bars →
      ∃ st1, ticks realOps bars t st = some st1 ∧
        ∀ q, q < bars →
          st1.smooth.getD q 0 = st.smooth.getD q 0 * st.S.smoothing ^ t ∧
          st1.peaks.getD q 0 =
            silent_peak st.S.smoothing st.S.decay (st.smooth.getD q 0) (st.peaks.getD q 0) t := by
  intro t
  induction t with
  | zero =>
    intro st _ _ _ _ _
    exact ⟨st, rfl, fun q _ => ⟨by simp, rfl⟩⟩
  | succ t ih =>
    intro st hR hzero hwin hl1 hl2
    obtain ⟨st1, hrun, hS, hring, hwlen, hs1, hp1, hval⟩ :=
      silent_tick st bars m hR hzero hwin hm hl1 hl2
    obtain ⟨st2, hrun2, hval2⟩ := ih st1 (by rw [hring]; exact hR) (by rw [hring]; exact hzero)
      (by rw [hwlen, hwin]) hs1 hp1
    refine ⟨st2, ?_, fun q hq => ?_⟩
    · rw [ticks, hrun]
      exact hrun2
    · obtain ⟨e1, e2⟩ := hval2 q hq
      obtain ⟨f1, f2⟩ := hval q hq
      rw [hS, f1] at e1
      rw [hS, f1, f2, silent_peak_shift] at e2
      refine ⟨?_, e2⟩
      rw [e1, pow_succ]
      ring

theorem silent_peak_bounds (a d s0 p0 : ℝ) (ha0 : 0 ≤ a) (ha1 : a ≤ 1) (hd : 0 ≤ d)
    (hs0 : 0 ≤ s0) (hs1 : s0 ≤ 1) (hp0 : 0 ≤ p0) (hp1 : p0 ≤ 1) (t : Nat) :
    0 ≤ silent_peak a d s0 p0 t ∧ silent_peak a d s0 p0 t ≤ 1 := by
  have hd' : 0 ≤ d * 0.02 := mul_nonneg hd (by norm_num)
  induction t with
  | zero => exact ⟨hp0, hp1⟩
  | succ t ih =>
    have h1 : 0 ≤ s0 * a ^ (t + 1) := mul_nonneg hs0 (pow_nonneg ha0 _)
    have h2 : s0 * a ^ (t + 1) ≤ 1 := by
      have : a ^ (t + 1) ≤ 1 := pow_le_one₀ ha0 ha1
      calc s0 * a ^ (t + 1) ≤ 1 * 1 := mul_le_mul hs1 this (pow_nonneg ha0 _) zero_le_one
        _ = 1 := one_mul 1
    rw [silent_peak]
    exact ⟨le_max_of_le_right h1, max_le (by linarith [ih.2]) h2⟩

theorem silent_peak_decay (a d s0 p0 : ℝ) (ha0 : 0 ≤ a) (ha1 : a ≤ 1) (hd : 0 ≤ d)
    (hs0 : 0 ≤ s0) (T : Nat) :
    ∀ n, silent_peak a d s0 p0 (T + n) ≤
      max (silent_peak a d s0 p0 T - n * (d * 0.02)) (s0 * a ^ T) := by
  have hd' : 0 ≤ d * 0.02 := mul_nonneg hd (by norm_num)
  intro n
  induction n with
  | zero => simp
  | succ n ih =>
    have hmono : s0 * a ^ (T + n + 1) ≤ s0 * a ^ T := by
      apply mul_le_mul_of_nonneg_left _ hs0
      exact pow_le_pow_of_le_one ha0 ha1 (by omega)
    rw [← Nat.add_assoc, silent_peak]
    apply max_le
    · rcases le_max_iff.1 ih with h | h
      · apply le_max_of_le_left
        push_cast
        linarith
      · apply le_max_of_le_right
        linarith
    · exact le_max_of_le_right hmono

end Silence

section SilenceMain

theorem silent_smooth_small (a s0 : ℝ) (ha0 : 0 ≤ a) (ha1 : a ≤ 0.95) (hs0 : 0 ≤ s0)
    (hs1 : s0 ≤ 1) (T t : Nat) (ht : T ≤ t) :
    0 ≤ s0 * a ^ t ∧ s0 * a ^ t ≤ (0.95 : ℝ) ^ T := by
  refine ⟨mul_nonneg hs0 (pow_nonneg ha0 _), ?_⟩
  have h1 : a ^ t ≤ (0.95 : ℝ) ^ t := pow_le_pow_left₀ ha0 ha1 t
  have h2 : (0.95 : ℝ) ^ t ≤ (0.95 : ℝ) ^ T :=
    pow_le_pow_of_le_one (by norm_num) (by norm_num) ht
  calc s0 * a ^ t ≤ 1 * a ^ t := mul_le_mul_of_nonneg_right hs1 (pow_nonneg ha0 _)
    _ = a ^ t := one_mul _
    _ ≤ (0.95 : ℝ) ^ T := le_trans h1 h2

/-- One more tick of a session whose window is silent on that tick. -/
theorem silent_session_step (st : KickVizState ℝ) (bars m : Nat)
    (sched : Nat → List (Option (AudioData ℝ) × Bool))
    (hwf : ∀ n, ∀ c ∈ sched n, ∀ au, c.1 = some au → au.wf) (hm : 2 ≤ m)
    (hsil : ∀ n s s1 w0, session realOps bars sched n st = some s →
      run_callbacks s (sched n) = some s1 → read_window s1 = some w0 → ∀ v ∈ w0, v = 0)
    (k : Nat) (s : KickVizState ℝ) (hsess : session realOps bars sched k st = some s)
    (hw : s.ring_write < s.ring.length) (hwin : s.window.length = 2 ^ m)
    (hpar : s.smooth.length = s.peaks.length) :
    ∃ s2, session realOps bars sched (k + 1) st = some s2 ∧ s2.S = s.S ∧
      s2.ring_write < s2.ring.length ∧ s2.window.length = 2 ^ m ∧
      s2.smooth.length = bars ∧ s2.peaks.length = bars ∧
      ∀ q, q < bars →
        s2.smooth.getD q 0 = entering s s.smooth bars q * s.S.smoothing ∧
        s2.peaks.getD q 0 =
          max (entering s s.peaks bars q - s.S.decay * 0.02)
            (entering s s.smooth bars q * s.S.smoothing) := by
  obtain ⟨s1, hrun1, b1, b2, b3, b4, b5, b6⟩ := run_callbacks_frame (sched k) s (hwf k) hw
  obtain ⟨s2, hrun2, c1, c2, c3, c4, c5, c6, hval⟩ :=
    silent_window_tick s1 bars m (by omega) (by rw [b2, hwin]) hm (by rw [b3, b4, hpar])
      (fun w0 hread => hsil k s s1 w0 hsess hrun1 hread)
  refine ⟨s2, ?_, by rw [c1, b1], by rw [c2, c3]; exact b6, by rw [c4, b2, hwin], c5, c6,
    fun q hq => ?_⟩
  · rw [session, hsess]
    simp only [hrun1]
    exact hrun2
  · have h := hval q hq
    simp only [entering, b1, b3, b4] at h
    simpa only [entering] using h

/-- The bar state after `n + 1` ticks of a session whose window is silent on every
tick, from any bar state. -/
theorem silent_session (st : KickVizState ℝ) (bars m : Nat)
    (sched : Nat → List (Option (AudioData ℝ) × Bool))
    (hw : st.ring_write < st.ring.length)
    (hwf : ∀ n, ∀ c ∈ sched n, ∀ au, c.1 = some au → au.wf)
    (hwin : st.window.length = 2 ^ m) (hm : 2 ≤ m)
    (hpar : st.smooth.length = st.peaks.length)
    (hsil : ∀ n s s1 w0, session realOps bars sched n st = some s →
      run_callbacks s (sched n) = some s1 → read_window s1 = some w0 → ∀ v ∈ w0, v = 0) :
    ∀ n, ∃ s, session realOps bars sched (n + 1) st = some s ∧ s.S = st.S ∧
      s.ring_write < s.ring.length ∧ s.window.length = 2 ^ m ∧
      s.smooth.length = bars ∧ s.peaks.length = bars ∧
      ∀ q, q < bars →
        s.smooth.getD q 0 = entering st st.smooth bars q * st.S.smoothing ^ (n + 1) ∧
        s.peaks.getD q 0 =
          silent_peak st.S.smoothing st.S.decay (entering st st.smooth bars q)
            (entering st st.peaks bars q) (n + 1) := by
  intro n
  induction n with
  | zero =>
    obtain ⟨s2, h1, h2, h3, h4, h5, h6, hval⟩ :=
      silent_session_step st bars m sched hwf hm hsil 0 st rfl hw hwin hpar
    refine ⟨s2, h1, h2, h3, h4, h5, h6, fun q hq => ?_⟩
    obtain ⟨e1, e2⟩ := hval q hq
    refine ⟨by rw [e1]; simp, ?_⟩
    rw [e2]
    simp [silent_peak]
  | succ n ih =>
    obtain ⟨s, g1, g2, g3, g4, g5, g6, gval⟩ := ih
    obtain ⟨s2, h1, h2, h3, h4, h5, h6, hval⟩ :=
      silent_session_step st bars m sched hwf hm hsil (n + 1) s g1 g3 g4 (by rw [g5, g6])
    refine ⟨s2, h1, by rw [h2, g2], h3, h4, h5, h6, fun q hq => ?_⟩
    obtain ⟨e1, e2⟩ := hval q hq
    obtain ⟨f1, f2⟩ := gval q hq
    have hes : entering s s.smooth bars q = s.smooth.getD q 0 := by
      unfold entering
      rw [if_neg (not_not.2 g5)]
    have hep : entering s s.peaks bars q = s.peaks.getD q 0 := by
      unfold entering
      rw [if_neg (not_not.2 g5)]
    rw [hes, g2, f1] at e1
    rw [hes, hep, g2, f1, f2] at e2
    have hpow : entering st st.smooth bars q * st.S.smoothing ^ (n + 1) * st.S.smoothing =
        entering st st.smooth bars q * st.S.smoothing ^ (n + 1 + 1) := by
      rw [pow_succ _ (n + 1)]
      ring
    rw [hpow] at e1 e2
    exact ⟨e1, e2⟩

/-- The values that enter the first tick are in `[0, 1]` when the stored ones are. -/
theorem entering_bounds (st : KickVizState ℝ) (l : List ℝ) (bars q : Nat)
    (hl : st.smooth.length = l.length) (hq : q < bars)
    (h : ∀ q, q < l.length → 0 ≤ l.getD q 0 ∧ l.getD q 0 ≤ 1) :
    0 ≤ entering st l bars q ∧ entering st l bars q ≤ 1 := by
  unfold entering
  by_cases c : st.smooth.length = bars
  · rw [if_neg (not_not.2 c)]
    exact h q (by omega)
  · rw [if_pos c, getD_replicate_zero]
    exact ⟨le_rfl, zero_le_one⟩

/-- C5 (amended). In exact real arithmetic: a session of render ticks with a fixed bar
count, with any audio deliveries between the ticks, in which the window read by every
tick is all zeros, with smoothing in `[0, 0.95]` and decay at least 0, from any bar
state with values in `[0, 1]` (of any length; a length other than the bar count is
reset by the first tick).  Every tick returns, every `smooth[i]` converges to 0, and
when moreover decay is positive every `peaks[i]` converges to 0 as well: for every
`ε > 0` there is a tick count after which all stay below `ε`. -/
theorem silence_converges (st : KickVizState ℝ) (bars m : Nat)
    (sched : Nat → List (Option (AudioData ℝ) × Bool))
    (hw : st.ring_write < st.ring.length)
    (hwf : ∀ n, ∀ c ∈ sched n, ∀ au, c.1 = some au → au.wf)
    (hwin : st.window.length = 2 ^ m) (hm : 2 ≤ m)
    (hsil : ∀ n s s1 w0, session realOps bars sched n st = some s →
      run_callbacks s (sched n) = some s1 → read_window s1 = some w0 → ∀ v ∈ w0, v = 0)
    (hsm0 : 0 ≤ st.S.smoothing) (hsm1 : st.S.smoothing ≤ 0.95) (hdec : 0 ≤ st.S.decay)
    (hpar : st.smooth.length = st.peaks.length)
    (hs : ∀ q, q < st.smooth.length → 0 ≤ st.smooth.getD q 0 ∧ st.smooth.getD q 0 ≤ 1)
    (hp : ∀ q, q < st.peaks.length → 0 ≤ st.peaks.getD q 0 ∧ st.peaks.getD q 0 ≤ 1) :
    (∀ ε : ℝ, 0 < ε → ∃ T, ∀ t, T ≤ t →
      ∃ st1, session realOps bars sched t st = some st1 ∧
        ∀ q, q < bars → |st1.smooth.getD q 0| < ε) ∧
    (0 < st.S.decay → ∀ ε : ℝ, 0 < ε → ∃ T, ∀ t, T ≤ t →
      ∃ st1, session realOps bars sched t st = some st1 ∧
        ∀ q, q < bars → |st1.smooth.getD q 0| < ε ∧ |st1.peaks.getD q 0| < ε) := by
  have hrun := silent_session st bars m sched hw hwf hwin hm hpar hsil
  have ha1 : st.S.smoothing ≤ 1 := le_trans hsm1 (by norm_num)
  have hes := fun q (hq : q < bars) => entering_bounds st st.smooth bars q rfl hq hs
  have hep := fun q (hq : q < bars) => entering_bounds st st.peaks bars q hpar hq hp
  constructor
  · intro ε hε
    obtain ⟨T, hT⟩ := exists_pow_lt_of_lt_one hε (show (0.95 : ℝ) < 1 by norm_num)
    refine ⟨T + 1, fun t ht => ?_⟩
    obtain ⟨n, rfl⟩ : ∃ n, t = n + 1 := ⟨t - 1, by omega⟩
    obtain ⟨st1, hsess, _, _, _, _, _, hval⟩ := hrun n
    refine ⟨st1, hsess, fun q hq => ?_⟩
    obtain ⟨h1, h2⟩ := silent_smooth_small st.S.smoothing (entering st st.smooth bars q)
      hsm0 hsm1 (hes q hq).1 (hes q hq).2 T (n + 1) (by omega)
    rw [(hval q hq).1, abs_of_nonneg h1]
    linarith
  · intro hdpos ε hε
    obtain ⟨T, hT⟩ := exists_pow_lt_of_lt_one hε (show (0.95 : ℝ) < 1 by norm_num)
    have hd' : 0 < st.S.decay * 0.02 := mul_pos hdpos (by norm_num)
    obtain ⟨K, hK⟩ := exists_nat_gt (1 / (st.S.decay * 0.02))
    have hK1 : 1 < (K : ℝ) * (st.S.decay * 0.02) := by
      rwa [div_lt_iff₀ hd'] at hK
    refine ⟨T + K + 1, fun t ht => ?_⟩
    obtain ⟨n, rfl⟩ : ∃ n, t = n + 1 := ⟨t - 1, by omega⟩
    obtain ⟨st1, hsess, _, _, _, _, _, hval⟩ := hrun n
    refine ⟨st1, hsess, fun q hq => ?_⟩
    obtain ⟨h1, h2⟩ := silent_smooth_small st.S.smoothing (entering st st.smooth bars q)
      hsm0 hsm1 (hes q hq).1 (hes q hq).2 T (n + 1) (by omega)
    obtain ⟨h3, h4⟩ := silent_smooth_small st.S.smoothing (entering st st.smooth bars q)
      hsm0 hsm1 (hes q hq).1 (hes q hq).2 T T le_rfl
    constructor
    · rw [(hval q hq).1, abs_of_nonneg h1]
      linarith
    · obtain ⟨b0, _⟩ := silent_peak_bounds st.S.smoothing st.S.decay
        (entering st st.smooth bars q) (entering st st.peaks bars q) hsm0 ha1 hdec
        (hes q hq).1 (hes q hq).2 (hep q hq).1 (hep q hq).2 (n + 1)
      obtain ⟨_, b1⟩ := silent_peak_bounds st.S.smoothing st.S.decay
        (entering st st.smooth bars q) (entering st st.peaks bars q) hsm0 ha1 hdec
        (hes q hq).1 (hes q hq).2 (hep q hq).1 (hep q hq).2 T
      have hdecay := silent_peak_decay st.S.smoothing st.S.decay
        (entering st st.smooth bars q) (entering st st.peaks bars q) hsm0 ha1 hdec
        (hes q hq).1 T (n + 1 - T)
      have ht2 : T + (n + 1 - T) = n + 1 := by omega
      rw [ht2] at hdecay
      have hn : (K : ℝ) ≤ ((n + 1 - T : Nat) : ℝ) := by
        exact_mod_cast (show K ≤ n + 1 - T by omega)
      have hnd : (K : ℝ) * (st.S.decay * 0.02) ≤
          ((n + 1 - T : Nat) : ℝ) * (st.S.decay * 0.02) :=
        mul_le_mul_of_nonneg_right hn hd'.le
      rw [(hval q hq).2, abs_of_nonneg b0]
      refine lt_of_le_of_lt hdecay (max_lt ?_ ?_)
      · linarith
      · linarith

/-- A tick leaves the ring, its cursor and the window length as they are. -/
theorem compute_bins_frame (st st1 : KickVizState ℝ) (bars : Nat)
    (h : compute_bins realOps st bars = some st1) :
    st1.ring = st.ring ∧ st1.ring_write = st.ring_write ∧
      st1.window.length = st.window.length := by
  have hR : 0 < st.ring.length := by
    by_contra hc
    unfold compute_bins read_window at h
    simp only [show st.ring.length = 0 by omega, if_true] at h
    cases h
  obtain ⟨w1, hread1, hlen1, _⟩ := read_window_defined st hR
  unfold compute_bins at h
  rw [hread1] at h
  simp only at h
  split at h
  · cases h
  · split at h
    · cases h
    · cases h
      exact ⟨rfl, rfl, by simp only [hann_window_length, hlen1]⟩

/-- In a session without deliveries every tick reads the same window; when that
window is all zeros, every tick is silent, whatever the rest of the ring holds. -/
theorem quiet_session_silent (st : KickVizState ℝ) (bars : Nat) (w0 : List ℝ)
    (hread0 : read_window st = some w0) (hzero : ∀ v ∈ w0, v = 0) :
    ∀ n s s1 w, session realOps bars (fun _ => []) n st = some s →
      run_callbacks s [] = some s1 → read_window s1 = some w → ∀ v ∈ w, v = 0 := by
  have hframe : ∀ n s, session realOps bars (fun _ => []) n st = some s →
      s.ring = st.ring ∧ s.ring_write = st.ring_write ∧
        s.window.length = st.window.length := by
    intro n
    induction n with
    | zero =>
      intro s h
      cases h
      exact ⟨rfl, rfl, rfl⟩
    | succ n ih =>
      intro s h
      rw [session] at h
      split at h
      · cases h
      · rename_i s0 hs0
        simp only [run_callbacks] at h
        obtain ⟨a1, a2, a3⟩ := compute_bins_frame s0 s bars h
        obtain ⟨b1, b2, b3⟩ := ih s0 hs0
        exact ⟨by rw [a1, b1], by rw [a2, b2], by rw [a3, b3]⟩
  intro n s s1 w hs hrun hread v hv
  have e : s1 = s := by
    simp only [run_callbacks] at hrun
    cases hrun
    rfl
  obtain ⟨c1, c2, c3⟩ := hframe n s hs
  have hsame : read_window s = read_window st := by
    unfold read_window
    rw [c1, c2, c3]
  rw [e, hsame, hread0] at hread
  cases hread
  exact hzero v hv

theorem held_peak (t : Nat) : silent_peak (0.5 : ℝ) 0 1 1 t = 1 := by
  induction t with
  | zero => rfl
  | succ t ih =>
    rw [silent_peak, ih]
    have h : (1 : ℝ) * 0.5 ^ (t + 1) ≤ 1 := by
      rw [one_mul]
      exact pow_le_one₀ (by norm_num) (by norm_num)
    simp only [zero_mul, sub_zero]
    exact max_eq_left h

/-- C5, counterexample. With decay 0 (smoothing 0.5, sensitivity 1) and 16 bars with
`smooth = peaks = 1`, on a silent ring every peak is 1 after every number of ticks: the
peaks do not converge to 0. -/
theorem peak_held_without_decay :
    (0.1 ≤ (held_state : KickVizState ℝ).S.sensitivity ∧
      (held_state : KickVizState ℝ).S.sensitivity ≤ 10 ∧
      0 ≤ (held_state : KickVizState ℝ).S.smoothing ∧
      (held_state : KickVizState ℝ).S.smoothing ≤ 0.95 ∧
      0 ≤ (held_state : KickVizState ℝ).S.decay ∧ (held_state : KickVizState ℝ).S.decay ≤ 1) ∧
    (∀ t, ∃ st1, ticks realOps 16 t (held_state : KickVizState ℝ) = some st1 ∧
      ∀ q, q < 16 → st1.peaks.getD q 0 = 1) ∧
    ¬ ∀ ε : ℝ, 0 < ε → ∃ T, ∀ t, T ≤ t →
      ∃ st1, ticks realOps 16 t (held_state : KickVizState ℝ) = some st1 ∧
        ∀ q, q < 16 → |st1.smooth.getD q 0| < ε ∧ |st1.peaks.getD q 0| < ε := by
  have hget : ∀ q, q < 16 → (List.replicate 16 (1 : ℝ)).getD q 0 = 1 := by
    intro q hq
    rw [List.getD_eq_getElem?_getD, List.getElem?_replicate, if_pos hq]
    rfl
  have hrun : ∀ t, ∃ st1, ticks realOps 16 t (held_state : KickVizState ℝ) = some st1 ∧
      ∀ q, q < 16 → st1.peaks.getD q 0 = 1 := by
    intro t
    have hR : 0 < (held_state : KickVizState ℝ).ring.length := by
      show 0 < (List.replicate 96000 (0 : ℝ)).length
      rw [List.length_replicate]
      norm_num
    have hwin : (held_state : KickVizState ℝ).window.length = 2 ^ 11 := by
      show (List.replicate 2048 (0 : ℝ)).length = 2 ^ 11
      rw [List.length_replicate]
      norm_num
    obtain ⟨st1, hticks, hval⟩ := silent_ticks 16 11 (by norm_num) t
      (held_state : KickVizState ℝ) hR (fun v hv => List.eq_of_mem_replicate hv) hwin
      (List.length_replicate _ _) (List.length_replicate _ _)
    refine ⟨st1, hticks, fun q hq => ?_⟩
    rw [(hval q hq).2]
    have h1 : (held_state : KickVizState ℝ).smooth.getD q 0 = 1 := hget q hq
    have h2 : (held_state : KickVizState ℝ).peaks.getD q 0 = 1 := hget q hq
    rw [h1, h2]
    exact held_peak t
  refine ⟨by simp only [held_state]; norm_num, hrun, fun hconv => ?_⟩
  obtain ⟨T, hT⟩ := hconv (1 / 2) (by norm_num)
  obtain ⟨st1, hticks, hsmall⟩ := hT T le_rfl
  obtain ⟨st2, hticks2, hpeak⟩ := hrun T
  rw [hticks] at hticks2
  have heq : st1 = st2 := by simpa using hticks2
  have h := (hsmall 0 (by norm_num)).2
  rw [heq, hpeak 0 (by norm_num)] at h
  norm_num at h

end SilenceMain

/-! ## The transform computes the discrete Fourier transform -/

section DFT

open Complex Finset

theorem toC_add (u v : Cx ℝ) : toC (u + v) = toC u + toC v := by
  show toC (Cx.add u v) = _
  apply Complex.ext <;> simp [toC, Cx.add]

theorem toC_sub (u v : Cx ℝ) : toC (u - v) = toC u - toC v := by
  show toC (Cx.sub u v) = _
  apply Complex.ext <;> simp [toC, Cx.sub]

theorem toC_mul (u v : Cx ℝ) : toC (u * v) = toC u * toC v := by
  show toC (Cx.mul u v) = _
  apply Complex.ext <;> simp [toC, Cx.mul]

theorem toC_twiddle (wlen : Cx ℝ) (k : Nat) : toC (twiddle wlen k) = toC wlen ^ k := by
  induction k with
  | zero =>
    apply Complex.ext <;> simp [toC, twiddle]
  | succ k ih => rw [twiddle, toC_mul, ih, pow_succ]

theorem toC_stage_wlen (len : Nat) : toC (stage_wlen realOps len) = omega len := by
  unfold stage_wlen omega toC
  simp only [realOps]
  have e : (-2 * (Real.pi : ℂ) * I / (len : ℂ)) = ((-2 * Real.pi / (len : ℝ) : ℝ) : ℂ) * I := by
    push_cast
    ring
  rw [e]
  apply Complex.ext
  · rw [Complex.exp_ofReal_mul_I_re]
  · rw [Complex.exp_ofReal_mul_I_im]

theorem omega_pow_self (L : Nat) (hL : 0 < L) : omega L ^ L = 1 := by
  unfold omega
  rw [← Complex.exp_nat_mul]
  have hne : (L : ℂ) ≠ 0 := by exact_mod_cast Nat.ne_of_gt hL
  have e : (L : ℂ) * (-2 * (Real.pi : ℂ) * I / (L : ℂ)) = -(2 * Real.pi * I) := by
    field_simp
    ring
  rw [e, Complex.exp_neg, Complex.exp_two_pi_mul_I, inv_one]

theorem omega_double_sq (L : Nat) (hL : 0 < L) : omega (2 * L) ^ 2 = omega L := by
  unfold omega
  rw [← Complex.exp_nat_mul]
  congr 1
  have hne : (L : ℂ) ≠ 0 := by exact_mod_cast Nat.ne_of_gt hL
  push_cast
  field_simp
  ring

theorem omega_double_pow_half (L : Nat) (hL : 0 < L) : omega (2 * L) ^ L = -1 := by
  unfold omega
  rw [← Complex.exp_nat_mul]
  have hne : (L : ℂ) ≠ 0 := by exact_mod_cast Nat.ne_of_gt hL
  have e : (L : ℂ) * (-2 * (Real.pi : ℂ) * I / ((2 * L : Nat) : ℂ)) = -(Real.pi * I) := by
    push_cast
    field_simp
    ring
  rw [e, Complex.exp_neg, Complex.exp_pi_mul_I]
  norm_num

theorem sum_range_even_odd (M : Nat) (f : Nat → ℂ) :
    ∑ n in range (2 * M), f n = ∑ n in range M, (f (2 * n) + f (2 * n + 1)) := by
  induction M with
  | zero => simp
  | succ M ih =>
    have e : 2 * (M + 1) = 2 * M + 1 + 1 := by ring
    rw [e, sum_range_succ, sum_range_succ, ih, sum_range_succ]
    ring

theorem dft_split_low (ζ : ℂ) (M : Nat) (h : Nat → ℂ) (k : Nat) :
    ∑ n in range (2 * M), h n * ζ ^ (n * k) =
      ∑ n in range M, h (2 * n) * (ζ ^ 2) ^ (n * k) +
        (∑ n in range M, h (2 * n + 1) * (ζ ^ 2) ^ (n * k)) * ζ ^ k := by
  rw [sum_range_even_odd, sum_add_distrib, sum_mul]
  congr 1
  · apply sum_congr rfl
    intro n _
    rw [← pow_mul]
    congr 2
    ring
  · apply sum_congr rfl
    intro n _
    rw [← pow_mul, mul_assoc, ← pow_add]
    congr 2
    ring

theorem dft_split_high (ζ : ℂ) (M : Nat) (hζ : ζ ^ M = -1) (h : Nat → ℂ) (k : Nat) :
    ∑ n in range (2 * M), h n * ζ ^ (n * (k + M)) =
      ∑ n in range M, h (2 * n) * (ζ ^ 2) ^ (n * k) -
        (∑ n in range M, h (2 * n + 1) * (ζ ^ 2) ^ (n * k)) * ζ ^ k := by
  rw [sum_range_even_odd, sum_add_distrib, sum_mul, sub_eq_add_neg, ← sum_neg_distrib]
  congr 1
  · apply sum_congr rfl
    intro n _
    have e : 2 * n * (k + M) = 2 * (n * k) + M * (2 * n) := by ring
    rw [e, pow_add, pow_mul ζ M, hζ, pow_mul ζ 2]
    simp
  · apply sum_congr rfl
    intro n _
    have e : (2 * n + 1) * (k + M) = 2 * (n * k) + k + M * (2 * n + 1) := by ring
    rw [e, pow_add, pow_add, pow_mul ζ M, hζ, pow_mul ζ 2]
    have : (-1 : ℂ) ^ (2 * n + 1) = -1 := by
      rw [pow_succ, pow_mul]
      simp
    rw [this]
    ring

end DFT

section StageSum

open Complex Finset

theorem mul_add_div_mod (M b k : Nat) (hk : k < M) :
    (M * b + k) / M = b ∧ (M * b + k) % M = k := by
  have hM : 0 < M := by omega
  constructor
  · rw [Nat.mul_add_div hM, Nat.div_eq_of_lt hk, Nat.add_zero]
  · rw [Nat.mul_add_mod, Nat.mod_eq_of_lt hk]

theorem stageSum_parts (x : Nat → ℂ) (w s b k : Nat) (hk : k < 2 ^ s) :
    stageSum x (w + 1) s (2 ^ (s + 1) * b + k) =
        ∑ n in range (2 ^ s), x (rev w b + 2 * n * 2 ^ w) * (omega (2 ^ (s + 1)) ^ 2) ^ (n * k) ∧
      stageSum x (w + 1) s (2 ^ (s + 1) * b + k + 2 ^ s) =
        ∑ n in range (2 ^ s),
          x (rev w b + (2 * n + 1) * 2 ^ w) * (omega (2 ^ (s + 1)) ^ 2) ^ (n * k) := by
  have hM : 0 < 2 ^ s := Nat.two_pow_pos s
  have hω : omega (2 ^ (s + 1)) ^ 2 = omega (2 ^ s) := by
    have e : 2 ^ (s + 1) = 2 * 2 ^ s := by rw [pow_succ, Nat.mul_comm]
    rw [e]
    exact omega_double_sq _ hM
  have e1 : 2 ^ (s + 1) * b + k = 2 ^ s * (2 * b) + k := by rw [pow_succ]; ring
  have e2 : 2 ^ (s + 1) * b + k + 2 ^ s = 2 ^ s * (2 * b + 1) + k := by rw [pow_succ]; ring
  obtain ⟨d1, m1⟩ := mul_add_div_mod (2 ^ s) (2 * b) k hk
  obtain ⟨d2, m2⟩ := mul_add_div_mod (2 ^ s) (2 * b + 1) k hk
  constructor
  · unfold stageSum
    rw [e1, d1, m1, rev_succ_even, hω]
    apply sum_congr rfl
    intro n _
    congr 2
    rw [pow_succ]
    ring
  · unfold stageSum
    rw [e2, d2, m2, rev_succ_odd, hω]
    apply sum_congr rfl
    intro n _
    congr 2
    rw [pow_succ]
    ring

theorem stageSum_low (x : Nat → ℂ) (w s b k : Nat) (hk : k < 2 ^ s) :
    stageSum x w (s + 1) (2 ^ (s + 1) * b + k) =
      stageSum x (w + 1) s (2 ^ (s + 1) * b + k) +
        stageSum x (w + 1) s (2 ^ (s + 1) * b + k + 2 ^ s) * omega (2 ^ (s + 1)) ^ k := by
  obtain ⟨p1, p2⟩ := stageSum_parts x w s b k hk
  rw [p1, p2]
  have hk2 : k < 2 ^ (s + 1) := by rw [pow_succ]; omega
  obtain ⟨d, m⟩ := mul_add_div_mod (2 ^ (s + 1)) b k hk2
  have e : 2 ^ (s + 1) = 2 * 2 ^ s := by rw [pow_succ, Nat.mul_comm]
  unfold stageSum
  rw [d, m]
  conv_lhs => rw [e]
  rw [dft_split_low (omega (2 * 2 ^ s)) (2 ^ s) (fun n => x (rev w b + n * 2 ^ w)) k, ← e]

theorem stageSum_high (x : Nat → ℂ) (w s b k : Nat) (hk : k < 2 ^ s) :
    stageSum x w (s + 1) (2 ^ (s + 1) * b + k + 2 ^ s) =
      stageSum x (w + 1) s (2 ^ (s + 1) * b + k) -
        stageSum x (w + 1) s (2 ^ (s + 1) * b + k + 2 ^ s) * omega (2 ^ (s + 1)) ^ k := by
  obtain ⟨p1, p2⟩ := stageSum_parts x w s b k hk
  rw [p1, p2]
  have hM : 0 < 2 ^ s := Nat.two_pow_pos s
  have hk2 : k + 2 ^ s < 2 ^ (s + 1) := by rw [pow_succ]; omega
  have e0 : 2 ^ (s + 1) * b + k + 2 ^ s = 2 ^ (s + 1) * b + (k + 2 ^ s) := by ring
  obtain ⟨d, m⟩ := mul_add_div_mod (2 ^ (s + 1)) b (k + 2 ^ s) hk2
  have e : 2 ^ (s + 1) = 2 * 2 ^ s := by rw [pow_succ, Nat.mul_comm]
  unfold stageSum
  rw [e0, d, m]
  conv_lhs => rw [e]
  rw [dft_split_high (omega (2 * 2 ^ s)) (2 ^ s) (omega_double_pow_half _ hM)
    (fun n => x (rev w b + n * 2 ^ w)) k, ← e]

theorem stageSum_step (x : Nat → ℂ) (m s w : Nat) (hm : s + w + 1 = m) (a a1 : List (Cx ℝ))
    (hP : ∀ p, p < 2 ^ m → toC (elt a p) = stageSum x (w + 1) s p)
    (hstep : StageStep realOps m s a a1) :
    ∀ p, p < 2 ^ m → toC (elt a1 p) = stageSum x w (s + 1) p := by
  intro p hp
  have hM : 0 < 2 ^ s := Nat.two_pow_pos s
  have e : 2 ^ (s + 1) = 2 * 2 ^ s := by rw [pow_succ, Nat.mul_comm]
  have hmm : 2 ^ m = 2 ^ (s + 1) * 2 ^ w := by
    rw [← pow_add, ← hm]
    congr 1
    omega
  have hdm := Nat.div_add_mod p (2 ^ (s + 1))
  have hklt : p % 2 ^ (s + 1) < 2 ^ (s + 1) := Nat.mod_lt _ (Nat.two_pow_pos _)
  have hb : p / 2 ^ (s + 1) < 2 ^ w := by
    apply Nat.div_lt_of_lt_mul
    rw [← hmm]
    exact hp
  have hblock : 2 ^ (s + 1) * (p / 2 ^ (s + 1)) + 2 ^ (s + 1) ≤ 2 ^ m := by
    rw [hmm]
    calc 2 ^ (s + 1) * (p / 2 ^ (s + 1)) + 2 ^ (s + 1)
        = 2 ^ (s + 1) * (p / 2 ^ (s + 1) + 1) := by ring
      _ ≤ 2 ^ (s + 1) * 2 ^ w := Nat.mul_le_mul_left _ hb
  have h := hstep p
  rw [if_pos hp] at h
  by_cases hk : p % 2 ^ (s + 1) < 2 ^ s
  · rw [if_pos hk] at h
    rw [h, toC_add, toC_mul, toC_twiddle, toC_stage_wlen, hP p hp, hP (p + 2 ^ s) (by omega)]
    have := stageSum_low x w s (p / 2 ^ (s + 1)) (p % 2 ^ (s + 1)) hk
    rw [hdm] at this
    exact this.symm
  · rw [if_neg hk] at h
    have hk' : p % 2 ^ (s + 1) - 2 ^ s < 2 ^ s := by omega
    have hp' : 2 ^ (s + 1) * (p / 2 ^ (s + 1)) + (p % 2 ^ (s + 1) - 2 ^ s) = p - 2 ^ s := by omega
    have hp3 : p - 2 ^ s + 2 ^ s = p := by omega
    rw [h, toC_sub, toC_mul, toC_twiddle, toC_stage_wlen, hP p hp, hP (p - 2 ^ s) (by omega)]
    have := stageSum_high x w s (p / 2 ^ (s + 1)) (p % 2 ^ (s + 1) - 2 ^ s) hk'
    rw [hp', hp3] at this
    exact this.symm

end StageSum

section DFTMain

open Complex Finset

theorem omega_pow_eq_exp (N n k : Nat) :
    omega N ^ (n * k) = Complex.exp (-2 * Real.pi * Complex.I * k * n / N) := by
  unfold omega
  rw [← Complex.exp_nat_mul]
  congr 1
  push_cast
  ring

/-- On a vector of length `2 ^ m`, `fft_inplace` in exact arithmetic stays in bounds
and leaves the forward discrete Fourier transform of its input. -/
theorem fft_inplace_dft (m : Nat) (a : List (Cx ℝ)) (hlen : a.length = 2 ^ m) :
    ∃ b, fft_inplace realOps a = some b ∧ b.length = a.length ∧
      ∀ k, k < a.length → toC (elt b k) = dft a k := by
  obtain ⟨b, hrun, hlenb, hP⟩ := fft_inplace_induct realOps m
    (fun s a' => ∀ p, p < 2 ^ m → toC (elt a' p) = stageSum (fun n => toC (elt a n)) (m - s) s p)
    a hlen
    (by
      intro a1 _ hval p hp
      have e : elt a1 p = elt a (rev m p) := by
        unfold elt
        rw [List.getD_eq_getElem?_getD, List.getD_eq_getElem?_getD, hval p hp]
      unfold stageSum
      simp [e])
    (by
      intro s a0 a1 hs _ hP0 _ hstep
      have e : m - s = (m - (s + 1)) + 1 := by omega
      rw [e] at hP0
      exact stageSum_step _ m s (m - (s + 1)) (by omega) a0 a1 hP0 hstep)
  refine ⟨b, hrun, by rw [hlenb, hlen], fun k hk => ?_⟩
  rw [hlen] at hk
  rw [hP k hk]
  unfold stageSum dft
  rw [hlen, Nat.sub_self, Nat.mod_eq_of_lt hk]
  apply sum_congr rfl
  intro n _
  rw [omega_pow_eq_exp]
  simp [rev]

end DFTMain

/-! ## The spectrum of a pure sine -/

section Sine

open Complex Finset

theorem omega_primitive (N : Nat) (hN : 0 < N) : IsPrimitiveRoot (omega N) N := by
  have h := (Complex.isPrimitiveRoot_exp N (Nat.ne_of_gt hN)).inv
  have e : omega N = (Complex.exp (2 * Real.pi * Complex.I / N))⁻¹ := by
    unfold omega
    rw [← Complex.exp_neg]
    congr 1
    ring
  rw [e]
  exact h

theorem omega_geom_sum (N e : Nat) (hN : 0 < N) :
    ∑ n in range N, omega N ^ (e * n) = if N ∣ e then (N : ℂ) else 0 := by
  have hprim := omega_primitive N hN
  have hpow : ∀ n, omega N ^ (e * n) = (omega N ^ e) ^ n := fun n => pow_mul _ _ _
  simp only [hpow]
  by_cases hd : N ∣ e
  · rw [if_pos hd, (hprim.pow_eq_one_iff_dvd e).2 hd]
    simp
  · rw [if_neg hd]
    have hne : omega N ^ e ≠ 1 := fun h => hd ((hprim.pow_eq_one_iff_dvd e).1 h)
    rw [geom_sum_eq hne, ← pow_mul, Nat.mul_comm, pow_mul, omega_pow_self N hN]
    simp

theorem sine_term (N k n : Nat) (A φ : ℝ) (hN : 0 < N) (hk : k ≤ N) :
    ((A * Real.sin (2 * Real.pi * k * n / N + φ) : ℝ) : ℂ) =
      (A * I / 2) * (Complex.exp (-(φ * I)) * omega N ^ (k * n) -
        Complex.exp (φ * I) * omega N ^ ((N - k) * n)) := by
  have hne : (N : ℂ) ≠ 0 := by exact_mod_cast Nat.ne_of_gt hN
  have h1 : omega N ^ (k * n) = Complex.exp (-(2 * Real.pi * k * n / N) * I) := by
    unfold omega
    rw [← Complex.exp_nat_mul]
    congr 1
    push_cast
    ring
  have h2 : omega N ^ ((N - k) * n) = Complex.exp ((2 * Real.pi * k * n / N) * I) := by
    have hs : omega N ^ ((N - k) * n) * omega N ^ (k * n) = 1 := by
      rw [← pow_add, ← Nat.add_mul, Nat.sub_add_cancel hk, pow_mul, omega_pow_self N hN, one_pow]
    have hinv : Complex.exp ((2 * Real.pi * k * n / N) * I) * omega N ^ (k * n) = 1 := by
      rw [h1, ← Complex.exp_add]
      simp
    have hnz : omega N ^ (k * n) ≠ 0 := by
      rw [h1]
      exact Complex.exp_ne_zero _
    exact mul_right_cancel₀ hnz (hs.trans hinv.symm)
  rw [h1, h2, ← Complex.exp_add, ← Complex.exp_add]
  push_cast
  rw [Complex.sin]
  have a1 : -(↑φ * I) + -(2 * ↑Real.pi * ↑k * ↑n / ↑N) * I =
      -(2 * ↑Real.pi * ↑k * ↑n / ↑N + (φ : ℂ)) * I := by ring
  have a2 : ↑φ * I + 2 * ↑Real.pi * ↑k * ↑n / ↑N * I =
      (2 * ↑Real.pi * ↑k * ↑n / ↑N + (φ : ℂ)) * I := by ring
  rw [a1, a2]
  ring

end Sine

section SineDFT

open Complex Finset

theorem toC_real (r : ℝ) : toC ⟨r, 0⟩ = (r : ℂ) := by
  apply Complex.ext <;> simp [toC]

theorem dft_pure_sine (N k j : Nat) (A φ : ℝ) (hk0 : 0 < k) (hk : 2 * k < N)
    (hj : 2 * j < N) :
    dft ((pure_sine N k A φ).map fun v => (⟨v, 0⟩ : Cx ℝ)) j =
      if j = k then -(A * I / 2) * Complex.exp (φ * I) * N else 0 := by
  have hN : 0 < N := by omega
  have hlen : ((pure_sine N k A φ).map fun v => (⟨v, 0⟩ : Cx ℝ)).length = N := by
    simp [pure_sine]
  have hterm : ∀ n ∈ range N,
      toC (elt ((pure_sine N k A φ).map fun v => (⟨v, 0⟩ : Cx ℝ)) n) *
          Complex.exp (-2 * Real.pi * Complex.I * j * n / N) =
        (A * I / 2) * Complex.exp (-(φ * I)) * omega N ^ ((k + j) * n) -
          (A * I / 2) * Complex.exp (φ * I) * omega N ^ ((N - k + j) * n) := by
    intro n hn
    have hn' : n < N := Finset.mem_range.1 hn
    have he : elt ((pure_sine N k A φ).map fun v => (⟨v, 0⟩ : Cx ℝ)) n =
        ⟨A * Real.sin (2 * Real.pi * k * n / N + φ), 0⟩ := by
      unfold elt pure_sine
      rw [List.getD_eq_getElem?_getD]
      simp [hn']
    have hc : toC ⟨A * Real.sin (2 * Real.pi * k * n / N + φ), 0⟩ =
        ((A * Real.sin (2 * Real.pi * k * n / N + φ) : ℝ) : ℂ) := toC_real _
    rw [he, hc, sine_term N k n A φ hN (by omega), ← omega_pow_eq_exp N n j]
    have p1 : omega N ^ ((k + j) * n) = omega N ^ (k * n) * omega N ^ (n * j) := by
      rw [← pow_add]; congr 1; ring
    have p2 : omega N ^ ((N - k + j) * n) = omega N ^ ((N - k) * n) * omega N ^ (n * j) := by
      rw [← pow_add]; congr 1; ring
    rw [p1, p2]
    ring
  unfold dft
  rw [hlen, sum_congr rfl hterm, sum_sub_distrib, ← mul_sum, ← mul_sum, omega_geom_sum N _ hN,
    omega_geom_sum N _ hN]
  have d1 : ¬ N ∣ k + j := by
    intro h
    have := Nat.le_of_dvd (by omega) h
    omega
  have d2 : N ∣ N - k + j ↔ j = k := by
    constructor
    · intro h
      obtain ⟨c, hc⟩ := h
      have hc1 : c = 1 := by
        rcases Nat.lt_trichotomy c 1 with h0 | h1 | h2
        · have : c = 0 := by omega
          subst this
          omega
        · exact h1
        · have : N * 2 ≤ N * c := Nat.mul_le_mul_left _ h2
          omega
      subst hc1
      omega
    · intro h
      subst h
      have : N - j + j = N := by omega
      rw [this]
  rw [if_neg d1]
  by_cases hjk : j = k
  · rw [if_pos (d2.2 hjk), if_pos hjk]
    ring
  · rw [if_neg (fun h => hjk (d2.1 h)), if_neg hjk]
    ring

theorem mag_eq_abs (z : Cx ℝ) : Real.sqrt (z.re * z.re + z.im * z.im) = Complex.abs (toC z) := by
  rw [Complex.abs_apply, Complex.normSq_apply]
  rfl

/-- The magnitude spectrum of a pure sine of `2 ^ m` samples at bin frequency `k`,
`0 < k < N/2`: bin `k` holds `|A| * N / 2` and every other bin below `N/2` holds 0. -/
theorem real_fft_mag_pure_sine (m k : Nat) (A φ : ℝ) (hk0 : 0 < k) (hk : k < 2 ^ m / 2) :
    ∃ mags, real_fft_mag_0_to_nyquist realOps (pure_sine (2 ^ m) k A φ) = some mags ∧
      mags.length = 2 ^ m / 2 ∧
      ∀ j, j < 2 ^ m / 2 → mags.getD j 0 = if j = k then |A| * 2 ^ m / 2 else 0 := by
  have hxlen : (pure_sine (2 ^ m) k A φ).length = 2 ^ m := by simp [pure_sine]
  have halen : ((pure_sine (2 ^ m) k A φ).map fun v => (⟨v, 0⟩ : Cx ℝ)).length = 2 ^ m := by
    simp [pure_sine]
  obtain ⟨b, hrun, hlenb, hval⟩ := fft_inplace_dft m _ halen
  rw [halen] at hlenb hval
  refine ⟨(b.take (2 ^ m / 2)).map fun z => Real.sqrt (z.re * z.re + z.im * z.im), ?_, ?_, ?_⟩
  · unfold real_fft_mag_0_to_nyquist
    simp only [hrun, hxlen]
    rfl
  · simp only [List.length_map, List.length_take, hlenb]
    exact Nat.min_eq_left (Nat.div_le_self _ _)
  · intro j hj
    have hjb : j < b.length := by rw [hlenb]; omega
    have hget : ((b.take (2 ^ m / 2)).map fun z => Real.sqrt (z.re * z.re + z.im * z.im)).getD j 0 =
        Complex.abs (toC (elt b j)) := by
      rw [List.getD_eq_getElem?_getD, List.getElem?_map, List.getElem?_take, if_pos hj,
        List.getElem?_eq_getElem hjb]
      simp only [Option.map_some', Option.getD_some]
      rw [mag_eq_abs]
      congr 2
      unfold elt
      rw [List.getD_eq_getElem?_getD, List.getElem?_eq_getElem hjb]
      rfl
    rw [hget, hval j (by omega), dft_pure_sine (2 ^ m) k j A φ hk0 (by omega) (by omega)]
    by_cases hjk : j = k
    · rw [if_pos hjk, if_pos hjk]
      simp only [map_mul, map_neg_eq_map, map_div₀, Complex.abs_ofReal, Complex.abs_I,
        Complex.abs_exp_ofReal_mul_I, mul_one, Complex.abs_natCast]
      rw [Complex.abs_two]
      push_cast
      ring
    · rw [if_neg hjk, if_neg hjk]
      simp

end SineDFT

section FFTMain

/-- C2. For a complex input `a` whose length `N` is a power of two, `fft_inplace` in
exact arithmetic is defined and leaves in `a[k]` the forward discrete Fourier transform
of the input, for every `k < N`; consequently the magnitude spectrum of a pure sine of
`N` samples at bin frequency `k`, `0 < k < N/2`, with amplitude `A ≠ 0`, has bin `k` as
its only non-zero bin below `N/2` (its value there is `|A| * N / 2`). -/
theorem fft_inplace_correct (m : Nat) (a : List (Cx ℝ)) (hlen : a.length = 2 ^ m) :
    (∃ b, fft_inplace realOps a = some b ∧ b.length = a.length ∧
      ∀ k, k < a.length → toC (elt b k) = dft a k) ∧
    ∀ (k : Nat) (A φ : ℝ), 0 < k → k < a.length / 2 → A ≠ 0 →
      ∃ mags, real_fft_mag_0_to_nyquist realOps (pure_sine a.length k A φ) = some mags ∧
        mags.length = a.length / 2 ∧
        mags.getD k 0 = |A| * a.length / 2 ∧
        ∀ j, j < a.length / 2 → (mags.getD j 0 ≠ 0 ↔ j = k) := by
  refine ⟨fft_inplace_dft m a hlen, fun k A φ hk0 hk hA => ?_⟩
  rw [hlen] at hk ⊢
  obtain ⟨mags, hrun, hmlen, hval⟩ := real_fft_mag_pure_sine m k A φ hk0 hk
  have hNpos : (0 : ℝ) < 2 ^ m := by positivity
  have hpeak : mags.getD k 0 = |A| * 2 ^ m / 2 := by
    rw [hval k hk, if_pos rfl]
  refine ⟨mags, hrun, hmlen, by rw [hpeak]; push_cast; rfl, fun j hj => ?_⟩
  rw [hval j hj]
  by_cases hjk : j = k
  · rw [if_pos hjk]
    have : |A| * 2 ^ m / 2 ≠ 0 := by
      have hApos : 0 < |A| := abs_pos.2 hA
      positivity
    exact ⟨fun _ => hjk, fun _ => this⟩
  · rw [if_neg hjk]
    exact ⟨fun h => absurd rfl h, fun h => absurd h hjk⟩

end FFTMain

/-! ## Instances at concrete inputs -/

section Witnesses

/-- C1 at a ring of 8 and a window of 4, after three mono and two stereo frames. -/
theorem ring_snapshot_is_latest_witness :
    ∃ st1, run_callbacks (sample_state : KickVizState ℚ) sample_callbacks = some st1 ∧
      read_window st1 = some [2, 3, 5, 6] := by
  obtain ⟨st1, h1, h2, _⟩ := ring_snapshot_is_latest (sample_state : KickVizState ℚ)
    sample_callbacks (by decide) (by decide) (by decide) rfl (by decide)
    (by
      intro c hc au hau
      simp only [sample_callbacks, List.mem_cons, List.mem_singleton, List.not_mem_nil,
        or_false] at hc
      rcases hc with rfl | rfl
      · cases hau
        exact ⟨fun c h => by cases h; decide, fun c h => by cases h⟩
      · cases hau
        exact ⟨fun c h => by cases h; decide, fun c h => by cases h; decide⟩)
  refine ⟨st1, h1, ?_⟩
  rw [h2]
  simp [sample_state, sample_callbacks, written, written_by, downmix, latest, List.range_succ,
    List.replicate_succ]
  norm_num

/-- C2 at the vector `(1, 2, 3, 4)` and at a sine of 4 samples, amplitude 3, in bin 1. -/
theorem fft_inplace_correct_witness :
    (∃ b, fft_inplace realOps [⟨1, 0⟩, ⟨2, 0⟩, ⟨3, 0⟩, ⟨4, 0⟩] = some b ∧ b.length = 4 ∧
      ∀ k, k < 4 → toC (elt b k) = dft [⟨1, 0⟩, ⟨2, 0⟩, ⟨3, 0⟩, ⟨4, 0⟩] k) ∧
    ∃ mags, real_fft_mag_0_to_nyquist realOps (pure_sine 4 1 3 0) = some mags ∧
      mags.getD 1 0 = 6 ∧ mags.getD 0 0 = 0 := by
  have h := fft_inplace_correct 2 [⟨1, 0⟩, ⟨2, 0⟩, ⟨3, 0⟩, ⟨4, 0⟩] rfl
  refine ⟨h.1, ?_⟩
  obtain ⟨mags, hrun, _, hpeak, hother⟩ := h.2 1 3 0 (by norm_num) (by decide) (by norm_num)
  refine ⟨mags, hrun, ?_, ?_⟩
  · rw [hpeak]
    simp only [List.length_cons, List.length_nil]
    norm_num
  · by_contra hne
    exact absurd ((hother 0 (by decide)).1 hne) (by norm_num)

/-- C4 at a spectrum of 4 bins, selector value 7, 64 bars, bar 10. -/
theorem bar_index_in_bounds_witness :
    1 ≤ bar_index realOps 7 (([0, 0, 0, 0] : List ℝ).length : Int) 64 10 ∧
      bar_index realOps 7 (([0, 0, 0, 0] : List ℝ).length : Int) 64 10 ≤
        (([0, 0, 0, 0] : List ℝ).length : Int) - 1 ∧
      ∃ v, ([0, 0, 0, 0] : List ℝ)[(bar_index realOps 7
        (([0, 0, 0, 0] : List ℝ).length : Int) 64 10).toNat]? = some v :=
  bar_index_in_bounds realOps 7 [0, 0, 0, 0] 64 10 (by simp)

/-- The bar values of the sample state are ordered and in `[0, 1]`. -/
theorem sample_state_values (q : Nat) (hq : q < 2) :
    (0 ≤ (sample_state : KickVizState ℝ).smooth.getD q 0 ∧
      (sample_state : KickVizState ℝ).smooth.getD q 0 ≤ 1) ∧
    (0 ≤ (sample_state : KickVizState ℝ).peaks.getD q 0 ∧
      (sample_state : KickVizState ℝ).peaks.getD q 0 ≤ 1) ∧
    (sample_state : KickVizState ℝ).smooth.getD q 0 ≤
      (sample_state : KickVizState ℝ).peaks.getD q 0 := by
  interval_cases q <;> simp [sample_state] <;> norm_num

/-- C5 (amended) at the sample state, whose decay is 0.12, with a ring whose older
half is not silent (the window of 4 reads the newer half, which is), in a session
without deliveries, for `ε = 1/100`. -/
theorem silence_converges_witness :
    ∃ T, ∀ t, T ≤ t →
      ∃ st1, session realOps 2 (fun _ => []) t
          { (sample_state : KickVizState ℝ) with ring := [3, -2, 1, 5, 0, 0, 0, 0] } =
          some st1 ∧
        ∀ q, q < 2 → |st1.smooth.getD q 0| < 1 / 100 ∧ |st1.peaks.getD q 0| < 1 / 100 :=
  (silence_converges { (sample_state : KickVizState ℝ) with ring := [3, -2, 1, 5, 0, 0, 0, 0] }
    2 2 (fun _ => [])
    (by simp [sample_state]) (fun _ c hc => by cases hc) rfl le_rfl
    (quiet_session_silent
      { (sample_state : KickVizState ℝ) with ring := [3, -2, 1, 5, 0, 0, 0, 0] } 2 [0, 0, 0, 0]
      (by simp [read_window, copy_loop, sample_state]) (by simp))
    (by simp [sample_state]; norm_num) (by simp [sample_state]; norm_num)
    (by simp [sample_state]; norm_num) rfl
    (fun q hq => (sample_state_values q hq).1)
    (fun q hq => (sample_state_values q hq).2.1)).2 (by simp [sample_state]; norm_num)
    (1 / 100) (by norm_num)

/-- C6 (amended) at the sample state with a smoothing setting of 2 (stored as 0.95), on
a tick with two bars: the ring is silent, so the raw intensity of bar 0 is 0, and
`smooth[0] = 0.5`, `peaks[0] = 1` become `0.5 * 0.95` and `1 - 0.12 * 0.02`. -/
theorem compute_bins_silent_bar_witness :
    ∃ st1, compute_bins realOps (kickviz_update (sample_state : KickVizState ℝ)
        { (sample_state : KickVizState ℝ).S with smoothing := 2 }) 2 = some st1 ∧
      st1.smooth.getD 0 0 = 0.5 * 0.95 ∧ st1.peaks.getD 0 0 = 1 - 0.12 * 0.02 := by
  obtain ⟨st1, w0, mags, hread, hfft, hrun, hstep⟩ :=
    compute_bins_silent_bar realOps (sample_state : KickVizState ℝ)
      { (sample_state : KickVizState ℝ).S with smoothing := 2 } 2 2 0
      (by simp [sample_state]) rfl le_rfl rfl (by norm_num)
  obtain ⟨w1, hread1, _, hmem⟩ := read_window_defined (kickviz_update
    (sample_state : KickVizState ℝ) { (sample_state : KickVizState ℝ).S with smoothing := 2 })
    (by simp [sample_state, kickviz_update])
  rw [hread] at hread1
  cases hread1
  have hz : ∀ v ∈ w0, v = 0 := by
    intro v hv
    have := hmem v hv
    simpa [sample_state, kickviz_update] using this
  have hraw := bar_raw_zero (kickviz_update (sample_state : KickVizState ℝ)
    { (sample_state : KickVizState ℝ).S with smoothing := 2 }).S mags 2 0
    (silent_window_mags w0 mags hz hfft)
  obtain ⟨e1, e2, _, _⟩ := (hstep hraw).1 rfl (by simp [sample_state]; norm_num)
  have ea : (kickviz_update (sample_state : KickVizState ℝ)
      { (sample_state : KickVizState ℝ).S with smoothing := 2 }).S.smoothing = 0.95 :=
    clampf_of_gt (2 : ℝ) 0 0.95 (by norm_num) (by norm_num)
  have ed : (kickviz_update (sample_state : KickVizState ℝ)
      { (sample_state : KickVizState ℝ).S with smoothing := 2 }).S.decay = 0.12 :=
    clampf_of_mem (0.12 : ℝ) 0 1 (by norm_num) (by norm_num)
  have es : (sample_state : KickVizState ℝ).smooth.getD 0 0 = 0.5 := rfl
  have ep : (sample_state : KickVizState ℝ).peaks.getD 0 0 = 1 := rfl
  rw [ea, es] at e1
  rw [ea, ed, es, ep] at e2
  exact ⟨st1, hrun, e1, e2 (by norm_num)⟩

/-- C7 at the sample state, whose two bars are reset by a tick with three bars. -/
theorem compute_bins_bar_count_witness :
    ∃ st1, compute_bins realOps (sample_state : KickVizState ℝ) 3 = some st1 ∧
      st1.smooth.length = 3 ∧ st1.peaks.length = 3 ∧
      compute_bins realOps
        { (sample_state : KickVizState ℝ) with
          smooth := List.replicate 3 0, peaks := List.replicate 3 0 } 3 = some st1 := by
  obtain ⟨st1, h1, h2, h3, h4⟩ := compute_bins_bar_count realOps
    (sample_state : KickVizState ℝ) 3 2 (by simp [sample_state]) rfl le_rfl rfl
  exact ⟨st1, h1, h2, h3, (h4 (by simp [sample_state])).1⟩

/-- C9 (amended) at the input `(1, 2, 3, 4)` and the scalar `-2`. -/
theorem real_fft_mag_homogeneous_witness :
    ∃ mags, real_fft_mag_0_to_nyquist realOps [1, 2, 3, 4] = some mags ∧
      mags.length = 2 ∧
      real_fft_mag_0_to_nyquist realOps ([1, 2, 3, 4].map fun v => -2 * v) =
        some (mags.map fun v => |(-2 : ℝ)| * v) ∧
      energy (mags.map fun v => |(-2 : ℝ)| * v) = (-2) ^ 2 * energy mags := by
  obtain ⟨mags, h1, h2, h3, _, _, h6, _⟩ :=
    real_fft_mag_homogeneous [1, 2, 3, 4] (-2) (Or.inr ⟨2, rfl⟩)
  exact ⟨mags, h1, h2, h3, h6⟩

/-- C10 at the sample state and two bars. -/
theorem bar_state_invariant_witness :
    ∃ st1, compute_bins realOps (sample_state : KickVizState ℝ) 2 = some st1 ∧
      BarInv st1.smooth st1.peaks :=
  (bar_state_invariant realOps (sample_state : KickVizState ℝ) 2 2 (by simp [sample_state]) rfl
    le_rfl (by simp [sample_state]; norm_num) (by simp [sample_state]; norm_num)
    (by simp [sample_state]; norm_num)
    ⟨rfl, fun q hq => ⟨(sample_state_values q hq).1.1, (sample_state_values q hq).2.2,
      (sample_state_values q hq).2.1.2⟩⟩).2

end Witnesses

end KickViz
